import Mathlib

/-
Verification of the tracer renderer's acceleration structure, integrator
corner cases, variance estimator and per-pixel driver.

Modelling conventions (shallow embedding of the Rust sources):
* `f32` is modelled by `F`: exact rationals extended with the IEEE special
  values plus-infinity, minus-infinity and NaN.  Finite arithmetic is exact
  (rounding is not modelled); the special values follow IEEE-754 semantics,
  with a single zero (the sources never produce a sign-relevant negative
  zero on the paths verified here).
* `f32::sqrt` is modelled by `F.fsqrt` / `sqrtQ`: exact on perfect squares of
  rationals (the only inputs whose value any theorem below depends on) and a
  floor-style rational approximation elsewhere.
* Debug-only assertions (`debug_assert!`) are skipped, matching release
  builds.  Paths on which the source panics (out-of-range indexing, `unwrap`
  of `None`, `expect`) are modelled by a total fallback value and are proved
  or noted unreachable for the inputs the theorems speak about.
* `u32` indices are modelled by `ℕ`; the claims carry the source's
  `len < 2^32 - 1` bound as a hypothesis where the claim states it.
-/

namespace Tracer

/-- Model of `f32`: an exact rational, or one of the IEEE special values. -/
inductive F where
  | q : ℚ → F
  | inf : F
  | ninf : F
  | nan : F
deriving DecidableEq, Repr

namespace F

/-- `f32::is_nan`. -/
def isNan : F → Bool
  | nan => true
  | _ => false

/-- `f32::is_infinite`. -/
def isInfinite : F → Bool
  | inf => true
  | ninf => true
  | _ => false

/-- `f32::is_finite`. -/
def isFinite : F → Bool
  | q _ => true
  | _ => false

/-- IEEE negation. -/
def neg : F → F
  | q a => q (-a)
  | inf => ninf
  | ninf => inf
  | nan => nan

/-- IEEE addition (exact in the finite case). -/
def add : F → F → F
  | nan, _ => nan
  | _, nan => nan
  | inf, ninf => nan
  | ninf, inf => nan
  | inf, _ => inf
  | _, inf => inf
  | ninf, _ => ninf
  | _, ninf => ninf
  | q a, q b => q (a + b)

/-- IEEE subtraction, `a - b = a + (-b)`. -/
def sub (a b : F) : F := add a (neg b)

/-- IEEE multiplication; `0 * inf = NaN`. -/
def mul : F → F → F
  | nan, _ => nan
  | _, nan => nan
  | q a, q b => q (a * b)
  | inf, inf => inf
  | inf, ninf => ninf
  | ninf, inf => ninf
  | ninf, ninf => inf
  | q a, inf => if a = 0 then nan else if 0 < a then inf else ninf
  | inf, q a => if a = 0 then nan else if 0 < a then inf else ninf
  | q a, ninf => if a = 0 then nan else if 0 < a then ninf else inf
  | ninf, q a => if a = 0 then nan else if 0 < a then ninf else inf

/-- IEEE division; division by (positive) zero gives a signed infinity,
`0/0` and `inf/inf` give NaN. -/
def div : F → F → F
  | nan, _ => nan
  | _, nan => nan
  | q a, q b => if b = 0 then (if a = 0 then nan else if 0 < a then inf else ninf) else q (a / b)
  | q _, inf => q 0
  | q _, ninf => q 0
  | inf, q b => if 0 ≤ b then inf else ninf
  | ninf, q b => if 0 ≤ b then ninf else inf
  | inf, inf => nan
  | inf, ninf => nan
  | ninf, inf => nan
  | ninf, ninf => nan

/-- IEEE `<` as a boolean; any comparison involving NaN is `false`. -/
def blt : F → F → Bool
  | nan, _ => false
  | _, nan => false
  | ninf, ninf => false
  | ninf, _ => true
  | _, ninf => false
  | inf, _ => false
  | q _, inf => true
  | q a, q b => decide (a < b)

/-- IEEE `==` as a boolean; NaN is not equal to anything, itself included. -/
def beq : F → F → Bool
  | q a, q b => decide (a = b)
  | inf, inf => true
  | ninf, ninf => true
  | _, _ => false

/-- IEEE `<=` as a boolean. -/
def ble (a b : F) : Bool := blt a b || beq a b

/-- Rust `f32::min`: the smaller argument, ignoring NaN. -/
def fmin : F → F → F
  | nan, b => b
  | a, nan => a
  | ninf, _ => ninf
  | _, ninf => ninf
  | inf, b => b
  | a, inf => a
  | q a, q b => q (min a b)

/-- Rust `f32::max`: the larger argument, ignoring NaN. -/
def fmax : F → F → F
  | nan, b => b
  | a, nan => a
  | inf, _ => inf
  | _, inf => inf
  | ninf, b => b
  | a, ninf => a
  | q a, q b => q (max a b)

/-- The `decorum::Total` order used by `max_by_key` in the BVH builder:
minus-infinity, then finite values, then plus-infinity, then NaN. -/
def totalLe : F → F → Bool
  | _, nan => true
  | nan, _ => false
  | ninf, _ => true
  | _, ninf => false
  | _, inf => true
  | inf, _ => false
  | q a, q b => decide (a ≤ b)

end F

/-- Rational square root, exact on perfect squares (`sqrtQ (c*c) = c` for
`0 ≤ c`), a floor-style approximation elsewhere.  Models `f32::sqrt` for
nonnegative finite inputs; every theorem below depends on its value only at
perfect squares. -/
def sqrtQ (v : ℚ) : ℚ := mkRat (Nat.sqrt (v.num.toNat * v.den)) v.den

namespace F

/-- `f32::sqrt` on the model: NaN for negative or NaN input, `inf` at `inf`. -/
def fsqrt : F → F
  | nan => nan
  | inf => inf
  | ninf => nan
  | q v => if v < 0 then nan else q (sqrtQ v)

end F

/-- Model of `common::math::Vec3`. -/
structure Vec3 where
  x : F
  y : F
  z : F
deriving DecidableEq, Repr

/-- Model of `common::math::Point3`. -/
structure Point3 where
  x : F
  y : F
  z : F
deriving DecidableEq, Repr

namespace Vec3

def add (a b : Vec3) : Vec3 := ⟨F.add a.x b.x, F.add a.y b.y, F.add a.z b.z⟩

def smul (a : Vec3) (r : F) : Vec3 := ⟨F.mul a.x r, F.mul a.y r, F.mul a.z r⟩

/-- `Neg for Vec3` is `self * -1.0` in the source. -/
def neg (a : Vec3) : Vec3 := smul a (F.q (-1))

/-- `Sub for Vec3` is `self + (-rhs)` in the source. -/
def sub (a b : Vec3) : Vec3 := add a (neg b)

def sdiv (a : Vec3) (r : F) : Vec3 := ⟨F.div a.x r, F.div a.y r, F.div a.z r⟩

/-- `Vec3::dot`, with the source's left-to-right sum order. -/
def dot (a b : Vec3) : F :=
  F.add (F.add (F.mul a.x b.x) (F.mul a.y b.y)) (F.mul a.z b.z)

def norm_squared (a : Vec3) : F := dot a a

def norm (a : Vec3) : F := F.fsqrt (norm_squared a)

/-- `try_normalized`: `None` when the norm compares equal to `0.0`. -/
def try_normalized (a : Vec3) : Option Vec3 :=
  if F.beq (norm a) (F.q 0) then none else some (sdiv a (norm a))

/-- `normalized`: the source panics when the norm is zero; the fallback value
`a` is never reached on the inputs any theorem below evaluates. -/
def normalizedD (a : Vec3) : Vec3 := (try_normalized a).getD a

def zAxis : Vec3 := ⟨F.q 0, F.q 0, F.q 1⟩

end Vec3

namespace Point3

def coords (p : Point3) : Vec3 := ⟨p.x, p.y, p.z⟩

def from_coords (v : Vec3) : Point3 := ⟨v.x, v.y, v.z⟩

def origin : Point3 := ⟨F.q 0, F.q 0, F.q 0⟩

def addv (p : Point3) (v : Vec3) : Point3 := from_coords (Vec3.add (coords p) v)

def subp (p r : Point3) : Vec3 := Vec3.sub (coords p) (coords r)

def pmin (p r : Point3) : Point3 := ⟨F.fmin p.x r.x, F.fmin p.y r.y, F.fmin p.z r.z⟩

def pmax (p r : Point3) : Point3 := ⟨F.fmax p.x r.x, F.fmax p.y r.y, F.fmax p.z r.z⟩

/-- `Point3::middle`: componentwise `(a + b) / 2`. -/
def middle (p r : Point3) : Point3 :=
  ⟨F.div (F.add p.x r.x) (F.q 2), F.div (F.add p.y r.y) (F.q 2), F.div (F.add p.z r.z) (F.q 2)⟩

/-- Rust `Point3 != Point3` (derived `PartialEq`), true iff some component
comparison fails; detects NaN components. -/
def bne (p r : Point3) : Bool :=
  !(F.beq p.x r.x && F.beq p.y r.y && F.beq p.z r.z)

end Point3

/-- `common::math::Axis3`. -/
inductive Axis3 where
  | X
  | Y
  | Z
deriving DecidableEq, Repr

def Axis3.ALL : List Axis3 := [Axis3.X, Axis3.Y, Axis3.Z]

def Point3.get (p : Point3) : Axis3 → F
  | Axis3.X => p.x
  | Axis3.Y => p.y
  | Axis3.Z => p.z

def Vec3.get (v : Vec3) : Axis3 → F
  | Axis3.X => v.x
  | Axis3.Y => v.y
  | Axis3.Z => v.z

/-- A row of `common::math::Matrix4`. -/
structure Row4 where
  a : F
  b : F
  c : F
  d : F
deriving DecidableEq, Repr

/-- Model of `common::math::Matrix4` (row-major, as in the source). -/
structure Matrix4 where
  r0 : Row4
  r1 : Row4
  r2 : Row4
  r3 : Row4
deriving DecidableEq, Repr

namespace Matrix4

/-- One output component of `Matrix4 * [f32; 4]`: the iterator `sum()`
starting from `0.0`, left to right. -/
def dotRow (r : Row4) (x y z w : F) : F :=
  F.add (F.add (F.add (F.add (F.q 0) (F.mul r.a x)) (F.mul r.b y)) (F.mul r.c z)) (F.mul r.d w)

def transpose (m : Matrix4) : Matrix4 :=
  ⟨⟨m.r0.a, m.r1.a, m.r2.a, m.r3.a⟩,
   ⟨m.r0.b, m.r1.b, m.r2.b, m.r3.b⟩,
   ⟨m.r0.c, m.r1.c, m.r2.c, m.r3.c⟩,
   ⟨m.r0.d, m.r1.d, m.r2.d, m.r3.d⟩⟩

def identity : Matrix4 :=
  ⟨⟨F.q 1, F.q 0, F.q 0, F.q 0⟩,
   ⟨F.q 0, F.q 1, F.q 0, F.q 0⟩,
   ⟨F.q 0, F.q 0, F.q 1, F.q 0⟩,
   ⟨F.q 0, F.q 0, F.q 0, F.q 1⟩⟩

/-- `Matrix4::translate`. -/
def translate (v : Vec3) : Matrix4 :=
  ⟨⟨F.q 1, F.q 0, F.q 0, v.x⟩,
   ⟨F.q 0, F.q 1, F.q 0, v.y⟩,
   ⟨F.q 0, F.q 0, F.q 1, v.z⟩,
   ⟨F.q 0, F.q 0, F.q 0, F.q 1⟩⟩

end Matrix4

/-- Model of `common::math::Transform`: a forward matrix stored together with
its inverse. -/
structure Transform where
  fwd : Matrix4
  inv : Matrix4
deriving DecidableEq, Repr

namespace Transform

/-- `Transform::inv`: swap the two matrices. -/
def invT (t : Transform) : Transform := ⟨t.inv, t.fwd⟩

/-- `Transform * Point3`: homogeneous `w = 1` (the debug assertion on the
resulting `h` is skipped, as in release builds). -/
def mulPoint (t : Transform) (p : Point3) : Point3 :=
  ⟨Matrix4.dotRow t.fwd.r0 p.x p.y p.z (F.q 1),
   Matrix4.dotRow t.fwd.r1 p.x p.y p.z (F.q 1),
   Matrix4.dotRow t.fwd.r2 p.x p.y p.z (F.q 1)⟩

/-- `Transform * Vec3`: homogeneous `w = 0`. -/
def mulVec (t : Transform) (v : Vec3) : Vec3 :=
  ⟨Matrix4.dotRow t.fwd.r0 v.x v.y v.z (F.q 0),
   Matrix4.dotRow t.fwd.r1 v.x v.y v.z (F.q 0),
   Matrix4.dotRow t.fwd.r2 v.x v.y v.z (F.q 0)⟩

/-- `Transform::inv_transpose_mul`. -/
def inv_transpose_mul (t : Transform) (v : Vec3) : Vec3 :=
  let m := Matrix4.transpose t.inv
  ⟨Matrix4.dotRow m.r0 v.x v.y v.z (F.q 0),
   Matrix4.dotRow m.r1 v.x v.y v.z (F.q 0),
   Matrix4.dotRow m.r2 v.x v.y v.z (F.q 0)⟩

def idT : Transform := ⟨Matrix4.identity, Matrix4.identity⟩

/-- `Transform::translate`. -/
def translate (v : Vec3) : Transform :=
  ⟨Matrix4.translate v, Matrix4.translate (Vec3.neg v)⟩

end Transform

/-- Model of `common::scene::Shape`.  The `tracer` crate's `scene.rs` is not
among the provided sources; the variant list is taken from the older
`src/common/scene.rs` together with the `Square` variant that
`cpu/geometry.rs` of the `tracer` crate matches on. -/
inductive Shape where
  | Sphere
  | Plane
  | Triangle
  | Square
  | Cylinder
deriving DecidableEq, Repr

/-- Model of `common::scene::Object`, restricted to the fields the
acceleration layer reads (`shape` and `transform`); the material is only ever
inspected through the abstract filter predicate, which the theorems below
quantify over. -/
structure Object where
  shape : Shape
  transform : Transform
deriving DecidableEq, Repr

def defaultObject : Object := ⟨Shape.Sphere, Transform.idT⟩

/-- Model of `common::aabb::AxisBox`.  The constructor's release-mode
assertion `high - low >= 0` is not enforced by the model; the builder
invariants proven below never need it. -/
structure AxisBox where
  low : Point3
  high : Point3
deriving DecidableEq, Repr

namespace AxisBox

/-- `AxisBox::combine`. -/
def combine (a b : AxisBox) : AxisBox :=
  ⟨Point3.pmin a.low b.low, Point3.pmax a.high b.high⟩

/-- The eight corners visited by `AxisBox::for_each_corner`, in source order. -/
def corners (bx : AxisBox) : List Point3 :=
  [bx.low,
   ⟨bx.high.x, bx.low.y, bx.low.z⟩,
   ⟨bx.low.x, bx.high.y, bx.low.z⟩,
   ⟨bx.low.x, bx.low.y, bx.high.z⟩,
   ⟨bx.high.x, bx.high.y, bx.low.z⟩,
   ⟨bx.high.x, bx.low.y, bx.high.z⟩,
   ⟨bx.low.x, bx.high.y, bx.high.z⟩,
   bx.high]

/-- `Transform * AxisBox`: bounding box of the eight transformed corners,
accumulating from `(inf, inf, inf)` / `(-inf, -inf, -inf)` as in the source. -/
def transformBox (t : Transform) (bx : AxisBox) : AxisBox :=
  let step := fun (acc : Point3 × Point3) (p : Point3) =>
    let pt := Transform.mulPoint t p
    (Point3.pmin acc.1 pt, Point3.pmax acc.2 pt)
  let r := (corners bx).foldl step
    (⟨F.inf, F.inf, F.inf⟩, ⟨F.ninf, F.ninf, F.ninf⟩)
  ⟨r.1, r.2⟩

/-- `AxisBox::for_shape`: the canonical object-space box of each primitive. -/
def for_shape : Shape → AxisBox
  | Shape.Sphere => ⟨⟨F.q (-1), F.q (-1), F.q (-1)⟩, ⟨F.q 1, F.q 1, F.q 1⟩⟩
  | Shape.Plane => ⟨⟨F.ninf, F.ninf, F.q 0⟩, ⟨F.inf, F.inf, F.q 0⟩⟩
  | Shape.Triangle => ⟨⟨F.q 0, F.q 0, F.q 0⟩, ⟨F.q 1, F.q 1, F.q 0⟩⟩
  | Shape.Square => ⟨⟨F.q 0, F.q 0, F.q 0⟩, ⟨F.q 1, F.q 1, F.q 0⟩⟩
  | Shape.Cylinder => ⟨⟨F.q (-1), F.ninf, F.q (-1)⟩, ⟨F.q 1, F.inf, F.q 1⟩⟩

/-- `AxisBox::for_object`: the world-space box of the transformed shape box. -/
def for_object (o : Object) : AxisBox := transformBox o.transform (for_shape o.shape)

/-- `AxisBox::is_finite`. -/
def is_finite (bx : AxisBox) : Bool :=
  bx.low.x.isFinite && bx.low.y.isFinite && bx.low.z.isFinite &&
  (bx.high.x.isFinite && bx.high.y.isFinite && bx.high.z.isFinite)

/-- Modelled from the spec: `AxisBox::area` is called by the surface-area
heuristic (`bound.area()` in `find_best_split_surface_area`) but its
definition is absent from the provided sources; the spec's SAH cost
`A(box)` is modelled as the standard box surface area
`2*(dx*dy + dy*dz + dz*dx)`.  No theorem below depends on its value: the
builder invariants hold for every split choice. -/
def area (bx : AxisBox) : F :=
  let dx := F.sub bx.high.x bx.low.x
  let dy := F.sub bx.high.y bx.low.y
  let dz := F.sub bx.high.z bx.low.z
  F.mul (F.q 2) (F.add (F.add (F.mul dx dy) (F.mul dy dz)) (F.mul dz dx))

end AxisBox

/-- Model of `cpu::geometry::Ray`.  The direction's `Unit` wrapper only
carries a debug assertion and is modelled as a plain vector. -/
structure Ray where
  start : Point3
  direction : Vec3
deriving DecidableEq, Repr

namespace Ray

/-- `Ray::at` (`at` is a Lean keyword, hence the name `atT`). -/
def atT (r : Ray) (t : F) : Point3 := Point3.addv r.start (Vec3.smul r.direction t)

end Ray

namespace AxisBox

/-- `AxisBox::intersects`: the three-axis slab test, folding `t_min`/`t_max`
over the axes in order, starting from `-inf` / `inf`. -/
def intersects (bx : AxisBox) (ray : Ray) : Option F :=
  let step := fun (acc : F × F) (axis : Axis3) =>
    let t1 := F.div (F.sub (bx.low.get axis) (ray.start.get axis)) (ray.direction.get axis)
    let t2 := F.div (F.sub (bx.high.get axis) (ray.start.get axis)) (ray.direction.get axis)
    (F.fmax acc.1 (F.fmin t1 t2), F.fmin acc.2 (F.fmax t1 t2))
  let r := Axis3.ALL.foldl step (F.ninf, F.inf)
  if F.ble r.1 r.2 && F.blt (F.q 0) r.2 then some r.1 else none

end AxisBox

/-- Model of `cpu::geometry::Hit`. -/
structure Hit where
  t : F
  point : Point3
  normal : Vec3
deriving DecidableEq, Repr

/-- Minimal model of `common::math::Vec2`, used by the cylinder intersector. -/
structure Vec2 where
  x : F
  y : F
deriving DecidableEq, Repr

namespace Vec2

def dot (a b : Vec2) : F := F.add (F.mul a.x b.x) (F.mul a.y b.y)

def norm_squared (a : Vec2) : F := dot a a

def norm (a : Vec2) : F := F.fsqrt (norm_squared a)

def sdiv (a : Vec2) (r : F) : Vec2 := ⟨F.div a.x r, F.div a.y r⟩

/-- `normalized_and_get`: the source panics when the norm is zero; the
fallback pair `(a, norm a)` is never reached on the inputs any theorem below
evaluates. -/
def normalized_and_getD (a : Vec2) : Vec2 × F :=
  if F.beq (norm a) (F.q 0) then (a, norm a) else (sdiv a (norm a), norm a)

end Vec2

/-- `cpu::geometry::sphere_intersect`. -/
def sphere_intersect (ray : Ray) : Option Hit :=
  let b := Vec3.dot (Point3.coords ray.start) ray.direction
  let c := F.sub (Vec3.norm_squared (Point3.coords ray.start)) (F.q 1)
  let d := F.sub (F.mul b b) c
  if F.blt d (F.q 0) || (F.blt (F.q 0) c && F.blt (F.q 0) b) then none
  else
    let t_near := F.sub (F.neg b) (F.fsqrt d)
    let t_far := F.add (F.neg b) (F.fsqrt d)
    let t := if F.ble (F.q 0) t_near then t_near else t_far
    match Vec3.try_normalized (Point3.coords (Ray.atT ray t)) with
    | none => none
    | some result => some ⟨t, Point3.from_coords result, result⟩

/-- `cpu::geometry::plane_intersect`. -/
def plane_intersect (ray : Ray) : Option Hit :=
  let t := F.div (F.neg ray.start.z) ray.direction.z
  if !t.isFinite || F.blt t (F.q 0) then none
  else some ⟨t, Ray.atT ray t, Vec3.zAxis⟩

/-- `cpu::geometry::triangle_intersect`. -/
def triangle_intersect (ray : Ray) : Option Hit :=
  (plane_intersect ray).filter fun hit =>
    (F.ble (F.q 0) hit.point.x && F.blt hit.point.x (F.q 1)) &&
    (F.ble (F.q 0) hit.point.y && F.blt hit.point.y (F.q 1)) &&
    F.blt (F.add hit.point.x hit.point.y) (F.q 1)

/-- `cpu::geometry::square_intersect`. -/
def square_intersect (ray : Ray) : Option Hit :=
  (plane_intersect ray).filter fun hit =>
    (F.ble (F.q 0) hit.point.x && F.blt hit.point.x (F.q 1)) &&
    (F.ble (F.q 0) hit.point.y && F.blt hit.point.y (F.q 1))

/-- `cpu::geometry::cylinder_intersect`. -/
def cylinder_intersect (ray : Ray) : Option Hit :=
  let start : Vec2 := ⟨ray.start.x, ray.start.z⟩
  let dn := Vec2.normalized_and_getD ⟨ray.direction.x, ray.direction.z⟩
  let direction := dn.1
  let dir_2d_norm := dn.2
  let b := Vec2.dot start direction
  let c := F.sub (Vec2.norm_squared start) (F.q 1)
  let d := F.sub (F.mul b b) c
  if F.blt d (F.q 0) || (F.blt (F.q 0) c && F.blt (F.q 0) b) then none
  else
    let t_near := F.sub (F.neg b) (F.fsqrt d)
    let t_far := F.add (F.neg b) (F.fsqrt d)
    let t0 := if F.ble (F.q 0) t_near then t_near else t_far
    let t := F.div t0 dir_2d_norm
    let point0 := Ray.atT ray t
    let normal := Vec3.normalizedD ⟨point0.x, F.q 0, point0.z⟩
    let point : Point3 := ⟨normal.x, point0.y, normal.z⟩
    if Point3.bne point point then none
    else some ⟨t, point, normal⟩

/-- `Hit::transform`: transport an object-space hit back to world space. -/
def Hit.transformH (h : Hit) (t : Transform) (direction : Vec3) : Hit :=
  ⟨F.div h.t (Vec3.norm (Transform.mulVec (Transform.invT t) direction)),
   Transform.mulPoint t h.point,
   Vec3.normalizedD (Transform.inv_transpose_mul t h.normal)⟩

/-- `Transform * Ray`: map start and direction, re-normalising the latter. -/
def Ray.transformR (t : Transform) (r : Ray) : Ray :=
  ⟨Transform.mulPoint t r.start, Vec3.normalizedD (Transform.mulVec t r.direction)⟩

/-- `cpu::geometry::intersect_transformed_shape` (debug-only hit checks
skipped). -/
def intersect_transformed_shape (shape : Shape) (t : Transform) (ray : Ray) : Option Hit :=
  let obj_ray := Ray.transformR (Transform.invT t) ray
  let obj_hit :=
    match shape with
    | Shape.Sphere => sphere_intersect obj_ray
    | Shape.Plane => plane_intersect obj_ray
    | Shape.Triangle => triangle_intersect obj_ray
    | Shape.Square => square_intersect obj_ray
    | Shape.Cylinder => cylinder_intersect obj_ray
  obj_hit.map fun h => Hit.transformH h t ray.direction

/-- `Object::intersect` (the `Intersect` impl). -/
def Object.intersect (o : Object) (ray : Ray) : Option Hit :=
  intersect_transformed_shape o.shape o.transform ray

/-- Model of `cpu::accel::ObjectId` + `cpu::geometry::ObjectHit`. -/
structure ObjectHit where
  id : ℕ
  hit : Hit
deriving DecidableEq, Repr

namespace ObjectHit

/-- `ObjectHit::closest`: the hit with the smaller `t` (ties and NaN pick the
right argument, as `left.hit.t < right.hit.t` is then false). -/
def closest (left right : ObjectHit) : ObjectHit :=
  if F.blt left.hit.t right.hit.t then left else right

/-- `ObjectHit::closest_option`. -/
def closest_option : Option ObjectHit → Option ObjectHit → Option ObjectHit
  | some result, none => some result
  | none, some result => some result
  | some left, some right => some (closest left right)
  | none, none => none

end ObjectHit

/-- The free function `cpu::accel::first_hit`: scan the object list, keeping
the filtered hit with the smallest `t`.  `min_by_key` returns the first
minimal element; it panics on a NaN key (`N32::from_inner`), which no theorem
below reaches — the fold keeps the earlier element whenever the strict `<`
comparison fails. -/
def scanHits (objects : List Object) (ray : Ray) (filter : Object → Bool) :
    List (ℕ × Hit) :=
  objects.enum.filterMap fun p =>
    if filter p.2 then (Object.intersect p.2 ray).map fun h => (p.1, h) else none

/-- The fold at the heart of `first_hit`: keep the element with the smallest
`t`, the earlier one on ties. -/
def minFold (hits : List (ℕ × Hit)) : Option (ℕ × Hit) :=
  hits.foldl
    (fun acc ih =>
      match acc with
      | none => some ih
      | some jg => if F.blt ih.2.t jg.2.t then some ih else some jg)
    none

def first_hit_scan (objects : List Object) (ray : Ray) (filter : Object → Bool) :
    Option (ℕ × Hit) :=
  minFold (scanHits objects ray filter)

/-- The brute-force reference: `NoAccel::first_hit`, a linear scan over the
whole object list. -/
def linear_first_hit (objects : List Object) (ray : Ray) (filter : Object → Bool) :
    Option ObjectHit :=
  (first_hit_scan objects ray filter).map fun p => ⟨p.1, p.2⟩

/-- Model of the BVH node kind (`NonZeroU32` lengths become `ℕ`, with
`1 ≤ len` maintained by construction). -/
inductive NodeKind where
  | leaf (start len : ℕ)
  | branch (left_index : ℕ)
deriving DecidableEq, Repr

/-- Model of `cpu::accel::bvh::Node`. -/
structure Node where
  bound : AxisBox
  kind : NodeKind
deriving DecidableEq, Repr

/-- Model of `cpu::accel::bvh::BVH` (`SmallId` becomes a plain `ℕ`). -/
structure BVH where
  global_ids : List ℕ
  ids : List ℕ
  nodes : List Node
deriving DecidableEq, Repr

/-- Model of `cpu::accel::bvh::BVHSplitStrategy`. -/
inductive BVHSplitStrategy where
  | SplitLargestAxis
  | SurfaceAreaHeuristic (test_planes : Option ℕ)
deriving DecidableEq, Repr

/-- The objects of a leaf slice, in slice order (out-of-range lookups, a
panic in the source, fall back to defaults and are unreachable for built
trees). -/
def leafObjects (objects : List Object) (ids : List ℕ) (start len : ℕ) : List Object :=
  (List.range len).map fun k => objects.getD (ids.getD (start + k) 0) defaultObject

/-- `BVH::first_hit_impl`.  The recursion over node indices is modelled with
explicit fuel; `BVH::first_hit` below supplies `nodes.length`, which suffices
for every tree the builder produces (children are pushed after their parent,
so indices strictly increase along any path).  Exhausted fuel and
out-of-range node indices (panics in the source) yield `none`. -/
def firstHitImpl (bvh : BVH) (objects : List Object) (ray : Ray)
    (filter : Object → Bool) : ℕ → ℕ → F → Option ObjectHit
  | 0, _, _ => none
  | fuel + 1, node, t_max =>
    match bvh.nodes.get? node with
    | none => none
    | some nd =>
      if (AxisBox.intersects nd.bound ray).isNone then none
      else
        match nd.kind with
        | NodeKind.leaf start len =>
          (first_hit_scan (leafObjects objects bvh.ids start len) ray filter).map fun p =>
            ⟨bvh.ids.getD (start + p.1) 0, p.2⟩
        | NodeKind.branch left_index =>
          let childT := fun (i : ℕ) =>
            match bvh.nodes.get? i with
            | none => F.inf
            | some c => (AxisBox.intersects c.bound ray).getD F.inf
          let fi0 := left_index
          let si0 := left_index + 1
          let ft0 := childT fi0
          let st0 := childT si0
          let fi := if !(F.blt ft0 st0) then si0 else fi0
          let si := if !(F.blt ft0 st0) then fi0 else si0
          let ft := if !(F.blt ft0 st0) then st0 else ft0
          let st := if !(F.blt ft0 st0) then ft0 else st0
          let best0 : Option ObjectHit := none
          let step1 :=
            if F.blt ft t_max then
              let first := firstHitImpl bvh objects ray filter fuel fi t_max
              (ObjectHit.closest_option best0 first,
               F.fmin t_max ((first.map fun oh => oh.hit.t).getD F.inf))
            else (best0, t_max)
          let best1 := step1.1
          let t_max1 := step1.2
          if F.blt st t_max1 then
            ObjectHit.closest_option best1 (firstHitImpl bvh objects ray filter fuel si t_max1)
          else best1

/-- `<Accel for BVH>::first_hit`. -/
def BVH.first_hit (bvh : BVH) (objects : List Object) (ray : Ray)
    (filter : Object → Bool) : Option ObjectHit :=
  let global_objects := bvh.global_ids.map fun id => objects.getD id defaultObject
  let global_hit := (first_hit_scan global_objects ray filter).map fun p =>
    ⟨bvh.global_ids.getD p.1 0, p.2⟩
  if bvh.nodes.isEmpty then global_hit
  else
    let t_max := ((global_hit.map fun oh => oh.hit.t).getD F.inf)
    let tree_hit := firstHitImpl bvh objects ray filter bvh.nodes.length 0 t_max
    ObjectHit.closest_option global_hit tree_hit

/-- Helper for the `itertools::partition` model: find the LAST element of the
list satisfying `p`, returning the prefix before it, the element, and the
(all-failing) suffix after it. -/
def splitLastP (p : α → Bool) : List α → Option (List α × α × List α)
  | [] => none
  | z :: zs =>
    match splitLastP p zs with
    | some r => some (z :: r.1, r.2.1, r.2.2)
    | none => if p z then some ([], z, zs) else none

/-- Fuel-indexed worker for the `itertools::partition` model; the fuel is a
bound on the list length (`partitionIt` supplies the length itself, and the
window shrinks at every step, so the `fuel = 0` fallback is unreachable). -/
def partitionItAux (p : α → Bool) : ℕ → List α → List α × ℕ
  | 0, l => (l, 0)
  | fuel + 1, l =>
    match l with
    | [] => ([], 0)
    | x :: rest =>
      if p x then
        let r := partitionItAux p fuel rest
        (x :: r.1, r.2 + 1)
      else
        match splitLastP p rest with
        | none => (x :: rest, 0)
        | some (A, y, B) =>
          let r := partitionItAux p fuel (A ++ [x])
          (y :: (r.1 ++ B), r.2 + 1)

/-- Model of `itertools::partition` (an external dependency of the BVH
builder): a forward cursor swaps each failing element with the last passing
element found scanning from the back, stopping when the back scan finds
nothing.  Returns the rearranged list and the split index. -/
def partitionIt (p : α → Bool) (l : List α) : List α × ℕ :=
  partitionItAux p l.length l

/-- `Builder::get_object` (out-of-range, a panic in the source, falls back to
defaults; unreachable for the builder's actual index ranges). -/
def getObject (objects : List Object) (ids : List ℕ) (index : ℕ) : Object :=
  objects.getD (ids.getD index 0) defaultObject

/-- `object_centroid`: the midpoint of the object's world AABB. -/
def object_centroid (o : Object) : Point3 :=
  let b := AxisBox.for_object o
  Point3.middle b.low b.high

/-- Fold step adjoining an identity to `AxisBox::combine`, so that
`Iterator::reduce(AxisBox::combine)` becomes a plain fold from `none`. -/
def combineO (acc : Option AxisBox) (b : AxisBox) : Option AxisBox :=
  some (match acc with
        | none => b
        | some a => AxisBox.combine a b)

/-- `Iterator::reduce(AxisBox::combine)` over a list of boxes. -/
def boxesReduce (l : List AxisBox) : Option AxisBox := l.foldl combineO none

/-- The world boxes of a slice `[start, start+len)` of the id array. -/
def sliceBoxes (objects : List Object) (ids : List ℕ) (start len : ℕ) : List AxisBox :=
  (List.range len).map fun k => AxisBox.for_object (getObject objects ids (start + k))

/-- A fallback box for the unreachable `unwrap` of `compute_bound` on an
empty slice (the builder only ever computes bounds of slices with
`len >= 1`). -/
def emptyBox : AxisBox := ⟨⟨F.inf, F.inf, F.inf⟩, ⟨F.ninf, F.ninf, F.ninf⟩⟩

/-- `Builder::compute_bound`. -/
def compute_bound (objects : List Object) (ids : List ℕ) (start len : ℕ) : AxisBox :=
  (boxesReduce (sliceBoxes objects ids start len)).getD emptyBox

/-- `Builder::build_leaf`. -/
def build_leaf (objects : List Object) (ids : List ℕ) (start len : ℕ) : Node :=
  ⟨compute_bound objects ids start len, NodeKind.leaf start len⟩

/-- `lerp` from `common::math`. -/
def lerp (t x y : F) : F := F.add (F.mul t x) (F.mul (F.sub (F.q 1) t) y)

/-- `Builder::find_best_split_largest_axis`: the axis with the largest
extent under the `decorum::Total` order (`max_by_key` keeps the LAST
maximum), split at the box midpoint. -/
def find_best_split_largest_axis (bound : AxisBox) : Option (Axis3 × F) :=
  let extend := Point3.subp bound.high bound.low
  let split_axis := [Axis3.Y, Axis3.Z].foldl
    (fun best a => if F.totalLe (extend.get best) (extend.get a) then a else best) Axis3.X
  let split_value := F.div (F.add (bound.low.get split_axis) (bound.high.get split_axis)) (F.q 2)
  some (split_axis, split_value)

/-- `Builder::eval_potential_split`: the SAH cost of splitting the slice's
centroids at `value` along `axis`. -/
def eval_potential_split (objects : List Object) (ids : List ℕ) (start len : ℕ)
    (axis : Axis3) (value : F) : F :=
  let step := fun (acc : ℕ × Point3 × Point3 × ℕ × Point3 × Point3) (k : ℕ) =>
    let centroid := object_centroid (getObject objects ids (start + k))
    if F.blt (centroid.get axis) value then
      (acc.1 + 1, Point3.pmin acc.2.1 centroid, Point3.pmax acc.2.2.1 centroid, acc.2.2.2)
    else
      (acc.1, acc.2.1, acc.2.2.1, acc.2.2.2.1 + 1,
       Point3.pmin acc.2.2.2.2.1 centroid, Point3.pmax acc.2.2.2.2.2 centroid)
  let pInf : Point3 := ⟨F.inf, F.inf, F.inf⟩
  let pNinf : Point3 := ⟨F.ninf, F.ninf, F.ninf⟩
  let r := (List.range len).foldl step (0, pInf, pNinf, 0, pInf, pNinf)
  let left_count := r.1
  let left_box : AxisBox := ⟨r.2.1, r.2.2.1⟩
  let right_count := r.2.2.2.1
  let right_box : AxisBox := ⟨r.2.2.2.2.1, r.2.2.2.2.2⟩
  if left_count = 0 || right_count = 0 then F.inf
  else
    F.add (F.mul (F.q left_count) (AxisBox.area left_box))
      (F.mul (F.q right_count) (AxisBox.area right_box))

/-- `Builder::find_best_split_surface_area`: try the candidate planes in
source order (`try_split` keeps the LAST candidate whose cost is `<=` the
best so far), and accept only a cost strictly below the unsplit cost. -/
def find_best_split_surface_area (objects : List Object) (ids : List ℕ)
    (start len : ℕ) (bound : AxisBox) (test_planes : Option ℕ) : Option (Axis3 × F) :=
  if len < 2 then none
  else
    let candidates : List (Axis3 × F) :=
      match test_planes with
      | some tp =>
        if tp < len then
          (List.range tp).flatMap fun pi =>
            Axis3.ALL.map fun axis =>
              (axis, lerp (F.div (F.q (pi + 1)) (F.q tp))
                (bound.low.get axis) (bound.high.get axis))
        else
          (List.range len).flatMap fun k =>
            Axis3.ALL.map fun axis =>
              (axis, (object_centroid (getObject objects ids (start + k))).get axis)
      | none =>
        (List.range len).flatMap fun k =>
          Axis3.ALL.map fun axis =>
            (axis, (object_centroid (getObject objects ids (start + k))).get axis)
    let r := candidates.foldl
      (fun (acc : Option (Axis3 × F) × F) cand =>
        let cost := eval_potential_split objects ids start len cand.1 cand.2
        if F.ble cost acc.2 then (some cand, cost) else acc)
      (none, F.inf)
    let curr_cost := F.mul (F.q len) (AxisBox.area bound)
    if F.blt r.2 curr_cost then r.1 else none

/-- `Builder::find_best_split`. -/
def find_best_split (strategy : BVHSplitStrategy) (objects : List Object) (ids : List ℕ)
    (start len : ℕ) (bound : AxisBox) : Option (Axis3 × F) :=
  match strategy with
  | BVHSplitStrategy.SplitLargestAxis => find_best_split_largest_axis bound
  | BVHSplitStrategy.SurfaceAreaHeuristic test_planes =>
    find_best_split_surface_area objects ids start len bound test_planes

/-- Builder state: the id array being permuted in place and the growing node
array. -/
structure Bst where
  ids : List ℕ
  nodes : List Node
deriving DecidableEq, Repr

/-- The sub-slice `[start, start+len)` of a list. -/
def slice (l : List α) (start len : ℕ) : List α := (l.drop start).take len

/-- Overwrite the sub-slice starting at `start` with `seg`. -/
def writeSlice (l : List α) (start : ℕ) (seg : List α) : List α :=
  l.take start ++ seg ++ l.drop (start + seg.length)

/-- `Builder::split`, fuel-indexed.  A call on a node of length `len` is
exact whenever `len ≤ fuel`: the two children of a split are strictly
shorter, so the fuel never runs out (`BVH.new` supplies the root length).
Exhausted fuel, a missing node and a branch node (panics or impossibilities
in the source) leave the state unchanged. -/
def splitGo (objects : List Object) (strategy : BVHSplitStrategy) :
    ℕ → Bst → ℕ → Bst
  | 0, st, _ => st
  | fuel + 1, st, nodeIdx =>
    match st.nodes.get? nodeIdx with
    | none => st
    | some nd =>
      match nd.kind with
      | NodeKind.branch _ => st
      | NodeKind.leaf start len =>
        match find_best_split strategy objects st.ids start len nd.bound with
        | none => st
        | some (axis, value) =>
          let pr := partitionIt
            (fun id => F.blt ((object_centroid (objects.getD id defaultObject)).get axis) value)
            (slice st.ids start len)
          let ids1 := writeSlice st.ids start pr.1
          let split_index := pr.2
          if split_index = 0 ∨ split_index = len then ⟨ids1, st.nodes⟩
          else
            let left_len := split_index
            let right_len := len - split_index
            let left := build_leaf objects ids1 start left_len
            let right := build_leaf objects ids1 (start + left_len) right_len
            let left_index := st.nodes.length
            let nodes1 := (st.nodes.set nodeIdx ⟨nd.bound, NodeKind.branch left_index⟩)
              ++ [left, right]
            let st1 := splitGo objects strategy fuel ⟨ids1, nodes1⟩ left_index
            splitGo objects strategy fuel st1 (left_index + 1)

/-- `BVH::new`.  The `assert!(objects.len() < u32::MAX)` is carried as a
hypothesis by the theorems below; `builder.check` is a runtime self-check
whose conditions are proven as theorems. -/
def BVH.new (objects : List Object) (strategy : BVHSplitStrategy) : BVH :=
  let total_len := objects.length
  let pr := partitionIt
    (fun id => AxisBox.is_finite (AxisBox.for_shape (objects.getD id defaultObject).shape))
    (List.range total_len)
  let global_start := pr.2
  let global_ids := pr.1.drop global_start
  let ids := pr.1.take global_start
  if ids.length = 0 then ⟨global_ids, [], []⟩
  else
    let root := build_leaf objects ids 0 ids.length
    let st := splitGo objects strategy ids.length ⟨ids, [root]⟩ 0
    ⟨global_ids, st.ids, st.nodes⟩

/-- Model of `common::scene::Color` (`palette::LinSrgb`): three `f32`
channels with componentwise arithmetic. -/
structure Color where
  red : F
  green : F
  blue : F
deriving DecidableEq, Repr

namespace Color

def black : Color := ⟨F.q 0, F.q 0, F.q 0⟩

def cadd (a b : Color) : Color :=
  ⟨F.add a.red b.red, F.add a.green b.green, F.add a.blue b.blue⟩

def csub (a b : Color) : Color :=
  ⟨F.sub a.red b.red, F.sub a.green b.green, F.sub a.blue b.blue⟩

def cmul (a b : Color) : Color :=
  ⟨F.mul a.red b.red, F.mul a.green b.green, F.mul a.blue b.blue⟩

/-- `Color / Color`, componentwise. -/
def cdiv (a b : Color) : Color :=
  ⟨F.div a.red b.red, F.div a.green b.green, F.div a.blue b.blue⟩

/-- `Color / f32`. -/
def sdiv (a : Color) (r : F) : Color :=
  ⟨F.div a.red r, F.div a.green r, F.div a.blue r⟩

def isFiniteC (a : Color) : Bool :=
  a.red.isFinite && a.green.isFinite && a.blue.isFinite

end Color

/-- Model of `common::scene::Medium`. -/
structure Medium where
  index_of_refraction : F
  volumetric_color : Color
deriving DecidableEq, Repr

/-- `cpu::renderer::fast_powf`, parametric in the `f32::powf` intrinsic it
falls back to (an external library function, not part of this repository).
Both `debug_assert!`s are skipped, as in release builds. -/
def fast_powf (powf : F → F → F) (base exp : F) : F :=
  if F.beq base (F.q 0) || F.beq base (F.q 1) || F.beq exp (F.q 1) then base
  else if exp.isInfinite then
    if xor (F.blt (F.q 1) base) (F.blt exp (F.q 0)) then F.inf else F.q 0
  else powf base exp

/-- Modelled from the spec: the Rust `f32::powf` intrinsic is external to the
repository (the spec's "the standard `powf`").  Only its IEEE-754
special-value behaviour is modelled exactly — NaN propagation, `pow(x, 0)`,
and infinite bases or exponents; the value for a finite positive base and
finite nonzero exponent (on which no claim depends) is represented by the
exactness-irrelevant rational `1`. -/
def powfModel : F → F → F
  | F.q b, F.q e =>
    if e = 0 then F.q 1
    else if b = 0 then (if 0 < e then F.q 0 else F.inf)
    else if 0 < b then F.q 1
    else F.nan
  | F.q b, F.inf =>
    if b = 1 ∨ b = -1 then F.q 1 else if -1 < b ∧ b < 1 then F.q 0 else F.inf
  | F.q b, F.ninf =>
    if b = 1 ∨ b = -1 then F.q 1 else if -1 < b ∧ b < 1 then F.inf else F.q 0
  | F.inf, F.q e => if e = 0 then F.q 1 else if 0 < e then F.inf else F.q 0
  | F.inf, F.inf => F.inf
  | F.inf, F.ninf => F.q 0
  | F.ninf, F.q e => if e = 0 then F.q 1 else if 0 < e then F.inf else F.q 0
  | F.ninf, F.inf => F.inf
  | F.ninf, F.ninf => F.q 0
  | F.q b, F.nan => if b = 1 then F.q 1 else F.nan
  | F.nan, F.q e => if e = 0 then F.q 1 else F.nan
  | F.nan, _ => F.nan
  | _, F.nan => F.nan

/-- The contract of `f32::powf` that the no-NaN property of `fast_powf`
rests on: a nonnegative (hence non-NaN) base and a non-NaN exponent never
produce NaN. -/
def PowfNoNan (powf : F → F → F) : Prop :=
  ∀ x y : F, F.ble (F.q 0) x = true → y.isNan = false → (powf x y).isNan = false

/-- `cpu::renderer::color_exp`. -/
def color_exp (powf : F → F → F) (base : Color) (exp : F) : Color :=
  ⟨fast_powf powf base.red exp, fast_powf powf base.green exp, fast_powf powf base.blue exp⟩

/-- The value `trace_ray` returns when the acceleration query reports no
hit: the `bounces_left == 0` early return (black), else the `None` branch of
the `accel.first_hit` match — `(t, result) = (INFINITY, sky_emission)` —
followed by the final `color_exp(medium.volumetric_color, t) * result`
(renderer.rs lines 197-199 and 257-261). -/
def trace_ray_nohit (powf : F → F → F) (bounces_left : ℕ) (medium : Medium)
    (sky_emission : Color) : Color :=
  if bounces_left = 0 then Color.black
  else Color.cmul (color_exp powf medium.volumetric_color F.inf) sky_emission

/-- Model of `cpu::stats::ColorVarianceEstimator`. -/
structure ColorVarianceEstimator where
  count : ℕ
  mean : Color
  m2 : Color
deriving DecidableEq, Repr

namespace ColorVarianceEstimator

/-- `Default for ColorVarianceEstimator`. -/
def initE : ColorVarianceEstimator := ⟨0, Color.black, Color.black⟩

/-- `ColorVarianceEstimator::update` (Welford's online step). -/
def update (e : ColorVarianceEstimator) (value : Color) : ColorVarianceEstimator :=
  let count := e.count + 1
  let delta := Color.csub value e.mean
  let mean := Color.cadd e.mean (Color.sdiv delta (F.q count))
  let delta_2 := Color.csub value mean
  let m2 := Color.cadd e.m2 (Color.cmul delta delta_2)
  ⟨count, mean, m2⟩

/-- `ColorVarianceEstimator::variance`. -/
def varianceE (e : ColorVarianceEstimator) : Option Color :=
  if 2 ≤ e.count then some (Color.sdiv e.m2 (F.q e.count)) else none

end ColorVarianceEstimator

/-- The estimator after feeding the first `n` samples of the stream. -/
def estAfter (stream : ℕ → Color) : ℕ → ColorVarianceEstimator
  | 0 => ColorVarianceEstimator.initE
  | n + 1 => (estAfter stream n).update (stream n)

/-- Model of `cpu::renderer::StopCondition`. -/
inductive StopCondition where
  | SampleCount (samples : ℕ)
  | Variance (min_samples : ℕ) (max_relative_variance : F)
deriving DecidableEq, Repr

/-- The inner helper `variance_lte` of `StopCondition::is_done`.  The source
`expect`s the variance (panicking below two samples); the short-circuiting
`&&` in `is_done` makes that unreachable, and the model returns `false`
there. -/
def variance_lte (e : ColorVarianceEstimator) (right : F) : Bool :=
  match e.varianceE with
  | none => false
  | some variance =>
    let rel_variance := Color.cdiv variance
      (Color.cadd e.mean ⟨F.q 1, F.q 1, F.q 1⟩)
    let left := Color.sdiv rel_variance (F.fsqrt (F.q e.count))
    F.ble left.red right && F.ble left.green right && F.ble left.blue right

/-- `StopCondition::is_done`. -/
def is_done (sc : StopCondition) (e : ColorVarianceEstimator) : Bool :=
  match sc with
  | StopCondition.SampleCount samples => decide (samples ≤ e.count)
  | StopCondition.Variance min_samples max_relative_variance =>
    decide (max min_samples 2 ≤ e.count) && variance_lte e max_relative_variance

/-- Model of `common::progress::PixelResult`. -/
structure PixelResult where
  color : Color
  variance : Color
  rel_variance : Color
  samples : ℕ
deriving DecidableEq, Repr

/-- The number of samples `calculate_pixel` draws: the first count at which
the stop condition holds (the `while !is_done` loop checks before every
sample). -/
def stop_count (sc : StopCondition) (stream : ℕ → Color)
    (h : ∃ n, is_done sc (estAfter stream n) = true) : ℕ := Nat.find h

/-- `RenderStructure::calculate_pixel`, with the traced colours abstracted
into a sample stream and the loop's termination as a hypothesis. -/
def calculate_pixel (sc : StopCondition) (stream : ℕ → Color)
    (h : ∃ n, is_done sc (estAfter stream n) = true) : PixelResult :=
  let e := estAfter stream (stop_count sc stream h)
  let variance := e.varianceE.getD Color.black
  ⟨e.mean, variance,
   Color.cdiv variance (Color.cadd e.mean ⟨F.q 1, F.q 1, F.q 1⟩), e.count⟩

/-- Exact-rational 3-vector: the direction-sampling algebra of the renderer
(`snells_law`, `reflect_direction`) is modelled in exact real (rational)
arithmetic; its inputs are finite unit vectors by the `Unit` invariant. -/
structure Vec3Q where
  x : ℚ
  y : ℚ
  z : ℚ
deriving DecidableEq, Repr

namespace Vec3Q

def add (a b : Vec3Q) : Vec3Q := ⟨a.x + b.x, a.y + b.y, a.z + b.z⟩

def smul (a : Vec3Q) (r : ℚ) : Vec3Q := ⟨a.x * r, a.y * r, a.z * r⟩

def sub (a b : Vec3Q) : Vec3Q := add a (smul b (-1))

def dot (a b : Vec3Q) : ℚ := a.x * b.x + a.y * b.y + a.z * b.z

def norm_squared (a : Vec3Q) : ℚ := dot a a

end Vec3Q

/-- `cpu::renderer::reflect_direction`: the mirror formula
`d - 2 (d . n) n` (the `Unit::new_unchecked` wrapper only debug-asserts). -/
def reflect_direction (vec normal : Vec3Q) : Vec3Q :=
  Vec3Q.sub vec (Vec3Q.smul normal (2 * Vec3Q.dot vec normal))

/-- `cpu::renderer::snells_law` in exact arithmetic (the debug assertion
`c >= 0` is skipped, as in release builds). -/
def snells_law (vec normal : Vec3Q) (r : ℚ) : Bool × Vec3Q :=
  let c := -(Vec3Q.dot normal vec)
  let x := 1 - r * r * (1 - c * c)
  if 0 < x then
    (true, Vec3Q.add (Vec3Q.smul vec r) (Vec3Q.smul normal (r * c - sqrtQ x)))
  else
    (false, reflect_direction vec normal)

/-- Ids stored in the subtree rooted at a node, fuel-indexed
(`bvh.nodes.length` is enough fuel for every built tree): leaf slices in
left-to-right order. -/
def subtreeIdsF (bvh : BVH) : ℕ → ℕ → List ℕ
  | 0, _ => []
  | fuel + 1, node =>
    match bvh.nodes.get? node with
    | none => []
    | some nd =>
      match nd.kind with
      | NodeKind.leaf start len => slice bvh.ids start len
      | NodeKind.branch left_index =>
        subtreeIdsF bvh fuel left_index ++ subtreeIdsF bvh fuel (left_index + 1)

/-- The concatenation of all leaf id-slices of the tree. -/
def leafIdsList (bvh : BVH) : List ℕ :=
  bvh.nodes.flatMap fun nd =>
    match nd.kind with
    | NodeKind.leaf start len => slice bvh.ids start len
    | NodeKind.branch _ => []

/-- Well-formed subtree at node index `i` with bound `b` covering the id
range `[start, start+len)`, with `idxs` the list of node indices of the
subtree (parent first).  This is the shape `Builder::split` guarantees:
children sit at consecutive indices strictly after their parent, a parent's
bound is the combine of its children's, and a leaf's bound reduces its
slice's object boxes. -/
inductive Subtree (objects : List Object) (nodes : List Node) (ids : List ℕ) :
    ℕ → AxisBox → ℕ → ℕ → List ℕ → Prop where
  | leaf (i : ℕ) (b : AxisBox) (start len : ℕ) :
      nodes.get? i = some ⟨b, NodeKind.leaf start len⟩ →
      1 ≤ len → start + len ≤ ids.length →
      some b = boxesReduce (sliceBoxes objects ids start len) →
      Subtree objects nodes ids i b start len [i]
  | branch (i : ℕ) (b : AxisBox) (l : ℕ) (b₁ b₂ : AxisBox) (start len₁ len₂ : ℕ)
      (idxs₁ idxs₂ : List ℕ) :
      nodes.get? i = some ⟨b, NodeKind.branch l⟩ →
      i < l →
      Subtree objects nodes ids l b₁ start len₁ idxs₁ →
      Subtree objects nodes ids (l + 1) b₂ (start + len₁) len₂ idxs₂ →
      b = AxisBox.combine b₁ b₂ →
      Subtree objects nodes ids i b start (len₁ + len₂) (i :: (idxs₁ ++ idxs₂))

/-- Concrete data for the theorems below: a unit sphere at the origin. -/
def sphereObj : Object := ⟨Shape.Sphere, Transform.idT⟩

/-- A ray starting exactly on the unit sphere's surface, pointing away from
it: brute force reports a hit at `t = 0`, the slab test's `t_max > 0`
condition prunes the tree. -/
def rayT0 : Ray := ⟨⟨F.q 0, F.q 0, F.q 1⟩, ⟨F.q 0, F.q 0, F.q 1⟩⟩

/-- A unit sphere translated to `(3/5, 4, 0)`. -/
def objP : Object := ⟨Shape.Sphere, Transform.translate ⟨F.q (3/5), F.q 4, F.q 0⟩⟩

/-- A unit sphere translated to `(-3/5, 4, 0)`. -/
def objM : Object := ⟨Shape.Sphere, Transform.translate ⟨F.q (-(3/5)), F.q 4, F.q 0⟩⟩

/-- The ray from the origin along `+y`, tangent to both spheres above at the
same `t = 16/5`. -/
def rayY : Ray := ⟨⟨F.q 0, F.q 0, F.q 0⟩, ⟨F.q 0, F.q 1, F.q 0⟩⟩

/-- The box `[-1,1]^3`. -/
def boxU : AxisBox := ⟨⟨F.q (-1), F.q (-1), F.q (-1)⟩, ⟨F.q 1, F.q 1, F.q 1⟩⟩

/-- The ray from `(0,0,-4)` along `+z`. -/
def rayZ : Ray := ⟨⟨F.q 0, F.q 0, F.q (-4)⟩, ⟨F.q 0, F.q 0, F.q 1⟩⟩

/-- A forward matrix with an infinite scale entry: a degenerate transform
whose world-space AABB of any finite shape is non-finite. -/
def mInf : Matrix4 :=
  ⟨⟨F.inf, F.q 0, F.q 0, F.q 0⟩,
   ⟨F.q 0, F.q 1, F.q 0, F.q 0⟩,
   ⟨F.q 0, F.q 0, F.q 1, F.q 0⟩,
   ⟨F.q 0, F.q 0, F.q 0, F.q 1⟩⟩

/-- A sphere with the degenerate transform `mInf`. -/
def objInf : Object := ⟨Shape.Sphere, ⟨mInf, Matrix4.identity⟩⟩

/-- A plane object (non-finite canonical box), used by the C10 witness. -/
def planeObj : Object := ⟨Shape.Plane, Transform.idT⟩

/-- The world AABB of the object with index `id` (out-of-range falls back to
the default object, unreachable for ids produced by the builder). -/
def boxOf (objects : List Object) (id : ℕ) : AxisBox :=
  AxisBox.for_object (objects.getD id defaultObject)

/-- The id-slice node `j` contributes to the union of leaf slices: its slice
for a leaf node, nothing for a branch or a missing node. -/
def leafSliceAt (nodes : List Node) (ids : List ℕ) (j : ℕ) : List ℕ :=
  match nodes.get? j with
  | some ⟨_, NodeKind.leaf start len⟩ => slice ids start len
  | _ => []

/-- The predicate `BVH::new` partitions the id list by: the OBJECT-SPACE
canonical box of the shape is finite (`aabb.for_shape(&object.shape)`), not
the world-space AABB. -/
def finiteShapeBox (objects : List Object) (id : ℕ) : Bool :=
  AxisBox.is_finite (AxisBox.for_shape ((objects.getD id defaultObject).shape))

/-- The step of `minFold`, named so the fold can be reasoned about. -/
def minStep (acc : Option (ℕ × Hit)) (ih : ℕ × Hit) : Option (ℕ × Hit) :=
  match acc with
  | none => some ih
  | some jg => if F.blt ih.2.t jg.2.t then some ih else some jg

/-
Constructor-level evaluation lemmas for the float model, used both for
concrete evaluation (the kernel cannot reduce `Rat` arithmetic) and for the
case analyses below.
-/

@[simp] theorem F.neg_eval_q (a : ℚ) : F.neg (F.q a) = F.q (-a) := rfl
@[simp] theorem F.neg_eval_inf : F.neg F.inf = F.ninf := rfl
@[simp] theorem F.neg_eval_ninf : F.neg F.ninf = F.inf := rfl
@[simp] theorem F.neg_eval_nan : F.neg F.nan = F.nan := rfl
@[simp] theorem F.add_eval_q_q (a : ℚ) (b : ℚ) : F.add (F.q a) (F.q b) = F.q (a + b) := rfl
@[simp] theorem F.add_eval_q_inf (a : ℚ) : F.add (F.q a) F.inf = F.inf := rfl
@[simp] theorem F.add_eval_q_ninf (a : ℚ) : F.add (F.q a) F.ninf = F.ninf := rfl
@[simp] theorem F.add_eval_q_nan (a : ℚ) : F.add (F.q a) F.nan = F.nan := rfl
@[simp] theorem F.add_eval_inf_q (b : ℚ) : F.add F.inf (F.q b) = F.inf := rfl
@[simp] theorem F.add_eval_inf_inf : F.add F.inf F.inf = F.inf := rfl
@[simp] theorem F.add_eval_inf_ninf : F.add F.inf F.ninf = F.nan := rfl
@[simp] theorem F.add_eval_inf_nan : F.add F.inf F.nan = F.nan := rfl
@[simp] theorem F.add_eval_ninf_q (b : ℚ) : F.add F.ninf (F.q b) = F.ninf := rfl
@[simp] theorem F.add_eval_ninf_inf : F.add F.ninf F.inf = F.nan := rfl
@[simp] theorem F.add_eval_ninf_ninf : F.add F.ninf F.ninf = F.ninf := rfl
@[simp] theorem F.add_eval_ninf_nan : F.add F.ninf F.nan = F.nan := rfl
@[simp] theorem F.add_eval_nan_q (b : ℚ) : F.add F.nan (F.q b) = F.nan := rfl
@[simp] theorem F.add_eval_nan_inf : F.add F.nan F.inf = F.nan := rfl
@[simp] theorem F.add_eval_nan_ninf : F.add F.nan F.ninf = F.nan := rfl
@[simp] theorem F.add_eval_nan_nan : F.add F.nan F.nan = F.nan := rfl
@[simp] theorem F.mul_eval_q_q (a : ℚ) (b : ℚ) : F.mul (F.q a) (F.q b) = F.q (a * b) := rfl
@[simp] theorem F.mul_eval_q_inf (a : ℚ) : F.mul (F.q a) F.inf = if a = 0 then F.nan else if 0 < a then F.inf else F.ninf := rfl
@[simp] theorem F.mul_eval_q_ninf (a : ℚ) : F.mul (F.q a) F.ninf = if a = 0 then F.nan else if 0 < a then F.ninf else F.inf := rfl
@[simp] theorem F.mul_eval_q_nan (a : ℚ) : F.mul (F.q a) F.nan = F.nan := rfl
@[simp] theorem F.mul_eval_inf_q (b : ℚ) : F.mul F.inf (F.q b) = if b = 0 then F.nan else if 0 < b then F.inf else F.ninf := rfl
@[simp] theorem F.mul_eval_inf_inf : F.mul F.inf F.inf = F.inf := rfl
@[simp] theorem F.mul_eval_inf_ninf : F.mul F.inf F.ninf = F.ninf := rfl
@[simp] theorem F.mul_eval_inf_nan : F.mul F.inf F.nan = F.nan := rfl
@[simp] theorem F.mul_eval_ninf_q (b : ℚ) : F.mul F.ninf (F.q b) = if b = 0 then F.nan else if 0 < b then F.ninf else F.inf := rfl
@[simp] theorem F.mul_eval_ninf_inf : F.mul F.ninf F.inf = F.ninf := rfl
@[simp] theorem F.mul_eval_ninf_ninf : F.mul F.ninf F.ninf = F.inf := rfl
@[simp] theorem F.mul_eval_ninf_nan : F.mul F.ninf F.nan = F.nan := rfl
@[simp] theorem F.mul_eval_nan_q (b : ℚ) : F.mul F.nan (F.q b) = F.nan := rfl
@[simp] theorem F.mul_eval_nan_inf : F.mul F.nan F.inf = F.nan := rfl
@[simp] theorem F.mul_eval_nan_ninf : F.mul F.nan F.ninf = F.nan := rfl
@[simp] theorem F.mul_eval_nan_nan : F.mul F.nan F.nan = F.nan := rfl
@[simp] theorem F.div_eval_q_q (a : ℚ) (b : ℚ) : F.div (F.q a) (F.q b) = if b = 0 then (if a = 0 then F.nan else if 0 < a then F.inf else F.ninf) else F.q (a / b) := rfl
@[simp] theorem F.div_eval_q_inf (a : ℚ) : F.div (F.q a) F.inf = F.q 0 := rfl
@[simp] theorem F.div_eval_q_ninf (a : ℚ) : F.div (F.q a) F.ninf = F.q 0 := rfl
@[simp] theorem F.div_eval_q_nan (a : ℚ) : F.div (F.q a) F.nan = F.nan := rfl
@[simp] theorem F.div_eval_inf_q (b : ℚ) : F.div F.inf (F.q b) = if 0 ≤ b then F.inf else F.ninf := rfl
@[simp] theorem F.div_eval_inf_inf : F.div F.inf F.inf = F.nan := rfl
@[simp] theorem F.div_eval_inf_ninf : F.div F.inf F.ninf = F.nan := rfl
@[simp] theorem F.div_eval_inf_nan : F.div F.inf F.nan = F.nan := rfl
@[simp] theorem F.div_eval_ninf_q (b : ℚ) : F.div F.ninf (F.q b) = if 0 ≤ b then F.ninf else F.inf := rfl
@[simp] theorem F.div_eval_ninf_inf : F.div F.ninf F.inf = F.nan := rfl
@[simp] theorem F.div_eval_ninf_ninf : F.div F.ninf F.ninf = F.nan := rfl
@[simp] theorem F.div_eval_ninf_nan : F.div F.ninf F.nan = F.nan := rfl
@[simp] theorem F.div_eval_nan_q (b : ℚ) : F.div F.nan (F.q b) = F.nan := rfl
@[simp] theorem F.div_eval_nan_inf : F.div F.nan F.inf = F.nan := rfl
@[simp] theorem F.div_eval_nan_ninf : F.div F.nan F.ninf = F.nan := rfl
@[simp] theorem F.div_eval_nan_nan : F.div F.nan F.nan = F.nan := rfl
@[simp] theorem F.blt_eval_q_q (a : ℚ) (b : ℚ) : F.blt (F.q a) (F.q b) = decide (a < b) := rfl
@[simp] theorem F.blt_eval_q_inf (a : ℚ) : F.blt (F.q a) F.inf = true := rfl
@[simp] theorem F.blt_eval_q_ninf (a : ℚ) : F.blt (F.q a) F.ninf = false := rfl
@[simp] theorem F.blt_eval_q_nan (a : ℚ) : F.blt (F.q a) F.nan = false := rfl
@[simp] theorem F.blt_eval_inf_q (b : ℚ) : F.blt F.inf (F.q b) = false := rfl
@[simp] theorem F.blt_eval_inf_inf : F.blt F.inf F.inf = false := rfl
@[simp] theorem F.blt_eval_inf_ninf : F.blt F.inf F.ninf = false := rfl
@[simp] theorem F.blt_eval_inf_nan : F.blt F.inf F.nan = false := rfl
@[simp] theorem F.blt_eval_ninf_q (b : ℚ) : F.blt F.ninf (F.q b) = true := rfl
@[simp] theorem F.blt_eval_ninf_inf : F.blt F.ninf F.inf = true := rfl
@[simp] theorem F.blt_eval_ninf_ninf : F.blt F.ninf F.ninf = false := rfl
@[simp] theorem F.blt_eval_ninf_nan : F.blt F.ninf F.nan = false := rfl
@[simp] theorem F.blt_eval_nan_q (b : ℚ) : F.blt F.nan (F.q b) = false := rfl
@[simp] theorem F.blt_eval_nan_inf : F.blt F.nan F.inf = false := rfl
@[simp] theorem F.blt_eval_nan_ninf : F.blt F.nan F.ninf = false := rfl
@[simp] theorem F.blt_eval_nan_nan : F.blt F.nan F.nan = false := rfl
@[simp] theorem F.beq_eval_q_q (a : ℚ) (b : ℚ) : F.beq (F.q a) (F.q b) = decide (a = b) := rfl
@[simp] theorem F.beq_eval_q_inf (a : ℚ) : F.beq (F.q a) F.inf = false := rfl
@[simp] theorem F.beq_eval_q_ninf (a : ℚ) : F.beq (F.q a) F.ninf = false := rfl
@[simp] theorem F.beq_eval_q_nan (a : ℚ) : F.beq (F.q a) F.nan = false := rfl
@[simp] theorem F.beq_eval_inf_q (b : ℚ) : F.beq F.inf (F.q b) = false := rfl
@[simp] theorem F.beq_eval_inf_inf : F.beq F.inf F.inf = true := rfl
@[simp] theorem F.beq_eval_inf_ninf : F.beq F.inf F.ninf = false := rfl
@[simp] theorem F.beq_eval_inf_nan : F.beq F.inf F.nan = false := rfl
@[simp] theorem F.beq_eval_ninf_q (b : ℚ) : F.beq F.ninf (F.q b) = false := rfl
@[simp] theorem F.beq_eval_ninf_inf : F.beq F.ninf F.inf = false := rfl
@[simp] theorem F.beq_eval_ninf_ninf : F.beq F.ninf F.ninf = true := rfl
@[simp] theorem F.beq_eval_ninf_nan : F.beq F.ninf F.nan = false := rfl
@[simp] theorem F.beq_eval_nan_q (b : ℚ) : F.beq F.nan (F.q b) = false := rfl
@[simp] theorem F.beq_eval_nan_inf : F.beq F.nan F.inf = false := rfl
@[simp] theorem F.beq_eval_nan_ninf : F.beq F.nan F.ninf = false := rfl
@[simp] theorem F.beq_eval_nan_nan : F.beq F.nan F.nan = false := rfl
@[simp] theorem F.fmin_eval_q_q (a : ℚ) (b : ℚ) : F.fmin (F.q a) (F.q b) = F.q (min a b) := rfl
@[simp] theorem F.fmin_eval_q_inf (a : ℚ) : F.fmin (F.q a) F.inf = F.q a := rfl
@[simp] theorem F.fmin_eval_q_ninf (a : ℚ) : F.fmin (F.q a) F.ninf = F.ninf := rfl
@[simp] theorem F.fmin_eval_q_nan (a : ℚ) : F.fmin (F.q a) F.nan = F.q a := rfl
@[simp] theorem F.fmin_eval_inf_q (b : ℚ) : F.fmin F.inf (F.q b) = F.q b := rfl
@[simp] theorem F.fmin_eval_inf_inf : F.fmin F.inf F.inf = F.inf := rfl
@[simp] theorem F.fmin_eval_inf_ninf : F.fmin F.inf F.ninf = F.ninf := rfl
@[simp] theorem F.fmin_eval_inf_nan : F.fmin F.inf F.nan = F.inf := rfl
@[simp] theorem F.fmin_eval_ninf_q (b : ℚ) : F.fmin F.ninf (F.q b) = F.ninf := rfl
@[simp] theorem F.fmin_eval_ninf_inf : F.fmin F.ninf F.inf = F.ninf := rfl
@[simp] theorem F.fmin_eval_ninf_ninf : F.fmin F.ninf F.ninf = F.ninf := rfl
@[simp] theorem F.fmin_eval_ninf_nan : F.fmin F.ninf F.nan = F.ninf := rfl
@[simp] theorem F.fmin_eval_nan_q (b : ℚ) : F.fmin F.nan (F.q b) = F.q b := rfl
@[simp] theorem F.fmin_eval_nan_inf : F.fmin F.nan F.inf = F.inf := rfl
@[simp] theorem F.fmin_eval_nan_ninf : F.fmin F.nan F.ninf = F.ninf := rfl
@[simp] theorem F.fmin_eval_nan_nan : F.fmin F.nan F.nan = F.nan := rfl
@[simp] theorem F.fmax_eval_q_q (a : ℚ) (b : ℚ) : F.fmax (F.q a) (F.q b) = F.q (max a b) := rfl
@[simp] theorem F.fmax_eval_q_inf (a : ℚ) : F.fmax (F.q a) F.inf = F.inf := rfl
@[simp] theorem F.fmax_eval_q_ninf (a : ℚ) : F.fmax (F.q a) F.ninf = F.q a := rfl
@[simp] theorem F.fmax_eval_q_nan (a : ℚ) : F.fmax (F.q a) F.nan = F.q a := rfl
@[simp] theorem F.fmax_eval_inf_q (b : ℚ) : F.fmax F.inf (F.q b) = F.inf := rfl
@[simp] theorem F.fmax_eval_inf_inf : F.fmax F.inf F.inf = F.inf := rfl
@[simp] theorem F.fmax_eval_inf_ninf : F.fmax F.inf F.ninf = F.inf := rfl
@[simp] theorem F.fmax_eval_inf_nan : F.fmax F.inf F.nan = F.inf := rfl
@[simp] theorem F.fmax_eval_ninf_q (b : ℚ) : F.fmax F.ninf (F.q b) = F.q b := rfl
@[simp] theorem F.fmax_eval_ninf_inf : F.fmax F.ninf F.inf = F.inf := rfl
@[simp] theorem F.fmax_eval_ninf_ninf : F.fmax F.ninf F.ninf = F.ninf := rfl
@[simp] theorem F.fmax_eval_ninf_nan : F.fmax F.ninf F.nan = F.ninf := rfl
@[simp] theorem F.fmax_eval_nan_q (b : ℚ) : F.fmax F.nan (F.q b) = F.q b := rfl
@[simp] theorem F.fmax_eval_nan_inf : F.fmax F.nan F.inf = F.inf := rfl
@[simp] theorem F.fmax_eval_nan_ninf : F.fmax F.nan F.ninf = F.ninf := rfl
@[simp] theorem F.fmax_eval_nan_nan : F.fmax F.nan F.nan = F.nan := rfl
@[simp] theorem F.totalLe_eval_q_q (a : ℚ) (b : ℚ) : F.totalLe (F.q a) (F.q b) = decide (a ≤ b) := rfl
@[simp] theorem F.totalLe_eval_q_inf (a : ℚ) : F.totalLe (F.q a) F.inf = true := rfl
@[simp] theorem F.totalLe_eval_q_ninf (a : ℚ) : F.totalLe (F.q a) F.ninf = false := rfl
@[simp] theorem F.totalLe_eval_q_nan (a : ℚ) : F.totalLe (F.q a) F.nan = true := rfl
@[simp] theorem F.totalLe_eval_inf_q (b : ℚ) : F.totalLe F.inf (F.q b) = false := rfl
@[simp] theorem F.totalLe_eval_inf_inf : F.totalLe F.inf F.inf = true := rfl
@[simp] theorem F.totalLe_eval_inf_ninf : F.totalLe F.inf F.ninf = false := rfl
@[simp] theorem F.totalLe_eval_inf_nan : F.totalLe F.inf F.nan = true := rfl
@[simp] theorem F.totalLe_eval_ninf_q (b : ℚ) : F.totalLe F.ninf (F.q b) = true := rfl
@[simp] theorem F.totalLe_eval_ninf_inf : F.totalLe F.ninf F.inf = true := rfl
@[simp] theorem F.totalLe_eval_ninf_ninf : F.totalLe F.ninf F.ninf = true := rfl
@[simp] theorem F.totalLe_eval_ninf_nan : F.totalLe F.ninf F.nan = true := rfl
@[simp] theorem F.totalLe_eval_nan_q (b : ℚ) : F.totalLe F.nan (F.q b) = false := rfl
@[simp] theorem F.totalLe_eval_nan_inf : F.totalLe F.nan F.inf = false := rfl
@[simp] theorem F.totalLe_eval_nan_ninf : F.totalLe F.nan F.ninf = false := rfl
@[simp] theorem F.totalLe_eval_nan_nan : F.totalLe F.nan F.nan = true := rfl
@[simp] theorem F.isNan_eval_q (a : ℚ) : F.isNan (F.q a) = false := rfl
@[simp] theorem F.isNan_eval_inf : F.isNan F.inf = false := rfl
@[simp] theorem F.isNan_eval_ninf : F.isNan F.ninf = false := rfl
@[simp] theorem F.isNan_eval_nan : F.isNan F.nan = true := rfl
@[simp] theorem F.isInfinite_eval_q (a : ℚ) : F.isInfinite (F.q a) = false := rfl
@[simp] theorem F.isInfinite_eval_inf : F.isInfinite F.inf = true := rfl
@[simp] theorem F.isInfinite_eval_ninf : F.isInfinite F.ninf = true := rfl
@[simp] theorem F.isInfinite_eval_nan : F.isInfinite F.nan = false := rfl
@[simp] theorem F.isFinite_eval_q (a : ℚ) : F.isFinite (F.q a) = true := rfl
@[simp] theorem F.isFinite_eval_inf : F.isFinite F.inf = false := rfl
@[simp] theorem F.isFinite_eval_ninf : F.isFinite F.ninf = false := rfl
@[simp] theorem F.isFinite_eval_nan : F.isFinite F.nan = false := rfl
@[simp] theorem F.sub_eval (a b : F) : F.sub a b = F.add a (F.neg b) := rfl
@[simp] theorem F.ble_eval (a b : F) : F.ble a b = (F.blt a b || F.beq a b) := rfl
@[simp] theorem F.fsqrt_eval_q (a : ℚ) : F.fsqrt (F.q a) = if a < 0 then F.nan else F.q (sqrtQ a) := rfl
@[simp] theorem F.fsqrt_eval_inf : F.fsqrt F.inf = F.inf := rfl
@[simp] theorem F.fsqrt_eval_ninf : F.fsqrt F.ninf = F.nan := rfl
@[simp] theorem F.fsqrt_eval_nan : F.fsqrt F.nan = F.nan := rfl

/-
Helper lemmas: arithmetic and order on the float model.
-/

theorem F.sub_q (a b : ℚ) : F.sub (F.q a) (F.q b) = F.q (a - b) := by
  simp [F.sub, F.add, F.neg, sub_eq_add_neg]

theorem F.add_q (a b : ℚ) : F.add (F.q a) (F.q b) = F.q (a + b) := rfl

theorem F.mul_q (a b : ℚ) : F.mul (F.q a) (F.q b) = F.q (a * b) := rfl

theorem F.div_q (a b : ℚ) (hb : b ≠ 0) : F.div (F.q a) (F.q b) = F.q (a / b) := by
  simp [F.div, hb]

theorem F.isFinite_exists {x : F} (h : x.isFinite = true) : ∃ a : ℚ, x = F.q a := by
  cases x <;> simp_all [F.isFinite]

theorem F.not_nan_of_ble_zero {x : F} (h : F.ble (F.q 0) x = true) : x.isNan = false := by
  cases x <;> simp_all [F.ble, F.blt, F.beq, F.isNan]

theorem F.blt_trans {a b c : F} (h1 : F.blt a b = true) (h2 : F.blt b c = true) :
    F.blt a c = true := by
  cases a <;> cases b <;> cases c <;> simp_all [F.blt] <;> linarith

theorem F.blt_asymm {a b : F} (h : F.blt a b = true) : F.blt b a = false := by
  cases a <;> cases b <;> simp_all [F.blt] <;> linarith

theorem F.ble_of_blt {a b : F} (h : F.blt a b = true) : F.ble a b = true := by
  simp [F.ble, h]

theorem F.beq_iff_eq {a b : F} (ha : a.isNan = false) : F.beq a b = true ↔ a = b := by
  cases a <;> cases b <;> simp_all [F.beq, F.isNan]

theorem F.ble_refl {a : F} (ha : a.isNan = false) : F.ble a a = true := by
  cases a <;> simp_all [F.ble, F.beq, F.isNan]

theorem F.not_nan_left_of_blt {a b : F} (h : F.blt a b = true) : a.isNan = false := by
  cases a <;> cases b <;> simp_all [F.blt, F.isNan]

theorem F.not_nan_right_of_blt {a b : F} (h : F.blt a b = true) : b.isNan = false := by
  cases a <;> cases b <;> simp_all [F.blt, F.isNan]

theorem F.not_nan_left_of_ble {a b : F} (h : F.ble a b = true) : a.isNan = false := by
  cases a <;> cases b <;> simp_all [F.ble, F.blt, F.beq, F.isNan]

theorem F.not_nan_right_of_ble {a b : F} (h : F.ble a b = true) : b.isNan = false := by
  cases a <;> cases b <;> simp_all [F.ble, F.blt, F.beq, F.isNan]

theorem F.ble_trans {a b c : F} (h1 : F.ble a b = true) (h2 : F.ble b c = true) :
    F.ble a c = true := by
  cases a <;> cases b <;> cases c <;> simp_all [F.ble, F.blt, F.beq]
  rcases h1 with h1 | h1 <;> rcases h2 with h2 | h2
  · exact Or.inl (lt_trans h1 h2)
  · exact Or.inl (h2 ▸ h1)
  · exact Or.inl (h1 ▸ h2)
  · exact Or.inr (h1.trans h2)

theorem F.ble_blt_trans {a b c : F} (h1 : F.ble a b = true) (h2 : F.blt b c = true) :
    F.blt a c = true := by
  cases a <;> cases b <;> cases c <;> simp_all [F.ble, F.blt, F.beq]
  rcases h1 with h1 | h1
  · exact lt_trans h1 h2
  · exact h1 ▸ h2

theorem F.blt_ble_trans {a b c : F} (h1 : F.blt a b = true) (h2 : F.ble b c = true) :
    F.blt a c = true := by
  cases a <;> cases b <;> cases c <;> simp_all [F.ble, F.blt, F.beq]
  rcases h2 with h2 | h2
  · exact lt_trans h1 h2
  · exact h2 ▸ h1

/-- Totality for non-NaN values: a failed strict comparison flips. -/
theorem F.ble_of_not_blt {a b : F} (ha : a.isNan = false) (hb : b.isNan = false)
    (h : F.blt a b = false) : F.ble b a = true := by
  cases a <;> cases b <;> simp_all [F.ble, F.blt, F.beq, F.isNan]
  exact h.lt_or_eq

theorem F.fmin_comm (a b : F) : F.fmin a b = F.fmin b a := by
  cases a <;> cases b <;> simp [F.fmin] <;> exact min_comm _ _

theorem F.fmin_assoc (a b c : F) : F.fmin (F.fmin a b) c = F.fmin a (F.fmin b c) := by
  cases a <;> cases b <;> cases c <;> simp [F.fmin] <;> exact min_assoc _ _ _

theorem F.fmax_comm (a b : F) : F.fmax a b = F.fmax b a := by
  cases a <;> cases b <;> simp [F.fmax] <;> exact max_comm _ _

theorem F.fmax_assoc (a b c : F) : F.fmax (F.fmax a b) c = F.fmax a (F.fmax b c) := by
  cases a <;> cases b <;> cases c <;> simp [F.fmax] <;> exact max_assoc _ _ _

theorem F.fmin_inf_right {a : F} (ha : a.isNan = false) : F.fmin a F.inf = a := by
  cases a <;> simp_all [F.fmin, F.isNan]

theorem F.fmin_not_nan {a b : F} (ha : a.isNan = false) (hb : b.isNan = false) :
    (F.fmin a b).isNan = false := by
  cases a <;> cases b <;> simp_all [F.fmin, F.isNan]

theorem F.ble_fmin_left {a b : F} (ha : a.isNan = false) (hb : b.isNan = false) :
    F.ble (F.fmin a b) a = true := by
  cases a <;> cases b <;> simp_all [F.fmin, F.ble, F.blt, F.beq, F.isNan]
  exact lt_or_le _ _

theorem F.ble_fmin_right {a b : F} (ha : a.isNan = false) (hb : b.isNan = false) :
    F.ble (F.fmin a b) b = true := by
  rw [F.fmin_comm]; exact F.ble_fmin_left hb ha

theorem F.blt_fmin {a b c : F} (h1 : F.blt a b = true) (h2 : F.blt a c = true) :
    F.blt a (F.fmin b c) = true := by
  cases a <;> cases b <;> cases c <;> simp_all [F.fmin, F.blt] <;> simp [lt_min_iff, *]

/-- Exactness of the square-root model on perfect squares. -/
theorem sqrtQ_mul_self (c : ℚ) (hc : 0 ≤ c) : sqrtQ (c * c) = c := by
  have hnum : (c * c).num = c.num * c.num := Rat.mul_self_num c
  have hden : (c * c).den = c.den * c.den := Rat.mul_self_den c
  have hcnum : 0 ≤ c.num := Rat.num_nonneg.mpr hc
  have hc' : c.num = (c.num.toNat : ℤ) := (Int.toNat_of_nonneg hcnum).symm
  have htoNat : (c.num * c.num).toNat = c.num.toNat * c.num.toNat := by
    rw [hc']
    exact_mod_cast rfl
  unfold sqrtQ
  rw [hnum, hden, htoNat]
  have harr : c.num.toNat * c.num.toNat * (c.den * c.den)
      = (c.num.toNat * c.den) * (c.num.toNat * c.den) := by ring
  rw [harr, Nat.sqrt_eq]
  rw [Rat.mkRat_eq_div]
  have hden0 : (c.den : ℚ) ≠ 0 := Nat.cast_ne_zero.mpr c.den_nz
  push_cast [Int.toNat_of_nonneg hcnum]
  rw [div_eq_iff (by positivity)]
  have h1 := Rat.num_div_den c
  rw [div_eq_iff hden0] at h1
  rw [h1]
  ring

/-
C9: the ray/AABB slab test.
-/

/-- C9: `AxisBox::intersects` performs the three-axis slab test — with
division by zero yielding signed infinities under IEEE semantics and the
NaN-ignoring `min`/`max` reductions — and returns `Some(entry)` exactly when
`exit >= entry` and `exit > 0`, `None` otherwise; on the box `[-1,1]^3` and
the ray from `(0,0,-4)` along `+z` (whose x and y slabs divide by zero) it
returns `Some(3.0)`. -/
theorem axisbox_intersects_slab_spec :
    (∀ (bx : AxisBox) (ray : Ray),
      AxisBox.intersects bx ray =
        (let entry := F.fmax (F.fmax (F.fmax F.ninf
            (F.fmin (F.div (F.sub bx.low.x ray.start.x) ray.direction.x)
                    (F.div (F.sub bx.high.x ray.start.x) ray.direction.x)))
            (F.fmin (F.div (F.sub bx.low.y ray.start.y) ray.direction.y)
                    (F.div (F.sub bx.high.y ray.start.y) ray.direction.y)))
            (F.fmin (F.div (F.sub bx.low.z ray.start.z) ray.direction.z)
                    (F.div (F.sub bx.high.z ray.start.z) ray.direction.z))
         let exit := F.fmin (F.fmin (F.fmin F.inf
            (F.fmax (F.div (F.sub bx.low.x ray.start.x) ray.direction.x)
                    (F.div (F.sub bx.high.x ray.start.x) ray.direction.x)))
            (F.fmax (F.div (F.sub bx.low.y ray.start.y) ray.direction.y)
                    (F.div (F.sub bx.high.y ray.start.y) ray.direction.y)))
            (F.fmax (F.div (F.sub bx.low.z ray.start.z) ray.direction.z)
                    (F.div (F.sub bx.high.z ray.start.z) ray.direction.z))
         if F.ble entry exit && F.blt (F.q 0) exit then some entry else none)) ∧
    AxisBox.intersects boxU rayZ = some (F.q 3) := by
  constructor
  · intro bx ray
    rfl
  · norm_num [AxisBox.intersects, boxU, rayZ, Axis3.ALL, Point3.get, Vec3.get]

/-
C5: the safe volumetric pow.
-/

/-- The modelled `powf` satisfies the no-NaN contract for nonnegative bases
and non-NaN exponents. -/
theorem powfModel_no_nan : PowfNoNan powfModel := by
  intro x y hx hy
  cases x <;> cases y <;>
    simp_all [powfModel, F.ble, F.blt, F.beq, F.isNan] <;>
    split_ifs <;> simp_all [F.isNan] <;> linarith

/-- C5 (amended): `fast_powf` satisfies the five safe-pow identities
`(0,0) -> 0`, `(1, inf) -> 1`, `(0.5, inf) -> 0`, `(2, inf) -> inf`,
`(2, -inf) -> 0`, and — for any `powf` fallback obeying the IEEE no-NaN
contract — never returns NaN for base `>= 0` and a NON-NaN exponent (a NaN
exponent reaches the `powf` fallback and yields NaN, see the
counterexample). -/
theorem fast_powf_safe_pow_spec (powf : F → F → F) (hpow : PowfNoNan powf) :
    fast_powf powf (F.q 0) (F.q 0) = F.q 0 ∧
    fast_powf powf (F.q 1) F.inf = F.q 1 ∧
    fast_powf powf (F.q (1/2)) F.inf = F.q 0 ∧
    fast_powf powf (F.q 2) F.inf = F.inf ∧
    fast_powf powf (F.q 2) F.ninf = F.q 0 ∧
    ∀ base exp : F, F.ble (F.q 0) base = true → exp.isNan = false →
      (fast_powf powf base exp).isNan = false := by
  refine ⟨by norm_num [fast_powf, F.beq, F.blt, F.isInfinite],
          by norm_num [fast_powf, F.beq, F.blt, F.isInfinite],
          by norm_num [fast_powf, F.beq, F.blt, F.isInfinite],
          by norm_num [fast_powf, F.beq, F.blt, F.isInfinite],
          by norm_num [fast_powf, F.beq, F.blt, F.isInfinite], ?_⟩
  intro base exp h1 h2
  unfold fast_powf
  split_ifs with hc1 hc2 hc3
  · exact F.not_nan_of_ble_zero h1
  · rfl
  · rfl
  · exact hpow base exp h1 h2

/-- C5 counterexample: with the IEEE `powf` fallback, `fast_powf` does
return NaN for the nonnegative base `0.5` when the exponent is NaN — the
claim's unconditional "never returns NaN" fails. -/
theorem fast_powf_nan_cex :
    F.ble (F.q 0) (F.q (1/2)) = true ∧
    fast_powf powfModel (F.q (1/2)) F.nan = F.nan := by
  norm_num [fast_powf, powfModel]

/-- Witness for C5: the amended theorem applied at the concrete IEEE `powf`
model and the inputs `(0,0)` and `(3,2)`. -/
theorem fast_powf_safe_pow_spec_witness :
    fast_powf powfModel (F.q 0) (F.q 0) = F.q 0 ∧
    (fast_powf powfModel (F.q 3) (F.q 2)).isNan = false :=
  ⟨(fast_powf_safe_pow_spec powfModel powfModel_no_nan).1,
   (fast_powf_safe_pow_spec powfModel powfModel_no_nan).2.2.2.2.2
     (F.q 3) (F.q 2) (by norm_num) (by norm_num)⟩

/-
C7: the Welford estimator.
-/

theorem estAfter_count (stream : ℕ → Color) (n : ℕ) :
    (estAfter stream n).count = n := by
  induction n with
  | zero => rfl
  | succ n ih => simp [estAfter, ColorVarianceEstimator.update, ih]

/-- Feeding a constant finite colour leaves the mean at that colour and the
second moment at zero. -/
theorem estAfter_const_eq (a b d : ℚ) :
    ∀ n, 1 ≤ n →
      estAfter (fun _ => ⟨F.q a, F.q b, F.q d⟩) n
        = ⟨n, ⟨F.q a, F.q b, F.q d⟩, Color.black⟩ := by
  intro n hn
  induction n with
  | zero => omega
  | succ n ih =>
    rcases Nat.eq_zero_or_pos n with rfl | hpos
    · show ColorVarianceEstimator.update ColorVarianceEstimator.initE _ = _
      simp only [ColorVarianceEstimator.update, ColorVarianceEstimator.initE,
        Color.black, Color.csub, Color.cadd, Color.cmul, Color.sdiv]
      norm_num [F.sub_q, F.add_q, F.mul_q, F.div_q]
    · rw [show estAfter (fun _ => (⟨F.q a, F.q b, F.q d⟩ : Color)) (n+1)
          = ColorVarianceEstimator.update
              (estAfter (fun _ => ⟨F.q a, F.q b, F.q d⟩) n) ⟨F.q a, F.q b, F.q d⟩ from rfl,
        ih hpos]
      simp only [ColorVarianceEstimator.update, Color.black, Color.csub, Color.cadd,
        Color.cmul, Color.sdiv]
      have hnz : ((n : ℚ) + 1) ≠ 0 := by positivity
      norm_num [F.sub_q, F.add_q, F.mul_q, F.div_q, hnz]

/-- C7 (amended): `variance()` is `m2 / count` for `count >= 2` and `None`
below two samples; and after `N >= 2` updates with the same constant FINITE
colour `c` the mean equals `c` exactly and the variance is exactly zero in
every channel (for a non-finite constant the IEEE arithmetic produces NaN,
see the counterexample). -/
theorem welford_variance_spec :
    (∀ e : ColorVarianceEstimator,
      (2 ≤ e.count → e.varianceE = some (Color.sdiv e.m2 (F.q e.count))) ∧
      (e.count < 2 → e.varianceE = none)) ∧
    (∀ c : Color, Color.isFiniteC c = true → ∀ n, 2 ≤ n →
      (estAfter (fun _ => c) n).mean = c ∧
      (estAfter (fun _ => c) n).varianceE = some Color.black) := by
  constructor
  · intro e
    constructor
    · intro h; simp [ColorVarianceEstimator.varianceE, h]
    · intro h; simp [ColorVarianceEstimator.varianceE]; omega
  · intro c hc n hn
    rw [Color.isFiniteC, Bool.and_eq_true, Bool.and_eq_true] at hc
    obtain ⟨⟨hcr, hcg⟩, hcb⟩ := hc
    obtain ⟨a, hx⟩ := F.isFinite_exists hcr
    obtain ⟨b, hy⟩ := F.isFinite_exists hcg
    obtain ⟨d, hz⟩ := F.isFinite_exists hcb
    have hcc : c = ⟨F.q a, F.q b, F.q d⟩ := by
      cases c; simp_all
    subst hcc
    rw [estAfter_const_eq a b d n (by omega)]
    refine ⟨rfl, ?_⟩
    have hnz : ((n : ℚ)) ≠ 0 := by
      have : (0:ℚ) < n := by exact_mod_cast Nat.lt_of_lt_of_le (by norm_num) hn
      exact ne_of_gt this
    simp [ColorVarianceEstimator.varianceE, hn, Color.sdiv, Color.black,
      F.div_q _ _ hnz]

/-- C7 counterexample: two updates with the constant non-finite colour
`(inf, 0, 0)` leave the mean at NaN (not the constant) and the variance at
NaN (not zero) in the red channel. -/
theorem welford_nonfinite_cex :
    2 ≤ (estAfter (fun _ => ⟨F.inf, F.q 0, F.q 0⟩) 2).count ∧
    (estAfter (fun _ => ⟨F.inf, F.q 0, F.q 0⟩) 2).mean ≠ ⟨F.inf, F.q 0, F.q 0⟩ ∧
    (estAfter (fun _ => ⟨F.inf, F.q 0, F.q 0⟩) 2).varianceE ≠ some Color.black := by
  refine ⟨by norm_num [estAfter, ColorVarianceEstimator.update, ColorVarianceEstimator.initE],
    ?_, ?_⟩ <;>
  norm_num [estAfter, ColorVarianceEstimator.update, ColorVarianceEstimator.initE,
    ColorVarianceEstimator.varianceE, Color.csub, Color.cadd, Color.cmul, Color.sdiv,
    Color.black] <;> decide

/-- Witness for C7: the theorem applied to the concrete finite constant
`(1/2, 1/3, 2)` with three samples. -/
theorem welford_variance_spec_witness :
    (estAfter (fun _ => ⟨F.q (1/2), F.q (1/3), F.q 2⟩) 3).mean
        = ⟨F.q (1/2), F.q (1/3), F.q 2⟩ ∧
    (estAfter (fun _ => ⟨F.q (1/2), F.q (1/3), F.q 2⟩) 3).varianceE = some Color.black :=
  welford_variance_spec.2 ⟨F.q (1/2), F.q (1/3), F.q 2⟩ rfl 3 (by norm_num)

/-
C4: the sky-on-miss path of the integrator.
-/

/-- `fast_powf` at an infinite exponent never consults the `powf` fallback. -/
theorem fast_powf_at_inf (powf : F → F → F) (v : F) :
    fast_powf powf v F.inf =
      if F.beq v (F.q 0) || F.beq v (F.q 1) then v
      else if F.blt (F.q 1) v then F.inf else F.q 0 := by
  cases v <;> simp [fast_powf]

/-- Per-channel behaviour of the miss path `fast_powf(v, inf) * s`. -/
theorem fast_powf_inf_mul_channel (powf : F → F → F) (v s : F) :
    (F.blt v (F.q 1) = true → s.isFinite = true →
      F.mul (fast_powf powf v F.inf) s = F.q 0) ∧
    (v = F.q 1 → F.mul (fast_powf powf v F.inf) s = s) ∧
    (s.isFinite = true → (F.blt (F.q 1) v = true → s ≠ F.q 0) →
      (F.mul (fast_powf powf v F.inf) s).isNan = false) := by
  rw [fast_powf_at_inf]
  refine ⟨?_, ?_, ?_⟩
  · intro hv hs
    obtain ⟨sb, rfl⟩ := F.isFinite_exists hs
    cases v with
    | q a =>
      simp only [F.beq_eval_q_q, F.blt_eval_q_q, decide_eq_true_eq] at hv ⊢
      by_cases ha0 : a = 0
      · subst ha0; norm_num
      · by_cases ha1 : a = 1
        · subst ha1; norm_num at hv
        · have : ¬ (1:ℚ) < a := by intro h; exact absurd hv (not_lt.mpr h.le)
          simp [ha0, ha1, this]
    | inf => simp_all
    | ninf => simp
    | nan => simp_all
  · rintro rfl
    cases s <;> norm_num
  · intro hs hnz
    obtain ⟨sb, rfl⟩ := F.isFinite_exists hs
    cases v with
    | q a =>
      by_cases ha0 : a = 0
      · subst ha0; norm_num
      · by_cases ha1 : a = 1
        · subst ha1; norm_num
        · by_cases hgt : (1:ℚ) < a
          · have hsb : F.q sb ≠ F.q 0 := hnz (by simpa using hgt)
            have hsb' : sb ≠ 0 := fun h => hsb (by rw [h])
            simp only [F.beq_eval_q_q, decide_eq_true_eq, ha0, ha1, F.blt_eval_q_q]
            simp only [hgt, decide_True, Bool.or_self, if_false, if_true]
            simp [F.mul_eval_inf_q, hsb']
            split_ifs <;> simp
          · simp [ha0, ha1, hgt]
    | inf =>
      have hsb : F.q sb ≠ F.q 0 := hnz (by simp)
      have hsb' : sb ≠ 0 := fun h => hsb (by rw [h])
      simp [hsb']
      split_ifs <;> simp
    | ninf => simp
    | nan => simp

/-- C4 (amended): on a miss with `bounces_left > 0`, `trace_ray` returns the
sky emission attenuated by `volumetric_color ^ inf`: a channel is exactly `0`
whenever the volumetric channel is `< 1` AND the sky channel is finite, and
equals the sky channel whenever the volumetric channel is exactly `1`; the
result has no NaN channel PROVIDED the sky is finite and every volumetric
channel exceeding 1 meets a nonzero sky channel (for an infinite sky channel,
or a zero sky channel under a volumetric channel `> 1`, the product
`0 * inf` / `inf * 0` is NaN — see the counterexample). -/
theorem trace_ray_nohit_sky_spec (powf : F → F → F) (bounces_left : ℕ)
    (medium : Medium) (sky : Color) (hb : 0 < bounces_left) :
    (F.blt medium.volumetric_color.red (F.q 1) = true → sky.red.isFinite = true →
      (trace_ray_nohit powf bounces_left medium sky).red = F.q 0) ∧
    (F.blt medium.volumetric_color.green (F.q 1) = true → sky.green.isFinite = true →
      (trace_ray_nohit powf bounces_left medium sky).green = F.q 0) ∧
    (F.blt medium.volumetric_color.blue (F.q 1) = true → sky.blue.isFinite = true →
      (trace_ray_nohit powf bounces_left medium sky).blue = F.q 0) ∧
    (medium.volumetric_color.red = F.q 1 →
      (trace_ray_nohit powf bounces_left medium sky).red = sky.red) ∧
    (medium.volumetric_color.green = F.q 1 →
      (trace_ray_nohit powf bounces_left medium sky).green = sky.green) ∧
    (medium.volumetric_color.blue = F.q 1 →
      (trace_ray_nohit powf bounces_left medium sky).blue = sky.blue) ∧
    (Color.isFiniteC sky = true →
      (F.blt (F.q 1) medium.volumetric_color.red = true → sky.red ≠ F.q 0) →
      (F.blt (F.q 1) medium.volumetric_color.green = true → sky.green ≠ F.q 0) →
      (F.blt (F.q 1) medium.volumetric_color.blue = true → sky.blue ≠ F.q 0) →
      ((trace_ray_nohit powf bounces_left medium sky).red.isNan = false ∧
       (trace_ray_nohit powf bounces_left medium sky).green.isNan = false ∧
       (trace_ray_nohit powf bounces_left medium sky).blue.isNan = false)) := by
  have hbne : bounces_left ≠ 0 := Nat.pos_iff_ne_zero.mp hb
  have hred : (trace_ray_nohit powf bounces_left medium sky).red
      = F.mul (fast_powf powf medium.volumetric_color.red F.inf) sky.red := by
    simp [trace_ray_nohit, hbne, Color.cmul, color_exp]
  have hgreen : (trace_ray_nohit powf bounces_left medium sky).green
      = F.mul (fast_powf powf medium.volumetric_color.green F.inf) sky.green := by
    simp [trace_ray_nohit, hbne, Color.cmul, color_exp]
  have hblue : (trace_ray_nohit powf bounces_left medium sky).blue
      = F.mul (fast_powf powf medium.volumetric_color.blue F.inf) sky.blue := by
    simp [trace_ray_nohit, hbne, Color.cmul, color_exp]
  refine ⟨fun h1 h2 => ?_, fun h1 h2 => ?_, fun h1 h2 => ?_,
          fun h1 => ?_, fun h1 => ?_, fun h1 => ?_, fun hf h1 h2 h3 => ?_⟩
  · rw [hred]; exact (fast_powf_inf_mul_channel powf _ _).1 h1 h2
  · rw [hgreen]; exact (fast_powf_inf_mul_channel powf _ _).1 h1 h2
  · rw [hblue]; exact (fast_powf_inf_mul_channel powf _ _).1 h1 h2
  · rw [hred]; exact (fast_powf_inf_mul_channel powf _ _).2.1 h1
  · rw [hgreen]; exact (fast_powf_inf_mul_channel powf _ _).2.1 h1
  · rw [hblue]; exact (fast_powf_inf_mul_channel powf _ _).2.1 h1
  · rw [Color.isFiniteC, Bool.and_eq_true, Bool.and_eq_true] at hf
    exact ⟨hred ▸ (fast_powf_inf_mul_channel powf _ _).2.2 hf.1.1 h1,
           hgreen ▸ (fast_powf_inf_mul_channel powf _ _).2.2 hf.1.2 h2,
           hblue ▸ (fast_powf_inf_mul_channel powf _ _).2.2 hf.2 h3⟩

/-- C4 counterexample: with one bounce left and no hit, a volumetric colour
of `(2,2,2)` over a black sky yields an all-NaN result (never-NaN fails),
and a volumetric red channel `1/2 < 1` over an infinite sky red channel
yields NaN instead of the claimed `0`. -/
theorem trace_ray_nohit_nan_cex :
    trace_ray_nohit powfModel 1 ⟨F.q 1, ⟨F.q 2, F.q 2, F.q 2⟩⟩ Color.black
        = ⟨F.nan, F.nan, F.nan⟩ ∧
    (F.blt (F.q (1/2)) (F.q 1) = true ∧
     (trace_ray_nohit powfModel 1 ⟨F.q 1, ⟨F.q (1/2), F.q 1, F.q 2⟩⟩
        ⟨F.inf, F.q 5, F.q 5⟩).red = F.nan) := by
  refine ⟨?_, by norm_num, ?_⟩ <;>
    norm_num [trace_ray_nohit, color_exp, fast_powf, Color.cmul, Color.black, powfModel]

/-- Witness for C4: the amended theorem at the volumetric colour
`(1/2, 1, 2)` and the finite sky `(5,5,5)`. -/
theorem trace_ray_nohit_sky_spec_witness :
    (trace_ray_nohit powfModel 1 ⟨F.q 1, ⟨F.q (1/2), F.q 1, F.q 2⟩⟩
        ⟨F.q 5, F.q 5, F.q 5⟩).red = F.q 0 ∧
    (trace_ray_nohit powfModel 1 ⟨F.q 1, ⟨F.q (1/2), F.q 1, F.q 2⟩⟩
        ⟨F.q 5, F.q 5, F.q 5⟩).green = F.q 5 ∧
    (trace_ray_nohit powfModel 1 ⟨F.q 1, ⟨F.q (1/2), F.q 1, F.q 2⟩⟩
        ⟨F.q 5, F.q 5, F.q 5⟩).blue.isNan = false := by
  have h := trace_ray_nohit_sky_spec powfModel 1
    ⟨F.q 1, ⟨F.q (1/2), F.q 1, F.q 2⟩⟩ ⟨F.q 5, F.q 5, F.q 5⟩ (by norm_num)
  exact ⟨h.1 (by norm_num) rfl, h.2.2.2.2.1 rfl,
    (h.2.2.2.2.2.2 rfl (fun _ => by norm_num) (fun _ => by norm_num)
      (fun _ => by norm_num)).2.2⟩

/-
C8: Snell's law.
-/

theorem sqrtQ_one : sqrtQ 1 = 1 := by
  have h := sqrtQ_mul_self 1 (by norm_num)
  simpa using h

/-- C8 (amended): with unit incident direction `d` and unit normal `n`
(and writing `c = -n.d`, `x = 1 - r^2 (1 - c^2)`): the returned direction is
a unit vector whenever the square root of `x` is exact (the exact-real
idealisation of `f32::sqrt`); with `r = 1` and `c > 0` the result is the
incident direction with `crosses_surface = true` (at exact grazing `c = 0`
the code takes the total-internal-reflection branch instead, see the
counterexample); and whenever `x <= 0` the result is the mirror reflection
with `crosses_surface = false`. -/
theorem snells_law_spec (d n : Vec3Q) (r : ℚ)
    (hd : Vec3Q.norm_squared d = 1) (hn : Vec3Q.norm_squared n = 1) :
    ((sqrtQ (1 - r * r * (1 - -(Vec3Q.dot n d) * -(Vec3Q.dot n d))) *
        sqrtQ (1 - r * r * (1 - -(Vec3Q.dot n d) * -(Vec3Q.dot n d)))
        = 1 - r * r * (1 - -(Vec3Q.dot n d) * -(Vec3Q.dot n d))) →
      Vec3Q.norm_squared (snells_law d n r).2 = 1) ∧
    (r = 1 → 0 < -(Vec3Q.dot n d) → snells_law d n r = (true, d)) ∧
    (1 - r * r * (1 - -(Vec3Q.dot n d) * -(Vec3Q.dot n d)) ≤ 0 →
      snells_law d n r = (false, reflect_direction d n)) := by
  refine ⟨?_, ?_, ?_⟩
  · intro hs
    simp only [snells_law]
    split_ifs with hx
    · simp only [Vec3Q.norm_squared, Vec3Q.dot, Vec3Q.add, Vec3Q.smul] at hd hn hs ⊢
      set s := sqrtQ (1 - r * r * (1 - -(n.x * d.x + n.y * d.y + n.z * d.z) *
        -(n.x * d.x + n.y * d.y + n.z * d.z))) with hsdef
      linear_combination r ^ 2 * hd +
        (r * -(n.x * d.x + n.y * d.y + n.z * d.z) - s) ^ 2 * hn + hs
    · simp only [reflect_direction, Vec3Q.norm_squared, Vec3Q.dot, Vec3Q.sub,
        Vec3Q.add, Vec3Q.smul] at hd hn ⊢
      linear_combination hd + 4 * (d.x * n.x + d.y * n.y + d.z * n.z) ^ 2 * hn
  · intro hr hc
    subst hr
    simp only [snells_law]
    have hx : 1 - 1 * 1 * (1 - -(Vec3Q.dot n d) * -(Vec3Q.dot n d))
        = -(Vec3Q.dot n d) * -(Vec3Q.dot n d) := by ring
    rw [if_pos (by rw [hx]; exact mul_pos hc hc)]
    have hsq : sqrtQ (1 - 1 * 1 * (1 - -(Vec3Q.dot n d) * -(Vec3Q.dot n d)))
        = -(Vec3Q.dot n d) := by
      rw [hx]; exact sqrtQ_mul_self _ hc.le
    rw [hsq]
    refine Prod.ext rfl ?_
    show Vec3Q.add (Vec3Q.smul d 1)
      (Vec3Q.smul n (1 * -(Vec3Q.dot n d) - -(Vec3Q.dot n d))) = d
    cases d
    cases n
    simp only [Vec3Q.add, Vec3Q.smul]
    congr 1 <;> ring
  · intro hx
    simp only [snells_law]
    rw [if_neg (not_lt.mpr hx)]

/-- C8 counterexample: at exact grazing incidence (`d = (1,0,0)`,
`n = (0,0,1)`, so `c = 0 >= 0`) with `r = 1`, `x = 0` is not `> 0`, so
`snells_law` takes the total-internal-reflection branch: the direction does
equal the incident direction but `crosses_surface` is `false`, refuting the
claim's `crosses_surface = true` for every `r = 1` case. -/
theorem snells_law_grazing_cex :
    Vec3Q.norm_squared ⟨1, 0, 0⟩ = 1 ∧
    Vec3Q.norm_squared ⟨0, 0, 1⟩ = 1 ∧
    (0 : ℚ) ≤ -(Vec3Q.dot ⟨0, 0, 1⟩ ⟨1, 0, 0⟩) ∧
    snells_law ⟨1, 0, 0⟩ ⟨0, 0, 1⟩ 1 = (false, ⟨1, 0, 0⟩) := by
  refine ⟨by norm_num [Vec3Q.norm_squared, Vec3Q.dot],
          by norm_num [Vec3Q.norm_squared, Vec3Q.dot],
          by norm_num [Vec3Q.dot], ?_⟩
  norm_num [snells_law, Vec3Q.dot, reflect_direction, Vec3Q.sub, Vec3Q.add, Vec3Q.smul]

/-- Witness for C8: the amended theorem at head-on incidence
`d = (0,0,-1)`, `n = (0,0,1)`, `r = 1`. -/
theorem snells_law_spec_witness :
    Vec3Q.norm_squared (snells_law ⟨0, 0, -1⟩ ⟨0, 0, 1⟩ 1).2 = 1 ∧
    snells_law ⟨0, 0, -1⟩ ⟨0, 0, 1⟩ 1 = (true, ⟨0, 0, -1⟩) := by
  have h := snells_law_spec ⟨0, 0, -1⟩ ⟨0, 0, 1⟩ 1
    (by norm_num [Vec3Q.norm_squared, Vec3Q.dot])
    (by norm_num [Vec3Q.norm_squared, Vec3Q.dot])
  refine ⟨h.1 ?_, h.2.1 rfl (by norm_num [Vec3Q.dot])⟩
  norm_num [Vec3Q.dot, sqrtQ_one]

/-
C6: per-pixel driver and stop conditions.
-/

/-- C6: `calculate_pixel` samples while the stop condition fails and stops at
the first count where it holds; under `SampleCount(N)` it stops as soon as
`count >= N`, performing exactly `N` samples; under `Variance` it stops
exactly when `count >= max(min_samples, 2)` and, componentwise,
`(variance / (mean + 1)) / sqrt(count) <= max_relative_variance`; and it
emits `PixelResult { color = mean, variance, rel_variance =
variance / (mean + 1), samples = count }`. -/
theorem calculate_pixel_spec (stream : ℕ → Color) :
    (∀ (sc : StopCondition) (h : ∃ m, is_done sc (estAfter stream m) = true),
      is_done sc (estAfter stream (stop_count sc stream h)) = true ∧
      ∀ m < stop_count sc stream h, is_done sc (estAfter stream m) = false) ∧
    (∀ (N : ℕ) (h : ∃ m, is_done (StopCondition.SampleCount N) (estAfter stream m) = true),
      stop_count (StopCondition.SampleCount N) stream h = N) ∧
    (∀ (ms : ℕ) (mrv : F) (m : ℕ),
      is_done (StopCondition.Variance ms mrv) (estAfter stream m) = true ↔
        (max ms 2 ≤ m ∧
         F.ble (F.div (F.div (F.div (estAfter stream m).m2.red (F.q m))
                  (F.add (estAfter stream m).mean.red (F.q 1)))
                (F.fsqrt (F.q m))) mrv = true ∧
         F.ble (F.div (F.div (F.div (estAfter stream m).m2.green (F.q m))
                  (F.add (estAfter stream m).mean.green (F.q 1)))
                (F.fsqrt (F.q m))) mrv = true ∧
         F.ble (F.div (F.div (F.div (estAfter stream m).m2.blue (F.q m))
                  (F.add (estAfter stream m).mean.blue (F.q 1)))
                (F.fsqrt (F.q m))) mrv = true)) ∧
    (∀ (sc : StopCondition) (h : ∃ m, is_done sc (estAfter stream m) = true),
      calculate_pixel sc stream h =
        { color := (estAfter stream (stop_count sc stream h)).mean,
          variance := ((estAfter stream (stop_count sc stream h)).varianceE).getD Color.black,
          rel_variance := Color.cdiv
            (((estAfter stream (stop_count sc stream h)).varianceE).getD Color.black)
            (Color.cadd (estAfter stream (stop_count sc stream h)).mean ⟨F.q 1, F.q 1, F.q 1⟩),
          samples := (estAfter stream (stop_count sc stream h)).count }) := by
  refine ⟨?_, ?_, ?_, ?_⟩
  · intro sc h
    exact ⟨Nat.find_spec h, fun m hm => by
      have := Nat.find_min h hm
      simpa using this⟩
  · intro N h
    rw [stop_count, Nat.find_eq_iff]
    constructor
    · simp [is_done, estAfter_count]
    · intro m hm
      simp [is_done, estAfter_count]
      omega
  · intro ms mrv m
    have hc := estAfter_count stream m
    by_cases h2 : max ms 2 ≤ m
    · have h2m : (2:ℕ) ≤ m := le_trans (le_max_right ms 2) h2
      have hvar : (estAfter stream m).varianceE
          = some (Color.sdiv (estAfter stream m).m2 (F.q m)) := by
        simp [ColorVarianceEstimator.varianceE, hc, h2m]
      simp only [is_done, variance_lte, hvar, hc, h2,
        Color.cdiv, Color.sdiv, Color.cadd, decide_eq_true_eq,
        Bool.and_eq_true, true_and]
      tauto
    · simp only [is_done, hc, decide_eq_true_eq, Bool.and_eq_true]
      tauto
  · intro sc h
    rfl

/-- The `SampleCount(2)` loop on a constant black stream terminates. -/
theorem sc2_exists :
    ∃ m, is_done (StopCondition.SampleCount 2)
      (estAfter (fun _ => Color.black) m) = true :=
  ⟨2, by simp [is_done, estAfter_count]⟩

/-- Witness for C6: the driver on a constant black stream with
`SampleCount(2)` performs exactly two samples and emits the mean. -/
theorem calculate_pixel_spec_witness :
    stop_count (StopCondition.SampleCount 2) (fun _ => Color.black) sc2_exists = 2 ∧
    (calculate_pixel (StopCondition.SampleCount 2) (fun _ => Color.black)
        sc2_exists).samples = 2 ∧
    (calculate_pixel (StopCondition.SampleCount 2) (fun _ => Color.black)
        sc2_exists).color = Color.black := by
  have h := calculate_pixel_spec (fun _ => Color.black)
  have hsc := h.2.1 2 sc2_exists
  have hemit := h.2.2.2 (StopCondition.SampleCount 2) sc2_exists
  have hconst := estAfter_const_eq 0 0 0 2 (by norm_num)
  have hb : (⟨F.q 0, F.q 0, F.q 0⟩ : Color) = Color.black := rfl
  refine ⟨hsc, ?_, ?_⟩
  · rw [hemit, hsc]
    simp [estAfter_count]
  · rw [hemit, hsc]
    show (estAfter (fun _ => (⟨F.q 0, F.q 0, F.q 0⟩ : Color)) 2).mean
      = (⟨F.q 0, F.q 0, F.q 0⟩ : Color)
    rw [hconst]

open List

/-
Partition model: correctness of the two-pointer `itertools::partition`.
-/

theorem splitLastP_none {p : α → Bool} :
    ∀ {l : List α}, splitLastP p l = none → ∀ x ∈ l, p x = false := by
  intro l
  induction l with
  | nil => intro _ x hx; cases hx
  | cons z zs ih =>
    intro h x hx
    simp only [splitLastP] at h
    rcases hz : splitLastP p zs with _ | ⟨A, y, B⟩ <;> rw [hz] at h
    · by_cases hpz : p z
      · simp [hpz] at h
      · rcases List.mem_cons.mp hx with rfl | hx
        · simpa using hpz
        · exact ih hz x hx
    · simp at h

theorem splitLastP_some {p : α → Bool} :
    ∀ {l : List α} {A : List α} {y : α} {B : List α},
      splitLastP p l = some (A, y, B) →
      l = A ++ y :: B ∧ p y = true ∧ ∀ x ∈ B, p x = false := by
  intro l
  induction l with
  | nil => intro A y B h; simp [splitLastP] at h
  | cons z zs ih =>
    intro A y B h
    simp only [splitLastP] at h
    rcases hz : splitLastP p zs with _ | ⟨A', y', B'⟩ <;> rw [hz] at h
    · by_cases hpz : p z <;> simp [hpz] at h
      obtain ⟨h1, h2, h3⟩ := h
      subst h1; subst h2; subst h3
      exact ⟨rfl, hpz, splitLastP_none hz⟩
    · simp at h
      obtain ⟨h1, h2, h3⟩ := h
      subst h1; subst h2; subst h3
      obtain ⟨hl, hy, hB⟩ := ih hz
      exact ⟨by rw [hl]; simp, hy, hB⟩

theorem partitionItAux_cons_pos {p : α → Bool} {x : α} {rest : List α} (fuel : ℕ)
    (hpx : p x = true) :
    partitionItAux p (fuel + 1) (x :: rest)
      = (x :: (partitionItAux p fuel rest).1, (partitionItAux p fuel rest).2 + 1) := by
  simp [partitionItAux, hpx]

theorem partitionItAux_cons_neg_none {p : α → Bool} {x : α} {rest : List α} (fuel : ℕ)
    (hpx : p x = false) (hz : splitLastP p rest = none) :
    partitionItAux p (fuel + 1) (x :: rest) = (x :: rest, 0) := by
  simp [partitionItAux, hpx, hz]

theorem partitionItAux_cons_neg_some {p : α → Bool} {x : α} {rest A : List α} {y : α}
    {B : List α} (fuel : ℕ) (hpx : p x = false) (hz : splitLastP p rest = some (A, y, B)) :
    partitionItAux p (fuel + 1) (x :: rest)
      = (y :: ((partitionItAux p fuel (A ++ [x])).1 ++ B),
         (partitionItAux p fuel (A ++ [x])).2 + 1) := by
  simp [partitionItAux, hpx, hz]

theorem perm_swap_mid (A B : List α) (x y : α) :
    y :: (A ++ [x] ++ B) ~ x :: (A ++ y :: B) := by
  calc y :: (A ++ [x] ++ B) ~ y :: (x :: (A ++ B)) := by
        refine List.Perm.cons y ?_
        have h1 : A ++ [x] ++ B = A ++ x :: B := by simp
        rw [h1]
        exact List.perm_middle
    _ ~ x :: (y :: (A ++ B)) := List.Perm.swap x y (A ++ B)
    _ ~ x :: (A ++ y :: B) := List.Perm.cons x List.perm_middle.symm

theorem partitionItAux_spec {p : α → Bool} :
    ∀ (fuel : ℕ) (l : List α), l.length ≤ fuel →
      (partitionItAux p fuel l).1 ~ l ∧
      (partitionItAux p fuel l).2 ≤ (partitionItAux p fuel l).1.length ∧
      (∀ x ∈ (partitionItAux p fuel l).1.take (partitionItAux p fuel l).2, p x = true) ∧
      (∀ x ∈ (partitionItAux p fuel l).1.drop (partitionItAux p fuel l).2, p x = false) := by
  intro fuel
  induction fuel with
  | zero =>
    intro l hl
    have : l = [] := List.length_eq_zero.mp (Nat.le_zero.mp hl)
    subst this
    simp [partitionItAux]
  | succ fuel ih =>
    intro l hl
    match l with
    | [] => simp [partitionItAux]
    | x :: rest =>
      by_cases hpx : p x
      · have hrest : rest.length ≤ fuel := by simp at hl; omega
        obtain ⟨hperm, hle, htake, hdrop⟩ := ih rest hrest
        rw [partitionItAux_cons_pos fuel hpx]
        refine ⟨hperm.cons x, by simp; omega, ?_, ?_⟩
        · intro z hz
          rw [List.take_succ_cons] at hz
          rcases List.mem_cons.mp hz with rfl | hz
          · exact hpx
          · exact htake z hz
        · intro z hz
          rw [List.drop_succ_cons] at hz
          exact hdrop z hz
      · have hpx' : p x = false := by simpa using hpx
        rcases hz : splitLastP p rest with _ | ⟨A, y, B⟩
        · rw [partitionItAux_cons_neg_none fuel hpx' hz]
          refine ⟨List.Perm.refl _, by omega, by simp, ?_⟩
          intro z hzz
          rcases List.mem_cons.mp hzz with rfl | hzz
          · exact hpx'
          · exact splitLastP_none hz z hzz
        · obtain ⟨hrest, hpy, hB⟩ := splitLastP_some hz
          have hlenA : (A ++ [x]).length ≤ fuel := by
            subst hrest
            simp at hl ⊢
            omega
          obtain ⟨hperm, hle, htake, hdrop⟩ := ih (A ++ [x]) hlenA
          rw [partitionItAux_cons_neg_some fuel hpx' hz]
          refine ⟨?_, by simp; omega, ?_, ?_⟩
          · calc y :: ((partitionItAux p fuel (A ++ [x])).1 ++ B)
                ~ y :: ((A ++ [x]) ++ B) := (hperm.append_right B).cons y
              _ ~ x :: (A ++ y :: B) := perm_swap_mid A B x y
              _ = x :: rest := by rw [hrest]
          · intro z hzz
            rw [List.take_succ_cons] at hzz
            rcases List.mem_cons.mp hzz with rfl | hzz
            · exact hpy
            · rw [List.take_append_of_le_length hle] at hzz
              exact htake z hzz
          · intro z hzz
            rw [List.drop_succ_cons, List.drop_append_of_le_length hle] at hzz
            rcases List.mem_append.mp hzz with hzz | hzz
            · exact hdrop z hzz
            · exact hB z hzz

theorem partitionIt_spec {p : α → Bool} (l : List α) :
    (partitionIt p l).1 ~ l ∧
    (partitionIt p l).2 ≤ (partitionIt p l).1.length ∧
    (∀ x ∈ (partitionIt p l).1.take (partitionIt p l).2, p x = true) ∧
    (∀ x ∈ (partitionIt p l).1.drop (partitionIt p l).2, p x = false) :=
  partitionItAux_spec l.length l le_rfl

theorem partitionIt_all_neg {p : α → Bool} {l : List α}
    (h : ∀ x ∈ l, p x = false) : partitionIt p l = (l, 0) := by
  cases l with
  | nil => rfl
  | cons x rest =>
    have hpx : p x = false := h x (by simp)
    have hz : splitLastP p rest = none := by
      rcases hzz : splitLastP p rest with _ | ⟨A, y, B⟩
      · rfl
      · obtain ⟨hrest, hpy, _⟩ := splitLastP_some hzz
        have : p y = false := h y (by rw [hrest]; simp)
        rw [this] at hpy; cases hpy
    simp [partitionIt, partitionItAux, hpx, hz]

/-
List-slice helpers for the in-place builder.
-/

theorem slice_length {l : List α} {start len : ℕ} (h : start + len ≤ l.length) :
    (slice l start len).length = len := by
  simp [slice]
  omega

theorem slice_get? {l : List α} (start len k : ℕ) (hk : k < len) :
    (slice l start len).get? k = l.get? (start + k) := by
  simp only [slice, List.get?_eq_getElem?]
  rw [List.getElem?_take_of_lt hk, List.getElem?_drop]

theorem slice_split (l : List α) (s a b : ℕ) :
    slice l s (a + b) = slice l s a ++ slice l (s + a) b := by
  simp only [slice]
  rw [List.take_add]
  congr 1
  rw [List.drop_drop]

theorem slice_whole (l : List α) : slice l 0 l.length = l := by
  simp [slice]

theorem slice_congr {l₁ l₂ : List α} {start len : ℕ}
    (h : ∀ k, k < len → l₁.get? (start + k) = l₂.get? (start + k)) :
    slice l₁ start len = slice l₂ start len := by
  apply List.ext_getElem?
  intro k
  by_cases hk : k < len
  · have h1 := slice_get? (l := l₁) start len k hk
    have h2 := slice_get? (l := l₂) start len k hk
    simp only [List.get?_eq_getElem?] at h1 h2
    rw [h1, h2]
    have := h k hk
    simpa [List.get?_eq_getElem?] using this
  · have h1 : ∀ (m : List α), (slice m start len)[k]? = (none : Option α) := by
      intro m
      apply List.getElem?_eq_none
      simp [slice]
      omega
    rw [h1, h1]

theorem writeSlice_length {l : List α} {start : ℕ} {seg : List α}
    (h : start + seg.length ≤ l.length) :
    (writeSlice l start seg).length = l.length := by
  simp [writeSlice]
  omega

theorem writeSlice_decomp (l : List α) (start : ℕ) (seg : List α) :
    l = l.take start ++ slice l start seg.length ++ l.drop (start + seg.length) := by
  calc l = l.take start ++ l.drop start := (List.take_append_drop start l).symm
    _ = l.take start ++ ((l.drop start).take seg.length ++ (l.drop start).drop seg.length) := by
        simp [List.take_append_drop]
    _ = l.take start ++ slice l start seg.length ++ l.drop (start + seg.length) := by
        rw [List.drop_drop, ← List.append_assoc]
        rfl

theorem writeSlice_perm {l : List α} {start : ℕ} {seg : List α}
    (hseg : seg ~ slice l start seg.length) :
    writeSlice l start seg ~ l := by
  conv_rhs => rw [writeSlice_decomp l start seg]
  exact ((List.Perm.refl (l.take start)).append hseg).append
    (List.Perm.refl (l.drop (start + seg.length)))

theorem writeSlice_get?_outside {l : List α} {start : ℕ} {seg : List α}
    (h : start + seg.length ≤ l.length) (j : ℕ)
    (hj : j < start ∨ start + seg.length ≤ j) :
    (writeSlice l start seg).get? j = l.get? j := by
  have hts : (l.take start).length = start := by simp; omega
  simp only [writeSlice, List.get?_eq_getElem?]
  rcases hj with hj | hj
  · rw [List.getElem?_append_left (by simp [hts]; omega),
      List.getElem?_append_left (by simp [hts]; omega),
      List.getElem?_take_of_lt hj]
  · rw [List.getElem?_append_right (by simp [hts]; omega)]
    rw [List.getElem?_drop]
    congr 1
    simp only [List.length_append, hts]
    omega

theorem writeSlice_slice {l : List α} {start : ℕ} {seg : List α}
    (h : start + seg.length ≤ l.length) :
    slice (writeSlice l start seg) start seg.length = seg := by
  have hts : (l.take start).length = start := by simp; omega
  apply List.ext_getElem?
  intro k
  by_cases hk : k < seg.length
  · have h1 := slice_get? (l := writeSlice l start seg) start seg.length k hk
    simp only [List.get?_eq_getElem?] at h1
    rw [h1]
    simp only [writeSlice, List.get?_eq_getElem?]
    rw [List.getElem?_append_left (by simp only [List.length_append, hts]; omega),
      List.getElem?_append_right (by simp only [hts]; omega)]
    congr 1
    simp [hts]
  · have hlen : start + seg.length ≤ (writeSlice l start seg).length := by
      rw [writeSlice_length h]; exact h
    rw [List.getElem?_eq_none (by rw [slice_length hlen]; omega),
      List.getElem?_eq_none (by omega)]

/-
Combine algebra and fold invariance.
-/

theorem AxisBox.combine_comm (a b : AxisBox) :
    AxisBox.combine a b = AxisBox.combine b a := by
  simp only [AxisBox.combine, Point3.pmin, Point3.pmax]
  rw [F.fmin_comm a.low.x, F.fmin_comm a.low.y, F.fmin_comm a.low.z,
    F.fmax_comm a.high.x, F.fmax_comm a.high.y, F.fmax_comm a.high.z]

theorem AxisBox.combine_assoc (a b c : AxisBox) :
    AxisBox.combine (AxisBox.combine a b) c = AxisBox.combine a (AxisBox.combine b c) := by
  simp only [AxisBox.combine, Point3.pmin, Point3.pmax]
  rw [F.fmin_assoc, F.fmin_assoc, F.fmin_assoc, F.fmax_assoc, F.fmax_assoc, F.fmax_assoc]

theorem foldl_combineO_some (cs : List AxisBox) :
    ∀ u : AxisBox, List.foldl combineO (some u) cs
      = some (match List.foldl combineO none cs with
              | none => u
              | some w => AxisBox.combine u w) := by
  induction cs with
  | nil => intro u; rfl
  | cons c cs ih =>
    intro u
    show List.foldl combineO (some (AxisBox.combine u c)) cs
      = some (match List.foldl combineO (some c) cs with
              | none => u
              | some w => AxisBox.combine u w)
    rw [ih (AxisBox.combine u c), ih c]
    rcases hcs : List.foldl combineO none cs with _ | w
    · simp [hcs]
    · simp only [hcs]
      rw [AxisBox.combine_assoc]

theorem boxesReduce_perm {l₁ l₂ : List AxisBox} (h : l₁ ~ l₂) :
    boxesReduce l₁ = boxesReduce l₂ := by
  unfold boxesReduce
  have hrc : RightCommutative combineO := by
    constructor
    intro o a b
    rcases o with _ | c
    · show combineO (some a) b = combineO (some b) a
      simp [combineO, AxisBox.combine_comm]
    · show combineO (some (AxisBox.combine c a)) b = combineO (some (AxisBox.combine c b)) a
      simp only [combineO]
      rw [AxisBox.combine_assoc, AxisBox.combine_assoc, AxisBox.combine_comm a b]
  exact @List.Perm.foldl_eq _ _ _ _ _ hrc h none

theorem boxesReduce_append {l₁ l₂ : List AxisBox} {x y : AxisBox}
    (h₁ : boxesReduce l₁ = some x) (h₂ : boxesReduce l₂ = some y) :
    boxesReduce (l₁ ++ l₂) = some (AxisBox.combine x y) := by
  unfold boxesReduce at *
  rw [List.foldl_append, h₁, foldl_combineO_some, h₂]

theorem boxesReduce_isSome {l : List AxisBox} (h : l ≠ []) :
    ∃ x, boxesReduce l = some x := by
  rcases l with _ | ⟨c, cs⟩
  · exact absurd rfl h
  · rw [show boxesReduce (c :: cs) = List.foldl combineO (some c) cs from rfl,
      foldl_combineO_some]
    exact ⟨_, rfl⟩

/-
List, slice and box helpers for the builder and traversal proofs.
-/

theorem slice_eq_map_range {l : List α} {start len : ℕ} (d : α)
    (h : start + len ≤ l.length) :
    slice l start len = (List.range len).map fun k => l.getD (start + k) d := by
  apply List.ext_getElem?
  intro k
  by_cases hk : k < len
  · have h1 := slice_get? (l := l) start len k hk
    simp only [List.get?_eq_getElem?] at h1
    have hsk : start + k < l.length := by omega
    rw [h1, List.getElem?_map, List.getElem?_range hk]
    simp only [Option.map_some']
    rw [List.getElem?_eq_getElem hsk, List.getD_eq_getElem?_getD,
      List.getElem?_eq_getElem hsk]
    rfl
  · rw [List.getElem?_eq_none (by rw [slice_length h]; omega),
      List.getElem?_eq_none (by simp only [List.length_map, List.length_range]; omega)]

theorem getD_map_lt {l : List α} {f : α → β} {i : ℕ} (h : i < l.length) (d : β) (d' : α) :
    (l.map f).getD i d = f (l.getD i d') := by
  rw [List.getD_eq_getElem?_getD, List.getD_eq_getElem?_getD, List.getElem?_map,
    List.getElem?_eq_getElem h]
  rfl

theorem getD_mem_of_lt {l : List α} {i : ℕ} (h : i < l.length) (d : α) :
    l.getD i d ∈ l := by
  rw [List.getD_eq_getElem?_getD, List.getElem?_eq_getElem h]
  exact List.getElem_mem h

theorem slice_getD {l : List α} {start len k : ℕ} (hk : k < len) (d : α) :
    (slice l start len).getD k d = l.getD (start + k) d := by
  have h1 := slice_get? (l := l) start len k hk
  simp only [List.get?_eq_getElem?] at h1
  rw [List.getD_eq_getElem?_getD, List.getD_eq_getElem?_getD, h1]

theorem mem_slice {l : List α} {start len : ℕ} {x : α} (h : x ∈ slice l start len) :
    x ∈ l :=
  List.mem_of_mem_drop (List.mem_of_mem_take h)

theorem range_add_split (a b : ℕ) :
    List.range (a + b) = List.range a ++ List.range' a b := by
  have h := List.range'_append 0 a b 1
  simp only [Nat.one_mul, Nat.zero_add] at h
  rw [List.range_eq_range', List.range_eq_range', Nat.add_comm a b, ← h]

theorem map_getD_range (l : List α) (d : α) :
    (List.range l.length).map (fun j => l.getD j d) = l := by
  apply List.ext_getElem?
  intro k
  by_cases hk : k < l.length
  · rw [List.getElem?_map, List.getElem?_range hk]
    simp only [Option.map_some']
    rw [List.getElem?_eq_getElem hk, List.getD_eq_getElem?_getD,
      List.getElem?_eq_getElem hk]
    rfl
  · rw [List.getElem?_eq_none (by simp only [List.length_map, List.length_range]; omega),
      List.getElem?_eq_none (by omega)]

theorem flatMap_eq_range (l : List β) (f : β → List γ) (d : β) :
    l.flatMap f = (List.range l.length).flatMap fun j => f (l.getD j d) := by
  induction l with
  | nil => rfl
  | cons x xs ih =>
    rw [List.flatMap_cons, List.length_cons, List.range_succ_eq_map,
      List.flatMap_cons, List.flatMap_map, ih]
    rfl

theorem sliceBoxes_eq_map (objects : List Object) {ids : List ℕ} {start len : ℕ}
    (h : start + len ≤ ids.length) :
    sliceBoxes objects ids start len = (slice ids start len).map (boxOf objects) := by
  rw [slice_eq_map_range 0 h, List.map_map]
  rfl

theorem leafObjects_eq_map (objects : List Object) {ids : List ℕ} {start len : ℕ}
    (h : start + len ≤ ids.length) :
    leafObjects objects ids start len
      = (slice ids start len).map fun id => objects.getD id defaultObject := by
  rw [slice_eq_map_range 0 h, List.map_map]
  rfl

theorem sliceBoxes_split (objects : List Object) (ids : List ℕ) (s a b : ℕ) :
    sliceBoxes objects ids s (a + b)
      = sliceBoxes objects ids s a ++ sliceBoxes objects ids (s + a) b := by
  unfold sliceBoxes
  rw [range_add_split, List.map_append, List.range'_eq_map_range, List.map_map]
  congr 1
  apply List.map_congr_left
  intro k _
  simp only [Function.comp_apply]
  rw [← Nat.add_assoc]

/-
The `min_by_key` fold of `first_hit`: the result exists iff there are hits,
is one of the hits, and (for non-NaN keys) is no larger than any of them.
-/

theorem minFold_eq_foldl (hits : List (ℕ × Hit)) :
    minFold hits = hits.foldl minStep none := rfl

theorem foldl_minStep_some (hs : List (ℕ × Hit)) :
    ∀ a, ∃ y, hs.foldl minStep (some a) = some y := by
  induction hs with
  | nil => intro a; exact ⟨a, rfl⟩
  | cons x hs ih =>
    intro a
    rw [List.foldl_cons]
    by_cases hb : F.blt x.2.t a.2.t = true
    · have hstep : minStep (some a) x = some x := by simp [minStep, hb]
      rw [hstep]; exact ih x
    · have hstep : minStep (some a) x = some a := by simp [minStep, hb]
      rw [hstep]; exact ih a

theorem minFold_none_iff (hits : List (ℕ × Hit)) :
    minFold hits = none ↔ hits = [] := by
  constructor
  · intro h
    cases hits with
    | nil => rfl
    | cons x hs =>
      rw [minFold_eq_foldl, List.foldl_cons] at h
      have hstep : minStep none x = some x := rfl
      rw [hstep] at h
      obtain ⟨y, hy⟩ := foldl_minStep_some hs x
      rw [hy] at h
      cases h
  · rintro rfl; rfl

theorem foldl_minStep_mem (hs : List (ℕ × Hit)) :
    ∀ a y, hs.foldl minStep (some a) = some y → y = a ∨ y ∈ hs := by
  induction hs with
  | nil =>
    intro a y h
    injection h with h
    exact Or.inl h.symm
  | cons x hs ih =>
    intro a y h
    rw [List.foldl_cons] at h
    by_cases hb : F.blt x.2.t a.2.t = true
    · have hstep : minStep (some a) x = some x := by simp [minStep, hb]
      rw [hstep] at h
      rcases ih x y h with he | hm
      · exact Or.inr (he ▸ List.mem_cons_self x hs)
      · exact Or.inr (List.mem_cons_of_mem x hm)
    · have hstep : minStep (some a) x = some a := by simp [minStep, hb]
      rw [hstep] at h
      rcases ih a y h with he | hm
      · exact Or.inl he
      · exact Or.inr (List.mem_cons_of_mem x hm)

theorem minFold_mem {hits : List (ℕ × Hit)} {y : ℕ × Hit} (h : minFold hits = some y) :
    y ∈ hits := by
  cases hits with
  | nil => cases h
  | cons x hs =>
    rw [minFold_eq_foldl, List.foldl_cons] at h
    have hstep : minStep none x = some x := rfl
    rw [hstep] at h
    rcases foldl_minStep_mem hs x y h with he | hm
    · exact he ▸ List.mem_cons_self x hs
    · exact List.mem_cons_of_mem x hm

theorem foldl_minStep_min (hs : List (ℕ × Hit)) :
    ∀ a, (∀ p ∈ hs, p.2.t.isNan = false) → a.2.t.isNan = false →
    ∀ q, (q = a ∨ q ∈ hs) →
    ∃ y, hs.foldl minStep (some a) = some y ∧ F.ble y.2.t q.2.t = true := by
  induction hs with
  | nil =>
    intro a _ ha q hq
    rcases hq with he | hq
    · exact ⟨a, rfl, by rw [he]; exact F.ble_refl ha⟩
    · exact absurd hq (List.not_mem_nil q)
  | cons x hs ih =>
    intro a hnan ha q hq
    have hx : x.2.t.isNan = false := hnan x (List.mem_cons_self x hs)
    have hns : ∀ p ∈ hs, p.2.t.isNan = false :=
      fun p hp => hnan p (List.mem_cons_of_mem x hp)
    rw [List.foldl_cons]
    by_cases hb : F.blt x.2.t a.2.t = true
    · have hstep : minStep (some a) x = some x := by simp [minStep, hb]
      rw [hstep]
      rcases hq with he | hq
      · obtain ⟨y, hy, hyx⟩ := ih x hns hx x (Or.inl rfl)
        exact ⟨y, hy, he ▸ F.ble_trans hyx (F.ble_of_blt hb)⟩
      · rcases List.mem_cons.mp hq with he | hq
        · exact he ▸ ih x hns hx x (Or.inl rfl)
        · exact ih x hns hx q (Or.inr hq)
    · have hstep : minStep (some a) x = some a := by simp [minStep, hb]
      rw [hstep]
      have hax : F.ble a.2.t x.2.t = true :=
        F.ble_of_not_blt hx ha (by simpa using hb)
      rcases hq with he | hq
      · exact he ▸ ih a hns ha a (Or.inl rfl)
      · rcases List.mem_cons.mp hq with he | hq
        · obtain ⟨y, hy, hya⟩ := ih a hns ha a (Or.inl rfl)
          exact ⟨y, hy, he ▸ F.ble_trans hya hax⟩
        · exact ih a hns ha q (Or.inr hq)

theorem minFold_min {hits : List (ℕ × Hit)} {q : ℕ × Hit}
    (hnan : ∀ p ∈ hits, p.2.t.isNan = false) (hq : q ∈ hits) :
    ∃ y, minFold hits = some y ∧ F.ble y.2.t q.2.t = true := by
  cases hits with
  | nil => exact absurd hq (List.not_mem_nil q)
  | cons x hs =>
    rw [minFold_eq_foldl, List.foldl_cons]
    have hstep : minStep none x = some x := rfl
    rw [hstep]
    refine foldl_minStep_min hs x (fun p hp => hnan p (List.mem_cons_of_mem x hp))
      (hnan x (List.mem_cons_self x hs)) q ?_
    rcases List.mem_cons.mp hq with he | h
    · exact Or.inl he
    · exact Or.inr h

/-
Membership characterisation of the hit scan.
-/

theorem scanHits_mem {objects : List Object} {ray : Ray} {filter : Object → Bool}
    {qi : ℕ} {qh : Hit} :
    (qi, qh) ∈ scanHits objects ray filter ↔
      qi < objects.length ∧ filter (objects.getD qi defaultObject) = true ∧
        Object.intersect (objects.getD qi defaultObject) ray = some qh := by
  unfold scanHits
  rw [List.mem_filterMap]
  constructor
  · rintro ⟨⟨i, o⟩, hmem, hf⟩
    rw [List.mk_mem_enum_iff_get?] at hmem
    have hi : i < objects.length := by
      by_contra hcon
      push_neg at hcon
      rw [List.get?_eq_getElem?, List.getElem?_eq_none hcon] at hmem
      cases hmem
    have hgetD : objects.getD i defaultObject = o := by
      rw [List.get?_eq_getElem?] at hmem
      rw [List.getD_eq_getElem?_getD, hmem]
      rfl
    simp only at hf
    by_cases hfo : filter o = true
    · rw [if_pos hfo] at hf
      rcases Option.map_eq_some'.mp hf with ⟨h, hint, hpair⟩
      injection hpair with h1 h2
      subst h1
      subst h2
      subst hgetD
      exact ⟨hi, hfo, hint⟩
    · rw [if_neg hfo] at hf
      cases hf
  · rintro ⟨h1, h2, h3⟩
    refine ⟨(qi, objects.getD qi defaultObject), ?_, ?_⟩
    · rw [List.mk_mem_enum_iff_get?, List.get?_eq_getElem?, List.getElem?_eq_getElem h1,
        List.getD_eq_getElem?_getD, List.getElem?_eq_getElem h1]
      rfl
    · simp only [h2, if_true, h3, Option.map_some']

theorem scanHits_map {objects : List Object} {ray : Ray} {filter : Object → Bool}
    {idl : List ℕ} (hid : ∀ id ∈ idl, id < objects.length) (qi : ℕ) (qh : Hit) :
    (qi, qh) ∈ scanHits (idl.map fun id => objects.getD id defaultObject) ray filter ↔
      qi < idl.length ∧ (idl.getD qi 0, qh) ∈ scanHits objects ray filter := by
  rw [scanHits_mem, scanHits_mem]
  by_cases hq : qi < idl.length
  · simp only [List.length_map, hq, true_and]
    rw [getD_map_lt hq defaultObject 0]
    have hlt : idl.getD qi 0 < objects.length := hid _ (getD_mem_of_lt hq 0)
    simp only [List.getD_eq_getElem?_getD] at hlt
    simp [hlt]
  · simp only [List.length_map]
    constructor
    · rintro ⟨h1, _⟩
      exact absurd h1 hq
    · rintro ⟨h1, _⟩
      exact absurd h1 hq

/-
`ObjectHit::closest` order facts.
-/

theorem closest_eq_or (l r : ObjectHit) :
    ObjectHit.closest l r = l ∨ ObjectHit.closest l r = r := by
  unfold ObjectHit.closest
  by_cases h : F.blt l.hit.t r.hit.t = true
  · rw [if_pos h]; exact Or.inl rfl
  · rw [if_neg h]; exact Or.inr rfl

theorem closest_le_right {l r : ObjectHit} (hr : r.hit.t.isNan = false) :
    F.ble (ObjectHit.closest l r).hit.t r.hit.t = true := by
  unfold ObjectHit.closest
  by_cases h : F.blt l.hit.t r.hit.t = true
  · rw [if_pos h]; exact F.ble_of_blt h
  · rw [if_neg h]; exact F.ble_refl hr

theorem closest_le_left {l r : ObjectHit} (hl : l.hit.t.isNan = false)
    (hr : r.hit.t.isNan = false) :
    F.ble (ObjectHit.closest l r).hit.t l.hit.t = true := by
  unfold ObjectHit.closest
  by_cases h : F.blt l.hit.t r.hit.t = true
  · rw [if_pos h]; exact F.ble_refl hl
  · rw [if_neg h]; exact F.ble_of_not_blt hl hr (by simpa using h)

theorem closest_option_cases {a b : Option ObjectHit} {oh : ObjectHit}
    (h : ObjectHit.closest_option a b = some oh) :
    a = some oh ∨ b = some oh := by
  rcases a with _ | x <;> rcases b with _ | y
  · cases h
  · exact Or.inr h
  · exact Or.inl h
  · have h' : ObjectHit.closest x y = oh := by injection h
    rcases closest_eq_or x y with he | he
    · exact Or.inl (by rw [← h', he])
    · exact Or.inr (by rw [← h', he])

theorem closest_option_left_some {x : Option ObjectHit} (l : ObjectHit)
    (hl : l.hit.t.isNan = false) (hx : ∀ r, x = some r → r.hit.t.isNan = false) :
    ∃ oh, ObjectHit.closest_option (some l) x = some oh ∧
      F.ble oh.hit.t l.hit.t = true := by
  rcases x with _ | r
  · exact ⟨l, rfl, F.ble_refl hl⟩
  · exact ⟨ObjectHit.closest l r, rfl, closest_le_left hl (hx r rfl)⟩

theorem closest_option_right_some {x : Option ObjectHit} (r : ObjectHit)
    (hr : r.hit.t.isNan = false) :
    ∃ oh, ObjectHit.closest_option x (some r) = some oh ∧
      F.ble oh.hit.t r.hit.t = true := by
  rcases x with _ | l
  · exact ⟨r, rfl, F.ble_refl hr⟩
  · exact ⟨ObjectHit.closest l r, rfl, closest_le_right hr⟩

theorem F.fmin_eq_or (a b : F) : F.fmin a b = a ∨ F.fmin a b = b := by
  cases a <;> cases b <;> simp [F.fmin] <;> exact le_total _ _

/-
Structure of well-formed subtrees.
-/

theorem subtree_head {objects : List Object} {nodes : List Node} {ids : List ℕ}
    {i : ℕ} {b : AxisBox} {s l : ℕ} {J : List ℕ}
    (h : Subtree objects nodes ids i b s l J) :
    ∃ k, nodes.get? i = some ⟨b, k⟩ := by
  cases h with
  | leaf i b s l h1 h2 h3 h4 => exact ⟨_, h1⟩
  | branch i b lft b₁ b₂ s l₁ l₂ J₁ J₂ h1 h2 h3 h4 h5 => exact ⟨_, h1⟩

theorem subtree_len_pos {objects : List Object} {nodes : List Node} {ids : List ℕ}
    {i : ℕ} {b : AxisBox} {s l : ℕ} {J : List ℕ}
    (h : Subtree objects nodes ids i b s l J) : 1 ≤ l := by
  induction h with
  | leaf _ _ _ _ _ h2 _ _ => exact h2
  | branch _ _ _ _ _ _ _ _ _ _ _ _ _ _ _ ih₁ ih₂ => omega

theorem subtree_range {objects : List Object} {nodes : List Node} {ids : List ℕ}
    {i : ℕ} {b : AxisBox} {s l : ℕ} {J : List ℕ}
    (h : Subtree objects nodes ids i b s l J) : s + l ≤ ids.length := by
  induction h with
  | leaf _ _ _ _ _ _ h3 _ => exact h3
  | branch _ _ _ _ _ _ _ _ _ _ _ _ _ _ _ ih₁ ih₂ => omega

theorem subtree_J_lt {objects : List Object} {nodes : List Node} {ids : List ℕ}
    {i : ℕ} {b : AxisBox} {s l : ℕ} {J : List ℕ}
    (h : Subtree objects nodes ids i b s l J) : ∀ j ∈ J, j < nodes.length := by
  induction h with
  | leaf i b s l h1 h2 h3 h4 =>
    intro j hj
    rw [List.mem_singleton] at hj
    subst hj
    by_contra hcon
    push_neg at hcon
    rw [List.get?_eq_getElem?, List.getElem?_eq_none hcon] at h1
    cases h1
  | branch i b lft b₁ b₂ s l₁ l₂ J₁ J₂ h1 h2 h3 h4 h5 ih₁ ih₂ =>
    intro j hj
    rcases List.mem_cons.mp hj with he | hj
    · subst he
      by_contra hcon
      push_neg at hcon
      rw [List.get?_eq_getElem?, List.getElem?_eq_none hcon] at h1
      cases h1
    · rcases List.mem_append.mp hj with hj | hj
      · exact ih₁ j hj
      · exact ih₂ j hj

theorem subtree_bound {objects : List Object} {nodes : List Node} {ids : List ℕ}
    {i : ℕ} {b : AxisBox} {s l : ℕ} {J : List ℕ}
    (h : Subtree objects nodes ids i b s l J) :
    some b = boxesReduce (sliceBoxes objects ids s l) := by
  induction h with
  | leaf _ _ _ _ _ _ _ h4 => exact h4
  | branch i b lft b₁ b₂ s l₁ l₂ J₁ J₂ h1 h2 h3 h4 h5 ih₁ ih₂ =>
    rw [sliceBoxes_split, boxesReduce_append ih₁.symm ih₂.symm, h5]

theorem subtree_idsF {objects : List Object} {nodes : List Node} {ids : List ℕ}
    {i : ℕ} {b : AxisBox} {s l : ℕ} {J : List ℕ}
    (h : Subtree objects nodes ids i b s l J) (g : List ℕ) :
    ∀ fuel, J.length ≤ fuel → subtreeIdsF ⟨g, ids, nodes⟩ fuel i = slice ids s l := by
  induction h with
  | leaf i b s l h1 h2 h3 h4 =>
    intro fuel hfuel
    cases fuel with
    | zero => simp at hfuel
    | succ fuel => simp only [subtreeIdsF, h1]
  | branch i b lft b₁ b₂ s l₁ l₂ J₁ J₂ h1 h2 h3 h4 h5 ih₁ ih₂ =>
    intro fuel hfuel
    cases fuel with
    | zero => simp at hfuel
    | succ fuel =>
      simp only [List.length_cons, List.length_append] at hfuel
      simp only [subtreeIdsF, h1]
      rw [ih₁ fuel (by omega), ih₂ fuel (by omega), ← slice_split]

theorem subtree_join {objects : List Object} {nodes : List Node} {ids : List ℕ}
    {i : ℕ} {b : AxisBox} {s l : ℕ} {J : List ℕ}
    (h : Subtree objects nodes ids i b s l J) :
    J.flatMap (leafSliceAt nodes ids) = slice ids s l := by
  induction h with
  | leaf i b s l h1 h2 h3 h4 =>
    show leafSliceAt nodes ids i ++ [] = slice ids s l
    rw [List.append_nil]
    simp only [leafSliceAt, h1]
  | branch i b lft b₁ b₂ s l₁ l₂ J₁ J₂ h1 h2 h3 h4 h5 ih₁ ih₂ =>
    rw [List.flatMap_cons, List.flatMap_append, ih₁, ih₂]
    simp only [leafSliceAt, h1]
    rw [List.nil_append, ← slice_split]

theorem subtree_sub {objects : List Object} {nodes : List Node} {ids : List ℕ}
    {i : ℕ} {b : AxisBox} {s l : ℕ} {J : List ℕ}
    (h : Subtree objects nodes ids i b s l J) :
    ∀ j ∈ J, ∃ b' s' l' J', Subtree objects nodes ids j b' s' l' J'
      ∧ J'.length ≤ J.length := by
  induction h with
  | leaf i b s l h1 h2 h3 h4 =>
    intro j hj
    rw [List.mem_singleton] at hj
    subst hj
    exact ⟨b, s, l, [j], Subtree.leaf j b s l h1 h2 h3 h4, le_refl _⟩
  | branch i b lft b₁ b₂ s l₁ l₂ J₁ J₂ h1 h2 h3 h4 h5 ih₁ ih₂ =>
    intro j hj
    rcases List.mem_cons.mp hj with he | hj
    · subst he
      exact ⟨b, s, l₁ + l₂, _,
        Subtree.branch j b lft b₁ b₂ s l₁ l₂ J₁ J₂ h1 h2 h3 h4 h5, le_refl _⟩
    · rcases List.mem_append.mp hj with hj | hj
      · obtain ⟨b', s', l', J', hsub, hlen⟩ := ih₁ j hj
        refine ⟨b', s', l', J', hsub, ?_⟩
        simp only [List.length_cons, List.length_append]
        omega
      · obtain ⟨b', s', l', J', hsub, hlen⟩ := ih₂ j hj
        refine ⟨b', s', l', J', hsub, ?_⟩
        simp only [List.length_cons, List.length_append]
        omega

theorem subtree_stable {objects : List Object} {nodes : List Node} {ids : List ℕ}
    {i : ℕ} {b : AxisBox} {s l : ℕ} {J : List ℕ}
    (h : Subtree objects nodes ids i b s l J) :
    ∀ (nodes' : List Node) (ids' : List ℕ),
      ids'.length = ids.length →
      (∀ k, s ≤ k → k < s + l → ids'.get? k = ids.get? k) →
      (∀ j ∈ J, nodes'.get? j = nodes.get? j) →
      Subtree objects nodes' ids' i b s l J := by
  induction h with
  | leaf i b s l h1 h2 h3 h4 =>
    intro nodes' ids' hlen hids hnodes
    have hsl : slice ids' s l = slice ids s l :=
      slice_congr fun k hk => hids (s + k) (by omega) (by omega)
    apply Subtree.leaf
    · rw [hnodes i (by simp)]
      exact h1
    · exact h2
    · omega
    · rw [sliceBoxes_eq_map objects (by omega), hsl, ← sliceBoxes_eq_map objects h3]
      exact h4
  | branch i b lft b₁ b₂ s l₁ l₂ J₁ J₂ h1 h2 h3 h4 h5 ih₁ ih₂ =>
    intro nodes' ids' hlen hids hnodes
    apply Subtree.branch i b lft b₁ b₂ s l₁ l₂ J₁ J₂
    · rw [hnodes i (by simp)]
      exact h1
    · exact h2
    · exact ih₁ nodes' ids' hlen (fun k hk1 hk2 => hids k hk1 (by omega))
        (fun j hj => hnodes j (by simp [hj]))
    · exact ih₂ nodes' ids' hlen (fun k hk1 hk2 => hids k (by omega) (by omega))
        (fun j hj => hnodes j (by simp [hj]))
    · exact h5

/-
Unfolding equations for one step of `Builder::split`, and the builder
induction itself.
-/

theorem slice_split_at {l : List α} {s len : ℕ} (m : ℕ) (h : m ≤ len) :
    slice l s len = slice l s m ++ slice l (s + m) (len - m) := by
  conv_lhs => rw [show len = m + (len - m) by omega]
  exact slice_split l s m (len - m)

theorem range'_cons_cons (s m : ℕ) :
    s :: (s + 1) :: List.range' (s + 2) m = List.range' s (m + 2) := by
  have h := List.range'_append s 2 m 1
  simp only [Nat.one_mul] at h
  exact h

theorem splitGo_succ_none {objects : List Object} {strategy : BVHSplitStrategy}
    {st : Bst} {nodeIdx start len : ℕ} {b : AxisBox} (fuel : ℕ)
    (h1 : st.nodes.get? nodeIdx = some ⟨b, NodeKind.leaf start len⟩)
    (hfb : find_best_split strategy objects st.ids start len b = none) :
    splitGo objects strategy (fuel + 1) st nodeIdx = st := by
  simp only [splitGo, h1, hfb]

theorem splitGo_succ_stop {objects : List Object} {strategy : BVHSplitStrategy}
    {st : Bst} {nodeIdx start len : ℕ} {b : AxisBox} {axis : Axis3} {value : F}
    (fuel : ℕ)
    (h1 : st.nodes.get? nodeIdx = some ⟨b, NodeKind.leaf start len⟩)
    (hfb : find_best_split strategy objects st.ids start len b = some (axis, value))
    (pr : List ℕ × ℕ)
    (hpr : pr = partitionIt (fun id =>
      F.blt ((object_centroid (objects.getD id defaultObject)).get axis) value)
      (slice st.ids start len))
    (hsplit : pr.2 = 0 ∨ pr.2 = len) :
    splitGo objects strategy (fuel + 1) st nodeIdx
      = ⟨writeSlice st.ids start pr.1, st.nodes⟩ := by
  subst hpr
  simp only [splitGo, h1, hfb]
  rw [if_pos hsplit]

theorem splitGo_succ_rec {objects : List Object} {strategy : BVHSplitStrategy}
    {st : Bst} {nodeIdx start len : ℕ} {b : AxisBox} {axis : Axis3} {value : F}
    (fuel : ℕ)
    (h1 : st.nodes.get? nodeIdx = some ⟨b, NodeKind.leaf start len⟩)
    (hfb : find_best_split strategy objects st.ids start len b = some (axis, value))
    (pr : List ℕ × ℕ)
    (hpr : pr = partitionIt (fun id =>
      F.blt ((object_centroid (objects.getD id defaultObject)).get axis) value)
      (slice st.ids start len))
    (hsplit : ¬ (pr.2 = 0 ∨ pr.2 = len)) :
    splitGo objects strategy (fuel + 1) st nodeIdx
      = splitGo objects strategy fuel
          (splitGo objects strategy fuel
            ⟨writeSlice st.ids start pr.1,
             (st.nodes.set nodeIdx ⟨b, NodeKind.branch st.nodes.length⟩) ++
               [build_leaf objects (writeSlice st.ids start pr.1) start pr.2,
                build_leaf objects (writeSlice st.ids start pr.1) (start + pr.2)
                  (len - pr.2)]⟩
            st.nodes.length)
          (st.nodes.length + 1) := by
  subst hpr
  simp only [splitGo, h1, hfb]
  rw [if_neg hsplit]

theorem splitGo_spec (objects : List Object) (strategy : BVHSplitStrategy) :
    ∀ (fuel : ℕ) (st : Bst) (nodeIdx start len : ℕ) (b : AxisBox),
    st.nodes.get? nodeIdx = some ⟨b, NodeKind.leaf start len⟩ →
    1 ≤ len → len ≤ fuel → start + len ≤ st.ids.length →
    some b = boxesReduce (sliceBoxes objects st.ids start len) →
    (splitGo objects strategy fuel st nodeIdx).ids.length = st.ids.length ∧
    (∀ j, j < start ∨ start + len ≤ j →
      (splitGo objects strategy fuel st nodeIdx).ids.get? j = st.ids.get? j) ∧
    slice (splitGo objects strategy fuel st nodeIdx).ids start len
      ~ slice st.ids start len ∧
    st.nodes.length ≤ (splitGo objects strategy fuel st nodeIdx).nodes.length ∧
    (∀ j, j < st.nodes.length → j ≠ nodeIdx →
      (splitGo objects strategy fuel st nodeIdx).nodes.get? j = st.nodes.get? j) ∧
    ∃ J, Subtree objects (splitGo objects strategy fuel st nodeIdx).nodes
        (splitGo objects strategy fuel st nodeIdx).ids nodeIdx b start len J ∧
      J ~ nodeIdx :: List.range' st.nodes.length
        ((splitGo objects strategy fuel st nodeIdx).nodes.length - st.nodes.length) := by
  intro fuel
  induction fuel with
  | zero =>
    intro st nodeIdx start len b h1 h2 h3 h4 h5
    omega
  | succ fuel ih =>
    intro st nodeIdx start len b h1 h2 h3 h4 h5
    rcases hfb : find_best_split strategy objects st.ids start len b with _ | ⟨axis, value⟩
    · rw [splitGo_succ_none fuel h1 hfb]
      refine ⟨rfl, fun j hj => rfl, List.Perm.refl _, le_refl _, fun j hj1 hj2 => rfl,
        [nodeIdx], Subtree.leaf nodeIdx b start len h1 h2 h4 h5, ?_⟩
      simp
    · generalize hpr : partitionIt (fun id =>
          F.blt ((object_centroid (objects.getD id defaultObject)).get axis) value)
          (slice st.ids start len) = pr
      obtain ⟨hperm, hle, htake, hdrop⟩ :=
        hpr ▸ partitionIt_spec (p := fun id =>
          F.blt ((object_centroid (objects.getD id defaultObject)).get axis) value)
          (slice st.ids start len)
      have hslen : (slice st.ids start len).length = len := slice_length h4
      have hprlen : pr.1.length = len := by rw [hperm.length_eq, hslen]
      have hwlen : start + pr.1.length ≤ st.ids.length := by omega
      have hids1len : (writeSlice st.ids start pr.1).length = st.ids.length :=
        writeSlice_length hwlen
      have hids1slice : slice (writeSlice st.ids start pr.1) start len = pr.1 := by
        conv_lhs => rw [← hprlen]
        exact writeSlice_slice hwlen
      have hids1perm : slice (writeSlice st.ids start pr.1) start len
          ~ slice st.ids start len := by
        rw [hids1slice]
        exact hperm
      have hids1out : ∀ j, j < start ∨ start + len ≤ j →
          (writeSlice st.ids start pr.1).get? j = st.ids.get? j := by
        intro j hj
        exact writeSlice_get?_outside hwlen j (by omega)
      have hbox1 : boxesReduce (sliceBoxes objects (writeSlice st.ids start pr.1) start len)
          = boxesReduce (sliceBoxes objects st.ids start len) := by
        rw [sliceBoxes_eq_map objects
            (show start + len ≤ (writeSlice st.ids start pr.1).length by omega),
          sliceBoxes_eq_map objects h4]
        exact boxesReduce_perm (hids1perm.map _)
      by_cases hsplit : pr.2 = 0 ∨ pr.2 = len
      · rw [splitGo_succ_stop fuel h1 hfb pr hpr.symm hsplit]
        refine ⟨hids1len, hids1out, hids1perm, le_refl _, fun j hj1 hj2 => rfl,
          [nodeIdx],
          Subtree.leaf nodeIdx b start len h1 h2
            (show start + len ≤ (writeSlice st.ids start pr.1).length by omega)
            (show some b = boxesReduce
                (sliceBoxes objects (writeSlice st.ids start pr.1) start len) by
              rw [hbox1]; exact h5), ?_⟩
        simp
      · have hsp0 : pr.2 ≠ 0 := fun hc => hsplit (Or.inl hc)
        have hspl : pr.2 ≠ len := fun hc => hsplit (Or.inr hc)
        have hpr2le : pr.2 ≤ len := by omega
        have hnIdx : nodeIdx < st.nodes.length := by
          by_contra hcon
          push_neg at hcon
          rw [List.get?_eq_getElem?, List.getElem?_eq_none hcon] at h1
          cases h1
        have heq := splitGo_succ_rec fuel h1 hfb pr hpr.symm hsplit
        have hslne : ∀ (s' l' : ℕ), 1 ≤ l' →
            sliceBoxes objects (writeSlice st.ids start pr.1) s' l' ≠ [] := by
          intro s' l' hl' hnil
          have hll := congrArg List.length hnil
          simp [sliceBoxes] at hll
          omega
        have hbl : some (compute_bound objects (writeSlice st.ids start pr.1) start pr.2)
            = boxesReduce (sliceBoxes objects (writeSlice st.ids start pr.1) start pr.2) := by
          obtain ⟨x, hx⟩ := boxesReduce_isSome (hslne start pr.2 (by omega))
          rw [compute_bound, hx]
          rfl
        have hbr : some (compute_bound objects (writeSlice st.ids start pr.1)
              (start + pr.2) (len - pr.2))
            = boxesReduce (sliceBoxes objects (writeSlice st.ids start pr.1)
              (start + pr.2) (len - pr.2)) := by
          obtain ⟨x, hx⟩ := boxesReduce_isSome (hslne (start + pr.2) (len - pr.2) (by omega))
          rw [compute_bound, hx]
          rfl
        have hsetlen : (st.nodes.set nodeIdx ⟨b, NodeKind.branch st.nodes.length⟩).length
            = st.nodes.length := List.length_set _ _ _
        have hn1len : ((st.nodes.set nodeIdx ⟨b, NodeKind.branch st.nodes.length⟩) ++
            [build_leaf objects (writeSlice st.ids start pr.1) start pr.2,
             build_leaf objects (writeSlice st.ids start pr.1) (start + pr.2)
               (len - pr.2)]).length = st.nodes.length + 2 := by
          simp only [List.length_append, hsetlen, List.length_cons, List.length_nil]
        have hn1L : ((st.nodes.set nodeIdx ⟨b, NodeKind.branch st.nodes.length⟩) ++
            [build_leaf objects (writeSlice st.ids start pr.1) start pr.2,
             build_leaf objects (writeSlice st.ids start pr.1) (start + pr.2)
               (len - pr.2)]).get? st.nodes.length
            = some (build_leaf objects (writeSlice st.ids start pr.1) start pr.2) := by
          rw [List.get?_eq_getElem?, List.getElem?_append_right hsetlen.le, hsetlen]
          simp
        have hn1R : ((st.nodes.set nodeIdx ⟨b, NodeKind.branch st.nodes.length⟩) ++
            [build_leaf objects (writeSlice st.ids start pr.1) start pr.2,
             build_leaf objects (writeSlice st.ids start pr.1) (start + pr.2)
               (len - pr.2)]).get? (st.nodes.length + 1)
            = some (build_leaf objects (writeSlice st.ids start pr.1) (start + pr.2)
                (len - pr.2)) := by
          rw [List.get?_eq_getElem?, List.getElem?_append_right (by rw [hsetlen]; omega),
            hsetlen]
          have hi1 : st.nodes.length + 1 - st.nodes.length = 1 := by omega
          rw [hi1]
          rfl
        have hn1Idx : ((st.nodes.set nodeIdx ⟨b, NodeKind.branch st.nodes.length⟩) ++
            [build_leaf objects (writeSlice st.ids start pr.1) start pr.2,
             build_leaf objects (writeSlice st.ids start pr.1) (start + pr.2)
               (len - pr.2)]).get? nodeIdx
            = some ⟨b, NodeKind.branch st.nodes.length⟩ := by
          rw [List.get?_eq_getElem?, List.getElem?_append_left (by rw [hsetlen]; exact hnIdx),
            List.getElem?_set_self hnIdx]
        have hn1frame : ∀ j, j < st.nodes.length → j ≠ nodeIdx →
            ((st.nodes.set nodeIdx ⟨b, NodeKind.branch st.nodes.length⟩) ++
            [build_leaf objects (writeSlice st.ids start pr.1) start pr.2,
             build_leaf objects (writeSlice st.ids start pr.1) (start + pr.2)
               (len - pr.2)]).get? j = st.nodes.get? j := by
          intro j hj1 hj2
          rw [List.get?_eq_getElem?, List.getElem?_append_left (by rw [hsetlen]; exact hj1),
            List.getElem?_set_ne (Ne.symm hj2), List.get?_eq_getElem?]
        obtain ⟨e1len, e1out, e1perm, e1nle, e1nframe, J₁, hsub1, hJ1⟩ :=
          ih ⟨writeSlice st.ids start pr.1,
              (st.nodes.set nodeIdx ⟨b, NodeKind.branch st.nodes.length⟩) ++
              [build_leaf objects (writeSlice st.ids start pr.1) start pr.2,
               build_leaf objects (writeSlice st.ids start pr.1) (start + pr.2)
                 (len - pr.2)]⟩
            st.nodes.length start pr.2
            (compute_bound objects (writeSlice st.ids start pr.1) start pr.2)
            hn1L (by omega) (by omega)
            (show start + pr.2 ≤ (writeSlice st.ids start pr.1).length by omega)
            hbl
        dsimp only at e1len e1out e1perm e1nle e1nframe hsub1 hJ1
        rw [hn1len] at hJ1
        set st1 := splitGo objects strategy fuel
          ⟨writeSlice st.ids start pr.1,
           (st.nodes.set nodeIdx ⟨b, NodeKind.branch st.nodes.length⟩) ++
           [build_leaf objects (writeSlice st.ids start pr.1) start pr.2,
            build_leaf objects (writeSlice st.ids start pr.1) (start + pr.2)
              (len - pr.2)]⟩
          st.nodes.length with hst1
        have hM : st.nodes.length + 2 ≤ st1.nodes.length := by omega
        have hslice2 : slice st1.ids (start + pr.2) (len - pr.2)
            = slice (writeSlice st.ids start pr.1) (start + pr.2) (len - pr.2) :=
          slice_congr fun k hk => e1out (start + pr.2 + k) (Or.inr (by omega))
        have hget2 : st1.nodes.get? (st.nodes.length + 1)
            = some ⟨compute_bound objects (writeSlice st.ids start pr.1)
                (start + pr.2) (len - pr.2),
              NodeKind.leaf (start + pr.2) (len - pr.2)⟩ :=
          (e1nframe (st.nodes.length + 1) (by omega) (by omega)).trans hn1R
        have hbr2 : some (compute_bound objects (writeSlice st.ids start pr.1)
              (start + pr.2) (len - pr.2))
            = boxesReduce (sliceBoxes objects st1.ids (start + pr.2) (len - pr.2)) := by
          rw [sliceBoxes_eq_map objects
              (show start + pr.2 + (len - pr.2) ≤ st1.ids.length by omega),
            hslice2,
            ← sliceBoxes_eq_map objects
              (show start + pr.2 + (len - pr.2) ≤ (writeSlice st.ids start pr.1).length
                by omega)]
          exact hbr
        obtain ⟨e2len, e2out, e2perm, e2nle, e2nframe, J₂, hsub2, hJ2⟩ :=
          ih st1 (st.nodes.length + 1) (start + pr.2) (len - pr.2)
            (compute_bound objects (writeSlice st.ids start pr.1) (start + pr.2)
              (len - pr.2))
            hget2 (by omega) (by omega) (by omega) hbr2
        set st2 := splitGo objects strategy fuel st1 (st.nodes.length + 1) with hst2
        have hK : st1.nodes.length ≤ st2.nodes.length := e2nle
        rw [heq]
        have hA : slice st2.ids start pr.2 = slice st1.ids start pr.2 :=
          slice_congr fun k hk => e2out (start + k) (Or.inl (by omega))
        refine ⟨by omega, ?_, ?_, by omega, ?_, ?_⟩
        · intro j hj
          exact (e2out j (by omega)).trans ((e1out j (by omega)).trans (hids1out j hj))
        · rw [slice_split_at pr.2 hpr2le]
          have hstep1 : slice st2.ids start pr.2 ++ slice st2.ids (start + pr.2) (len - pr.2)
              ~ slice (writeSlice st.ids start pr.1) start pr.2
                ++ slice (writeSlice st.ids start pr.1) (start + pr.2) (len - pr.2) := by
            refine List.Perm.append ?_ ?_
            · rw [hA]
              exact e1perm
            · exact e2perm.trans (by rw [hslice2])
          have hstep2 : slice (writeSlice st.ids start pr.1) start pr.2
                ++ slice (writeSlice st.ids start pr.1) (start + pr.2) (len - pr.2)
              ~ slice st.ids start len := by
            rw [← slice_split_at pr.2 hpr2le, hids1slice]
            exact hperm
          exact hstep1.trans hstep2
        · intro j hj1 hj2
          exact (e2nframe j (by omega) (by omega)).trans
            ((e1nframe j (by omega) (by omega)).trans (hn1frame j hj1 hj2))
        · refine ⟨nodeIdx :: (J₁ ++ J₂), ?_, ?_⟩
          · have hJ1ne : ∀ j ∈ J₁, j ≠ st.nodes.length + 1 := by
              intro j hj
              rcases List.mem_cons.mp (hJ1.mem_iff.mp hj) with he | hr
              · omega
              · rw [List.mem_range'_1] at hr
                omega
            have hsub1' : Subtree objects st2.nodes st2.ids st.nodes.length
                (compute_bound objects (writeSlice st.ids start pr.1) start pr.2)
                start pr.2 J₁ :=
              subtree_stable hsub1 st2.nodes st2.ids e2len
                (fun k hk1 hk2 => e2out k (Or.inl (by omega)))
                (fun j hj => e2nframe j (subtree_J_lt hsub1 j hj) (hJ1ne j hj))
            have hgetIdx : st2.nodes.get? nodeIdx
                = some ⟨b, NodeKind.branch st.nodes.length⟩ :=
              (e2nframe nodeIdx (by omega) (by omega)).trans
                ((e1nframe nodeIdx (by omega) (by omega)).trans hn1Idx)
            have hcomb : b = AxisBox.combine
                (compute_bound objects (writeSlice st.ids start pr.1) start pr.2)
                (compute_bound objects (writeSlice st.ids start pr.1) (start + pr.2)
                  (len - pr.2)) := by
              have h5' : some b = boxesReduce
                  (sliceBoxes objects (writeSlice st.ids start pr.1) start len) := by
                rw [hbox1]
                exact h5
              rw [show len = pr.2 + (len - pr.2) by omega, sliceBoxes_split,
                boxesReduce_append hbl.symm hbr.symm] at h5'
              exact Option.some.inj h5'
            have hst := Subtree.branch nodeIdx b st.nodes.length
              (compute_bound objects (writeSlice st.ids start pr.1) start pr.2)
              (compute_bound objects (writeSlice st.ids start pr.1) (start + pr.2)
                (len - pr.2))
              start pr.2 (len - pr.2) J₁ J₂ hgetIdx hnIdx hsub1' hsub2 hcomb
            have hlen_eq : pr.2 + (len - pr.2) = len := by omega
            rwa [hlen_eq] at hst
          · refine List.Perm.cons nodeIdx ?_
            refine List.Perm.trans (hJ1.append hJ2) ?_
            rw [List.cons_append]
            refine List.Perm.trans (List.Perm.cons _ List.perm_middle) ?_
            have h2r := List.range'_append (st.nodes.length + 2)
              (st1.nodes.length - (st.nodes.length + 2))
              (st2.nodes.length - st1.nodes.length) 1
            simp only [Nat.one_mul] at h2r
            rw [show st.nodes.length + 2 + (st1.nodes.length - (st.nodes.length + 2))
                = st1.nodes.length by omega] at h2r
            rw [h2r, range'_cons_cons]
            have hfin : st2.nodes.length - st1.nodes.length
                + (st1.nodes.length - (st.nodes.length + 2)) + 2
                = st2.nodes.length - st.nodes.length := by omega
            rw [hfin]

/-
`BVH::new`: partition invariants and the root subtree.
-/

theorem perm_of_slice_whole {l₁ l₂ : List α} (hlen : l₁.length = l₂.length)
    (h : slice l₁ 0 l₂.length ~ slice l₂ 0 l₂.length) : l₁ ~ l₂ := by
  have a1 : slice l₁ 0 l₂.length = l₁ := by
    rw [← hlen]
    exact slice_whole _
  have a2 : slice l₂ 0 l₂.length = l₂ := slice_whole _
  rwa [a1, a2] at h

theorem BVH_new_eq (objects : List Object) (strategy : BVHSplitStrategy)
    (pr : List ℕ × ℕ)
    (hpr : pr = partitionIt (fun id =>
      AxisBox.is_finite (AxisBox.for_shape (objects.getD id defaultObject).shape))
      (List.range objects.length)) :
    BVH.new objects strategy =
      if (pr.1.take pr.2).length = 0 then ⟨pr.1.drop pr.2, [], []⟩
      else ⟨pr.1.drop pr.2,
        (splitGo objects strategy (pr.1.take pr.2).length
          ⟨pr.1.take pr.2,
           [build_leaf objects (pr.1.take pr.2) 0 (pr.1.take pr.2).length]⟩ 0).ids,
        (splitGo objects strategy (pr.1.take pr.2).length
          ⟨pr.1.take pr.2,
           [build_leaf objects (pr.1.take pr.2) 0 (pr.1.take pr.2).length]⟩ 0).nodes⟩ := by
  subst hpr
  simp only [BVH.new]

theorem bvh_new_spec (objects : List Object) (strategy : BVHSplitStrategy) :
    (∀ id ∈ (BVH.new objects strategy).ids, finiteShapeBox objects id = true) ∧
    (∀ id ∈ (BVH.new objects strategy).global_ids, finiteShapeBox objects id = false) ∧
    ((BVH.new objects strategy).ids ++ (BVH.new objects strategy).global_ids
      ~ List.range objects.length) ∧
    ((BVH.new objects strategy).ids = [] ∧ (BVH.new objects strategy).nodes = [] ∨
      (BVH.new objects strategy).ids ≠ [] ∧
        ∃ b J, Subtree objects (BVH.new objects strategy).nodes
            (BVH.new objects strategy).ids 0 b 0 (BVH.new objects strategy).ids.length J ∧
          J ~ List.range (BVH.new objects strategy).nodes.length) := by
  generalize hpr : partitionIt (fun id =>
      AxisBox.is_finite (AxisBox.for_shape (objects.getD id defaultObject).shape))
      (List.range objects.length) = pr
  obtain ⟨hperm, hle, htake, hdrop⟩ := hpr ▸ partitionIt_spec
    (p := fun id =>
      AxisBox.is_finite (AxisBox.for_shape (objects.getD id defaultObject).shape))
    (List.range objects.length)
  have hnew := BVH_new_eq objects strategy pr hpr.symm
  have htd : pr.1.take pr.2 ++ pr.1.drop pr.2 = pr.1 := List.take_append_drop _ _
  by_cases hz : (pr.1.take pr.2).length = 0
  · rw [if_pos hz] at hnew
    rw [hnew]
    dsimp only
    have hnil : pr.1.take pr.2 = [] := List.eq_nil_of_length_eq_zero hz
    refine ⟨?_, ?_, ?_, Or.inl ⟨rfl, rfl⟩⟩
    · intro id hid
      exact absurd hid (List.not_mem_nil id)
    · intro id hid
      exact hdrop id hid
    · rw [hnil] at htd
      rw [List.nil_append] at htd
      rw [List.nil_append, htd]
      exact hperm
  · rw [if_neg hz] at hnew
    have hlen1 : 1 ≤ (pr.1.take pr.2).length := by omega
    have hroot : ([build_leaf objects (pr.1.take pr.2) 0 (pr.1.take pr.2).length]
        : List Node).get? 0
        = some ⟨compute_bound objects (pr.1.take pr.2) 0 (pr.1.take pr.2).length,
            NodeKind.leaf 0 (pr.1.take pr.2).length⟩ := rfl
    have hne : sliceBoxes objects (pr.1.take pr.2) 0 (pr.1.take pr.2).length ≠ [] := by
      intro hnil
      have hll := congrArg List.length hnil
      simp only [sliceBoxes, List.length_map, List.length_range, List.length_nil] at hll
      exact hz hll
    have hboxr : some (compute_bound objects (pr.1.take pr.2) 0 (pr.1.take pr.2).length)
        = boxesReduce (sliceBoxes objects (pr.1.take pr.2) 0 (pr.1.take pr.2).length) := by
      obtain ⟨x, hx⟩ := boxesReduce_isSome hne
      rw [compute_bound, hx]
      rfl
    obtain ⟨e0len, e0out, e0perm, e0nle, e0nframe, J, hsub, hJ⟩ :=
      splitGo_spec objects strategy (pr.1.take pr.2).length
        ⟨pr.1.take pr.2, [build_leaf objects (pr.1.take pr.2) 0 (pr.1.take pr.2).length]⟩
        0 0 (pr.1.take pr.2).length
        (compute_bound objects (pr.1.take pr.2) 0 (pr.1.take pr.2).length)
        hroot hlen1 (le_refl _)
        (show 0 + (pr.1.take pr.2).length ≤ (pr.1.take pr.2).length by omega)
        hboxr
    dsimp only at e0len e0out e0perm e0nle e0nframe hsub hJ
    simp only [List.length_cons, List.length_nil, Nat.zero_add] at e0nle hJ
    have hids_perm : (splitGo objects strategy (pr.1.take pr.2).length
        ⟨pr.1.take pr.2,
         [build_leaf objects (pr.1.take pr.2) 0 (pr.1.take pr.2).length]⟩ 0).ids
        ~ pr.1.take pr.2 := perm_of_slice_whole e0len e0perm
    rw [hnew]
    dsimp only
    refine ⟨?_, ?_, ?_, Or.inr ⟨?_, ?_⟩⟩
    · intro id hid
      exact htake id (hids_perm.mem_iff.mp hid)
    · intro id hid
      exact hdrop id hid
    · refine List.Perm.trans (hids_perm.append (List.Perm.refl _)) ?_
      rw [htd]
      exact hperm
    · intro hcon
      apply hz
      have hlc := congrArg List.length hcon
      simp only [List.length_nil] at hlc
      rw [e0len] at hlc
      exact hlc
    · refine ⟨compute_bound objects (pr.1.take pr.2) 0 (pr.1.take pr.2).length, J, ?_, ?_⟩
      · rw [e0len]
        exact hsub
      · refine hJ.trans ?_
        rw [List.range_eq_range']
        have h01 : (0 : ℕ) :: List.range' 1
            ((splitGo objects strategy (pr.1.take pr.2).length
              ⟨pr.1.take pr.2,
               [build_leaf objects (pr.1.take pr.2) 0 (pr.1.take pr.2).length]⟩ 0).nodes.length
              - 1)
            = List.range' 0
              ((splitGo objects strategy (pr.1.take pr.2).length
                ⟨pr.1.take pr.2,
                 [build_leaf objects (pr.1.take pr.2) 0 (pr.1.take pr.2).length]⟩
                0).nodes.length - 1 + 1) := rfl
        rw [h01, show (splitGo objects strategy (pr.1.take pr.2).length
              ⟨pr.1.take pr.2,
               [build_leaf objects (pr.1.take pr.2) 0 (pr.1.take pr.2).length]⟩
              0).nodes.length - 1 + 1
            = (splitGo objects strategy (pr.1.take pr.2).length
              ⟨pr.1.take pr.2,
               [build_leaf objects (pr.1.take pr.2) 0 (pr.1.take pr.2).length]⟩
              0).nodes.length from by omega]

/-
C2, C3, C10: builder invariants, the partition predicate, and the
no-finite-object fallback.
-/

theorem flatMap_congr_mem {l : List α} {f g : α → List β}
    (h : ∀ a ∈ l, f a = g a) : l.flatMap f = l.flatMap g := by
  induction l with
  | nil => rfl
  | cons x xs ih =>
    rw [List.flatMap_cons, List.flatMap_cons, h x (List.mem_cons_self x xs),
      ih fun a ha => h a (List.mem_cons_of_mem x ha)]

theorem leafSliceAt_eq {nodes : List Node} {ids : List ℕ} {j : ℕ} {nd : Node}
    (h : nodes.get? j = some nd) :
    leafSliceAt nodes ids j = match nd.kind with
      | NodeKind.leaf s l => slice ids s l
      | NodeKind.branch _ => [] := by
  obtain ⟨bd, kd⟩ := nd
  cases kd with
  | leaf s l => simp only [leafSliceAt, h]
  | branch li => simp only [leafSliceAt, h]

theorem leafIdsList_eq_range (bvh : BVH) :
    leafIdsList bvh = (List.range bvh.nodes.length).flatMap
      (leafSliceAt bvh.nodes bvh.ids) := by
  unfold leafIdsList
  rw [flatMap_eq_range _ _ (⟨emptyBox, NodeKind.leaf 0 0⟩ : Node)]
  apply flatMap_congr_mem
  intro j hj
  rw [List.mem_range] at hj
  have hnd : bvh.nodes.get? j
      = some (bvh.nodes.getD j ⟨emptyBox, NodeKind.leaf 0 0⟩) := by
    rw [List.get?_eq_getElem?, List.getElem?_eq_getElem hj, List.getD_eq_getElem?_getD,
      List.getElem?_eq_getElem hj]
    rfl
  rw [leafSliceAt_eq hnd]

/-- C2: after `BVH::new`, the concatenation of all leaf id-slices and
`global_ids` is a permutation of `0 .. objects.len()` — every object id
appears exactly once, covering the whole object set — and every stored node
bound is exactly the `AxisBox::combine`-reduction of the world AABBs of the
node's descendant objects. -/
theorem bvh_build_invariants (objects : List Object) (strategy : BVHSplitStrategy)
    (hlen : objects.length < 2 ^ 32 - 1) :
    (leafIdsList (BVH.new objects strategy) ++ (BVH.new objects strategy).global_ids
      ~ List.range objects.length) ∧
    (∀ i nd, (BVH.new objects strategy).nodes.get? i = some nd →
      some nd.bound = boxesReduce ((subtreeIdsF (BVH.new objects strategy)
          (BVH.new objects strategy).nodes.length i).map (boxOf objects))) := by
  obtain ⟨hids_t, hglob_f, hperm, hcases⟩ := bvh_new_spec objects strategy
  rcases hcases with ⟨hids_nil, hnodes_nil⟩ | ⟨hne, b, J, hsub, hJ⟩
  · constructor
    · have hleaf : leafIdsList (BVH.new objects strategy) = [] := by
        unfold leafIdsList
        rw [hnodes_nil]
        rfl
      rw [hleaf, List.nil_append]
      rw [hids_nil, List.nil_append] at hperm
      exact hperm
    · intro i nd hnd
      rw [hnodes_nil, List.get?_eq_getElem?] at hnd
      simp at hnd
  · constructor
    · rw [leafIdsList_eq_range]
      have hperm2 : (List.range (BVH.new objects strategy).nodes.length).flatMap
          (leafSliceAt (BVH.new objects strategy).nodes (BVH.new objects strategy).ids)
          ~ (BVH.new objects strategy).ids := by
        have h1 := List.Perm.flatMap_right
          (leafSliceAt (BVH.new objects strategy).nodes (BVH.new objects strategy).ids)
          hJ.symm
        rw [subtree_join hsub, slice_whole] at h1
        exact h1
      exact List.Perm.trans (hperm2.append (List.Perm.refl _)) hperm
    · intro i nd hnd
      have hiM : i < (BVH.new objects strategy).nodes.length := by
        by_contra hcon
        push_neg at hcon
        rw [List.get?_eq_getElem?, List.getElem?_eq_none hcon] at hnd
        cases hnd
      have hiJ : i ∈ J := hJ.mem_iff.mpr (by rw [List.mem_range]; exact hiM)
      obtain ⟨b', s', l', J', hsub', hJlen⟩ := subtree_sub hsub i hiJ
      have hJ'len : J'.length ≤ (BVH.new objects strategy).nodes.length := by
        have hJlen2 := hJ.length_eq
        simp only [List.length_range] at hJlen2
        omega
      have hids'' : subtreeIdsF (BVH.new objects strategy)
          (BVH.new objects strategy).nodes.length i = slice (BVH.new objects strategy).ids s' l' :=
        subtree_idsF hsub' (BVH.new objects strategy).global_ids
          (BVH.new objects strategy).nodes.length hJ'len
      obtain ⟨kk, hk⟩ := subtree_head hsub'
      rw [hnd] at hk
      have hbnd : nd.bound = b' := by
        rw [Option.some.inj hk]
      rw [hbnd, hids'', ← sliceBoxes_eq_map objects (subtree_range hsub')]
      exact subtree_bound hsub'

/-- C2 witness: the invariants at a concrete one-sphere scene. -/
theorem bvh_build_invariants_witness :
    (([sphereObj].length < 2 ^ 32 - 1) ∧
    (leafIdsList (BVH.new [sphereObj] BVHSplitStrategy.SplitLargestAxis)
        ++ (BVH.new [sphereObj] BVHSplitStrategy.SplitLargestAxis).global_ids
      ~ List.range [sphereObj].length) ∧
    (∀ i nd, (BVH.new [sphereObj] BVHSplitStrategy.SplitLargestAxis).nodes.get? i
        = some nd →
      some nd.bound = boxesReduce
        ((subtreeIdsF (BVH.new [sphereObj] BVHSplitStrategy.SplitLargestAxis)
          (BVH.new [sphereObj] BVHSplitStrategy.SplitLargestAxis).nodes.length i).map
          (boxOf [sphereObj])))) :=
  ⟨by norm_num,
    (bvh_build_invariants [sphereObj] BVHSplitStrategy.SplitLargestAxis (by norm_num)).1,
    (bvh_build_invariants [sphereObj] BVHSplitStrategy.SplitLargestAxis (by norm_num)).2⟩

/-- C3 (amended): `BVH::new` partitions the objects by finiteness of the
OBJECT-SPACE canonical shape box (`AxisBox::for_shape`), not the world-space
AABB: `global_ids` is a permutation of exactly the ids whose shape box is
non-finite, and the tree id array a permutation of exactly those whose shape
box is finite. -/
theorem bvh_shapebox_partition_spec (objects : List Object)
    (strategy : BVHSplitStrategy) :
    ((BVH.new objects strategy).global_ids
      ~ (List.range objects.length).filter (fun id => !(finiteShapeBox objects id))) ∧
    ((BVH.new objects strategy).ids
      ~ (List.range objects.length).filter (finiteShapeBox objects)) := by
  obtain ⟨hids_t, hglob_f, hperm, _⟩ := bvh_new_spec objects strategy
  constructor
  · have h1 : ((BVH.new objects strategy).ids
        ++ (BVH.new objects strategy).global_ids).filter
        (fun id => !(finiteShapeBox objects id))
        = (BVH.new objects strategy).global_ids := by
      rw [List.filter_append]
      rw [List.filter_eq_nil_iff.mpr (fun a ha => by rw [hids_t a ha]; simp),
        List.filter_eq_self.mpr (fun a ha => by rw [hglob_f a ha]; rfl),
        List.nil_append]
    exact h1 ▸ hperm.filter (fun id => !(finiteShapeBox objects id))
  · have h1 : ((BVH.new objects strategy).ids
        ++ (BVH.new objects strategy).global_ids).filter (finiteShapeBox objects)
        = (BVH.new objects strategy).ids := by
      rw [List.filter_append]
      rw [List.filter_eq_self.mpr hids_t,
        List.filter_eq_nil_iff.mpr (fun a ha => by rw [hglob_f a ha]; simp),
        List.append_nil]
    exact h1 ▸ hperm.filter (finiteShapeBox objects)

/-- C3 counterexample: the sphere `objInf` carries a degenerate transform
(an infinite scale entry), so its WORLD-space AABB is non-finite; yet
`BVH::new` puts it into the binary tree (`ids = [0]`) and leaves
`global_ids` empty, because the builder partitions by the object-space shape
box — which for a sphere is always the finite `[-1,1]^3` — and never looks
at the world AABB. -/
theorem bvh_worldbox_routing_cex :
    AxisBox.is_finite (AxisBox.for_object objInf) = false ∧
    (BVH.new [objInf] BVHSplitStrategy.SplitLargestAxis).global_ids = [] ∧
    (BVH.new [objInf] BVHSplitStrategy.SplitLargestAxis).ids = [0] := by
  have hpr : (([0], 1) : List ℕ × ℕ) = partitionIt (fun id =>
      AxisBox.is_finite (AxisBox.for_shape ([objInf].getD id defaultObject).shape))
      (List.range [objInf].length) := by
    norm_num [partitionIt, partitionItAux, splitLastP, objInf, AxisBox.for_shape,
      AxisBox.is_finite, F.isFinite, defaultObject, List.range_succ]
  have hnew := BVH_new_eq [objInf] BVHSplitStrategy.SplitLargestAxis ([0], 1) hpr
  rw [if_neg (by norm_num)] at hnew
  norm_num at hnew
  have h1r : (([build_leaf [objInf] [0] 0 1] : List Node)).get? 0
      = some ⟨compute_bound [objInf] [0] 0 1, NodeKind.leaf 0 1⟩ := rfl
  have hfb : find_best_split BVHSplitStrategy.SplitLargestAxis [objInf] [0] 0 1
      (compute_bound [objInf] [0] 0 1) = some (Axis3.X, F.nan) := by
    norm_num [find_best_split, find_best_split_largest_axis, compute_bound,
      sliceBoxes, boxesReduce, combineO, getObject, objInf, mInf, defaultObject,
      AxisBox.for_object, AxisBox.for_shape, AxisBox.transformBox, AxisBox.corners,
      Transform.mulPoint, Matrix4.dotRow, emptyBox, Point3.pmin, Point3.pmax,
      Point3.subp, Point3.get, Vec3.get, Vec3.sub, Vec3.add, Vec3.neg, Vec3.smul,
      Point3.from_coords, Point3.coords]
  have hpr2 : (([0], 0) : List ℕ × ℕ) = partitionIt (fun id =>
      F.blt ((object_centroid ([objInf].getD id defaultObject)).get Axis3.X) F.nan)
      (slice ([0] : List ℕ) 0 1) := by
    norm_num [partitionIt, partitionItAux, splitLastP, slice, object_centroid,
      Point3.middle, getObject, objInf, mInf, defaultObject, AxisBox.for_object,
      AxisBox.for_shape, AxisBox.transformBox, AxisBox.corners, Transform.mulPoint,
      Matrix4.dotRow, Point3.pmin, Point3.pmax, Point3.get, Vec3.get,
      Point3.from_coords, Point3.coords]
  have hstop := @splitGo_succ_stop [objInf] BVHSplitStrategy.SplitLargestAxis
    ⟨[0], [build_leaf [objInf] [0] 0 1]⟩ 0 0 1 _ _ _ 0 h1r hfb ([0], 0) hpr2 (Or.inl rfl)
  norm_num [writeSlice, slice] at hstop
  rw [hstop] at hnew
  rw [hnew]
  exact ⟨by norm_num [objInf, mInf, AxisBox.for_object, AxisBox.for_shape,
      AxisBox.transformBox, AxisBox.corners, Transform.mulPoint, Matrix4.dotRow,
      AxisBox.is_finite, Point3.pmin, Point3.pmax, Point3.from_coords, Point3.coords,
      F.isFinite], rfl, rfl⟩

/-- C10: if no object has a finite canonical shape box — including the empty
object list — `BVH::new` returns an empty node array, `first_hit` never
indexes into the node array and equals the brute-force nearest filtered hit
over the global list, and the empty scene yields `none`. -/
theorem bvh_no_finite_safe (objects : List Object) (strategy : BVHSplitStrategy)
    (ray : Ray) (filter : Object → Bool)
    (hnf : ∀ o ∈ objects, AxisBox.is_finite (AxisBox.for_shape o.shape) = false) :
    (BVH.new objects strategy).nodes = [] ∧
    BVH.first_hit (BVH.new objects strategy) objects ray filter
      = linear_first_hit objects ray filter ∧
    (objects = [] →
      BVH.first_hit (BVH.new objects strategy) objects ray filter = none) := by
  have hpred : ∀ id ∈ List.range objects.length,
      (fun id => AxisBox.is_finite
        (AxisBox.for_shape (objects.getD id defaultObject).shape)) id = false := by
    intro id hid
    rw [List.mem_range] at hid
    exact hnf _ (getD_mem_of_lt hid defaultObject)
  have hpart := partitionIt_all_neg hpred
  have hnew := BVH_new_eq objects strategy (List.range objects.length, 0)
    hpart.symm
  rw [if_pos (by simp)] at hnew
  simp only [List.drop_zero] at hnew
  have h2 : BVH.first_hit (BVH.new objects strategy) objects ray filter
      = linear_first_hit objects ray filter := by
    rw [hnew]
    simp only [BVH.first_hit, List.isEmpty_nil, if_true]
    rw [map_getD_range objects defaultObject]
    unfold linear_first_hit first_hit_scan
    rcases hfs : minFold (scanHits objects ray filter) with _ | q
    · rfl
    · have hq := minFold_mem hfs
      obtain ⟨qi, qh⟩ := q
      have hqi : qi < objects.length := (scanHits_mem.mp hq).1
      simp only [Option.map_some']
      have hgd : (List.range objects.length).getD qi 0 = qi := by
        rw [List.getD_eq_getElem?_getD, List.getElem?_range hqi]
        rfl
      rw [hgd]
  refine ⟨by rw [hnew], h2, fun hobj => ?_⟩
  subst hobj
  rw [h2]
  rfl

/-- C10 witness: the single-plane scene satisfies the hypothesis and the
conclusion. -/
theorem bvh_no_finite_safe_witness :
    (∀ o ∈ [planeObj], AxisBox.is_finite (AxisBox.for_shape o.shape) = false) ∧
    ((BVH.new [planeObj] BVHSplitStrategy.SplitLargestAxis).nodes = [] ∧
     BVH.first_hit (BVH.new [planeObj] BVHSplitStrategy.SplitLargestAxis) [planeObj]
        rayZ (fun _ => true)
      = linear_first_hit [planeObj] rayZ (fun _ => true) ∧
     ([planeObj] = [] →
      BVH.first_hit (BVH.new [planeObj] BVHSplitStrategy.SplitLargestAxis) [planeObj]
        rayZ (fun _ => true) = none)) :=
  ⟨by decide,
   bvh_no_finite_safe [planeObj] BVHSplitStrategy.SplitLargestAxis rayZ
     (fun _ => true) (by decide)⟩

/-
C1: soundness and completeness of the BVH traversal.
-/

theorem closest_option_none_left (x : Option ObjectHit) :
    ObjectHit.closest_option none x = x := by
  rcases x with _ | r <;> rfl

theorem firstHitImpl_succ_noNode {bvh : BVH} {objects : List Object} {ray : Ray}
    {filter : Object → Bool} {i : ℕ} (fuel : ℕ) (t_max : F)
    (h1 : bvh.nodes.get? i = none) :
    firstHitImpl bvh objects ray filter (fuel + 1) i t_max = none := by
  simp only [firstHitImpl, h1]

theorem firstHitImpl_succ_miss {bvh : BVH} {objects : List Object} {ray : Ray}
    {filter : Object → Bool} {i : ℕ} {nd : Node} (fuel : ℕ) (t_max : F)
    (h1 : bvh.nodes.get? i = some nd)
    (hbox : AxisBox.intersects nd.bound ray = none) :
    firstHitImpl bvh objects ray filter (fuel + 1) i t_max = none := by
  simp only [firstHitImpl, h1, hbox, Option.isNone_none, if_true]

theorem firstHitImpl_succ_leaf {bvh : BVH} {objects : List Object} {ray : Ray}
    {filter : Object → Bool} {i s l : ℕ} {b : AxisBox} {e : F} (fuel : ℕ) (t_max : F)
    (h1 : bvh.nodes.get? i = some ⟨b, NodeKind.leaf s l⟩)
    (hbox : AxisBox.intersects b ray = some e) :
    firstHitImpl bvh objects ray filter (fuel + 1) i t_max =
      (first_hit_scan (leafObjects objects bvh.ids s l) ray filter).map fun p =>
        ⟨bvh.ids.getD (s + p.1) 0, p.2⟩ := by
  simp only [firstHitImpl, h1, hbox, Option.isNone_some, Bool.false_eq_true, if_false]

theorem branch_step_cases (ft0 st0 t_max : F) (lft : ℕ)
    (G : ℕ → F → Option ObjectHit) (oh : ObjectHit)
    (hres : (let fi := if (!(F.blt ft0 st0)) = true then lft + 1 else lft
             let si := if (!(F.blt ft0 st0)) = true then lft else lft + 1
             let ft := if (!(F.blt ft0 st0)) = true then st0 else ft0
             let st := if (!(F.blt ft0 st0)) = true then ft0 else st0
             let step1 := if F.blt ft t_max = true then
                 (ObjectHit.closest_option none (G fi t_max),
                  F.fmin t_max (((G fi t_max).map fun oh => oh.hit.t).getD F.inf))
               else (none, t_max)
             if F.blt st step1.2 = true then
               ObjectHit.closest_option step1.1 (G si step1.2)
             else step1.1) = some oh) :
    (∃ t', G lft t' = some oh) ∨ (∃ t', G (lft + 1) t' = some oh) := by
  simp only at hres
  by_cases hsw : (!(F.blt ft0 st0)) = true <;>
    (try simp [hsw, closest_option_none_left] at hres)
  · by_cases hft : F.blt st0 t_max = true <;>
      (try simp [hft, closest_option_none_left] at hres)
    · by_cases hst : F.blt ft0 (F.fmin t_max
          (((G (lft + 1) t_max).map fun oh => oh.hit.t).getD F.inf)) = true <;>
        (try simp [hst] at hres)
      · rcases closest_option_cases hres with h' | h'
        · exact Or.inr ⟨t_max, h'⟩
        · exact Or.inl ⟨_, h'⟩
      · exact Or.inr ⟨t_max, hres⟩
    · by_cases hst : F.blt ft0 t_max = true <;>
        simp [hst, closest_option_none_left] at hres <;>
        exact Or.inl ⟨t_max, hres⟩
  · by_cases hft : F.blt ft0 t_max = true <;>
      (try simp [hft, closest_option_none_left] at hres)
    · by_cases hst : F.blt st0 (F.fmin t_max
          (((G lft t_max).map fun oh => oh.hit.t).getD F.inf)) = true <;>
        (try simp [hst] at hres)
      · rcases closest_option_cases hres with h' | h'
        · exact Or.inl ⟨t_max, h'⟩
        · exact Or.inr ⟨_, h'⟩
      · exact Or.inl ⟨t_max, hres⟩
    · by_cases hst : F.blt st0 t_max = true <;>
        simp [hst, closest_option_none_left] at hres <;>
        exact Or.inr ⟨t_max, hres⟩

theorem firstHitImpl_branch_cases {bvh : BVH} {objects : List Object} {ray : Ray}
    {filter : Object → Bool} {i lft : ℕ} {b : AxisBox} {e : F}
    (h1 : bvh.nodes.get? i = some ⟨b, NodeKind.branch lft⟩)
    (hbox : AxisBox.intersects b ray = some e) (fuel : ℕ) (t_max : F) (oh : ObjectHit)
    (hres : firstHitImpl bvh objects ray filter (fuel + 1) i t_max = some oh) :
    (∃ t', firstHitImpl bvh objects ray filter fuel lft t' = some oh) ∨
    (∃ t', firstHitImpl bvh objects ray filter fuel (lft + 1) t' = some oh) := by
  simp only [firstHitImpl, h1, hbox, Option.isNone_some, Bool.false_eq_true,
    if_false] at hres
  exact branch_step_cases _ _ t_max lft
    (fun n t => firstHitImpl bvh objects ray filter fuel n t) oh hres

theorem firstHitImpl_sound {bvh : BVH} {objects : List Object} {ray : Ray}
    {filter : Object → Bool}
    (hids : ∀ id ∈ bvh.ids, id < objects.length)
    {i : ℕ} {b : AxisBox} {s l : ℕ} {J : List ℕ}
    (hsub : Subtree objects bvh.nodes bvh.ids i b s l J) :
    ∀ (fuel : ℕ) (t_max : F) (oh : ObjectHit),
    firstHitImpl bvh objects ray filter fuel i t_max = some oh →
    ∃ qi qh, (qi, qh) ∈ scanHits objects ray filter ∧ oh = ⟨qi, qh⟩ ∧
      qi ∈ slice bvh.ids s l := by
  induction hsub with
  | leaf i b s l h1 h2 h3 h4 =>
    intro fuel t_max oh hres
    cases fuel with
    | zero => cases hres
    | succ fuel =>
      rcases hbox : AxisBox.intersects b ray with _ | e
      · rw [firstHitImpl_succ_miss fuel t_max h1 hbox] at hres
        cases hres
      · rw [firstHitImpl_succ_leaf fuel t_max h1 hbox] at hres
        rcases Option.map_eq_some'.mp hres with ⟨p, hp, hoh⟩
        simp only [first_hit_scan] at hp
        obtain ⟨pk, ph⟩ := p
        have hpmem := minFold_mem hp
        rw [leafObjects_eq_map objects h3] at hpmem
        have hidsl : ∀ id ∈ slice bvh.ids s l, id < objects.length :=
          fun id hid => hids id (mem_slice hid)
        rw [scanHits_map hidsl pk ph] at hpmem
        obtain ⟨hpk, hmem⟩ := hpmem
        have hpk' : pk < l := by
          rw [slice_length h3] at hpk
          exact hpk
        refine ⟨(slice bvh.ids s l).getD pk 0, ph, hmem, ?_, ?_⟩
        · rw [← hoh, slice_getD hpk']
        · exact getD_mem_of_lt hpk 0
  | branch i b lft b₁ b₂ s l₁ l₂ J₁ J₂ h1 hlt hs1 hs2 h5 ih₁ ih₂ =>
    intro fuel t_max oh hres
    cases fuel with
    | zero => cases hres
    | succ fuel =>
      rcases hbox : AxisBox.intersects b ray with _ | e
      · rw [firstHitImpl_succ_miss fuel t_max h1 hbox] at hres
        cases hres
      · rcases firstHitImpl_branch_cases h1 hbox fuel t_max oh hres with ⟨t', hfi⟩ | ⟨t', hsi⟩
        · obtain ⟨qi, qh, hq, hoh, hmemq⟩ := ih₁ fuel t' oh hfi
          refine ⟨qi, qh, hq, hoh, ?_⟩
          rw [slice_split_at l₁ (by omega)]
          exact List.mem_append_left _ hmemq
        · obtain ⟨qi, qh, hq, hoh, hmemq⟩ := ih₂ fuel t' oh hsi
          refine ⟨qi, qh, hq, hoh, ?_⟩
          rw [slice_split_at l₁ (by omega)]
          apply List.mem_append_right
          rw [show l₁ + l₂ - l₁ = l₂ by omega]
          exact hmemq

theorem subtree_J_len_pos {objects : List Object} {nodes : List Node} {ids : List ℕ}
    {i : ℕ} {b : AxisBox} {s l : ℕ} {J : List ℕ}
    (h : Subtree objects nodes ids i b s l J) : 1 ≤ J.length := by
  cases h with
  | leaf i b s l h1 h2 h3 h4 => simp
  | branch i b lft b₁ b₂ s l₁ l₂ J₁ J₂ h1 h2 h3 h4 h5 => simp

theorem if_closest_left {c : Prop} [Decidable c] {X : Option ObjectHit}
    {oh₁ : ObjectHit} (h₁ : oh₁.hit.t.isNan = false)
    (hX : ∀ r, X = some r → r.hit.t.isNan = false) :
    ∃ oh, (if c then ObjectHit.closest_option (some oh₁) X else some oh₁) = some oh ∧
      F.ble oh.hit.t oh₁.hit.t = true := by
  by_cases hc : c
  · rw [if_pos hc]
    exact closest_option_left_some oh₁ h₁ hX
  · rw [if_neg hc]
    exact ⟨oh₁, rfl, F.ble_refl h₁⟩

theorem firstHitImpl_succ_branch {bvh : BVH} {objects : List Object} {ray : Ray}
    {filter : Object → Bool} {i lft : ℕ} {b : AxisBox} {e : F} {nd₁ nd₂ : Node}
    (fuel : ℕ) (t_max : F)
    (h1 : bvh.nodes.get? i = some ⟨b, NodeKind.branch lft⟩)
    (hbox : AxisBox.intersects b ray = some e)
    (hg1 : bvh.nodes.get? lft = some nd₁)
    (hg2 : bvh.nodes.get? (lft + 1) = some nd₂) :
    firstHitImpl bvh objects ray filter (fuel + 1) i t_max =
      (let ft0 := (AxisBox.intersects nd₁.bound ray).getD F.inf
       let st0 := (AxisBox.intersects nd₂.bound ray).getD F.inf
       let fi := if (!(F.blt ft0 st0)) = true then lft + 1 else lft
       let si := if (!(F.blt ft0 st0)) = true then lft else lft + 1
       let ft := if (!(F.blt ft0 st0)) = true then st0 else ft0
       let st := if (!(F.blt ft0 st0)) = true then ft0 else st0
       let step1 := if F.blt ft t_max = true then
           (ObjectHit.closest_option none
              (firstHitImpl bvh objects ray filter fuel fi t_max),
            F.fmin t_max (((firstHitImpl bvh objects ray filter fuel fi t_max).map
              fun oh => oh.hit.t).getD F.inf))
         else (none, t_max)
       if F.blt st step1.2 = true then
         ObjectHit.closest_option step1.1
           (firstHitImpl bvh objects ray filter fuel si step1.2)
       else step1.1) := by
  simp only [firstHitImpl, h1, hbox, Option.isNone_some, Bool.false_eq_true,
    if_false, hg1, hg2]

theorem branch_complete_first (a b t_max : F) (A B : F → Option ObjectHit)
    (qt : F) (htm : t_max.isNan = false)
    (ha : F.ble a qt = true) (hblt : F.blt qt t_max = true)
    (hA : ∃ oh, A t_max = some oh ∧ F.ble oh.hit.t qt = true)
    (hBnan : ∀ t oh, B t = some oh → oh.hit.t.isNan = false) :
    ∃ oh, (let step1 := if F.blt a t_max = true then
         (ObjectHit.closest_option none (A t_max),
          F.fmin t_max (((A t_max).map fun oh => oh.hit.t).getD F.inf))
       else (none, t_max)
      if F.blt b step1.2 = true then
        ObjectHit.closest_option step1.1 (B step1.2)
      else step1.1) = some oh ∧ F.ble oh.hit.t qt = true := by
  simp only
  obtain ⟨oh₁, hoh₁, hle₁⟩ := hA
  have h₁nan : oh₁.hit.t.isNan = false := F.not_nan_left_of_ble hle₁
  have hcond : F.blt a t_max = true := F.ble_blt_trans ha hblt
  rw [if_pos hcond, hoh₁]
  simp only [closest_option_none_left, Option.map_some', Option.getD_some]
  obtain ⟨oh, hoh, hle⟩ :=
    @if_closest_left (F.blt b (F.fmin t_max oh₁.hit.t) = true) _
      (B (F.fmin t_max oh₁.hit.t)) oh₁ h₁nan (fun r hr => hBnan _ r hr)
  exact ⟨oh, hoh, F.ble_trans hle hle₁⟩

theorem branch_complete_second (a b t_max : F) (A B : F → Option ObjectHit)
    (qt : F) (hqt : qt.isNan = false) (htm : t_max.isNan = false)
    (hb : F.ble b qt = true) (hblt : F.blt qt t_max = true)
    (hB : ∀ t, t.isNan = false → F.blt qt t = true →
      ∃ oh, B t = some oh ∧ F.ble oh.hit.t qt = true)
    (hAnan : ∀ t oh, A t = some oh → oh.hit.t.isNan = false)
    (hBnan : ∀ t oh, B t = some oh → oh.hit.t.isNan = false) :
    ∃ oh, (let step1 := if F.blt a t_max = true then
         (ObjectHit.closest_option none (A t_max),
          F.fmin t_max (((A t_max).map fun oh => oh.hit.t).getD F.inf))
       else (none, t_max)
      if F.blt b step1.2 = true then
        ObjectHit.closest_option step1.1 (B step1.2)
      else step1.1) = some oh ∧ F.ble oh.hit.t qt = true := by
  simp only
  by_cases hft : F.blt a t_max = true
  · rw [if_pos hft]
    rcases hA1 : A t_max with _ | oh₁
    · simp only [closest_option_none_left, Option.map_none', Option.getD_none]
      rw [F.fmin_inf_right htm]
      have hcond2 : F.blt b t_max = true := F.ble_blt_trans hb hblt
      rw [if_pos hcond2]
      obtain ⟨oh, hoh, hle⟩ := hB t_max htm hblt
      rw [hoh]
      exact ⟨oh, rfl, hle⟩
    · have h₁nan : oh₁.hit.t.isNan = false := hAnan _ _ hA1
      have htm1 : (F.fmin t_max oh₁.hit.t).isNan = false := F.fmin_not_nan htm h₁nan
      simp only [closest_option_none_left, Option.map_some', Option.getD_some]
      by_cases hq1 : F.blt qt (F.fmin t_max oh₁.hit.t) = true
      · have hcond2 : F.blt b (F.fmin t_max oh₁.hit.t) = true := F.ble_blt_trans hb hq1
        rw [if_pos hcond2]
        obtain ⟨oh₂, hoh₂, hle₂⟩ := hB _ htm1 hq1
        rw [hoh₂]
        exact ⟨ObjectHit.closest oh₁ oh₂, rfl,
          F.ble_trans (closest_le_right (F.not_nan_left_of_ble hle₂)) hle₂⟩
      · have hle₁ : F.ble oh₁.hit.t qt = true := by
          rcases F.fmin_eq_or t_max oh₁.hit.t with h' | h'
          · rw [h'] at hq1
            exact absurd hblt hq1
          · rw [h'] at hq1
            exact F.ble_of_not_blt hqt h₁nan (by simpa using hq1)
        obtain ⟨oh, hoh, hle⟩ :=
          @if_closest_left (F.blt b (F.fmin t_max oh₁.hit.t) = true) _
            (B (F.fmin t_max oh₁.hit.t)) oh₁ h₁nan (fun r hr => hBnan _ r hr)
        exact ⟨oh, hoh, F.ble_trans hle hle₁⟩
  · rw [if_neg hft]
    simp only
    have hcond2 : F.blt b t_max = true := F.ble_blt_trans hb hblt
    rw [if_pos hcond2]
    obtain ⟨oh, hoh, hle⟩ := hB t_max htm hblt
    rw [closest_option_none_left, hoh]
    exact ⟨oh, rfl, hle⟩

theorem firstHitImpl_nonNan {bvh : BVH} {objects : List Object} {ray : Ray}
    {filter : Object → Bool}
    (hids : ∀ id ∈ bvh.ids, id < objects.length)
    (hnan : ∀ q ∈ scanHits objects ray filter, q.2.t.isNan = false)
    {i : ℕ} {b : AxisBox} {s l : ℕ} {J : List ℕ}
    (hsub : Subtree objects bvh.nodes bvh.ids i b s l J)
    (fuel : ℕ) (t : F) (oh : ObjectHit)
    (h : firstHitImpl bvh objects ray filter fuel i t = some oh) :
    oh.hit.t.isNan = false := by
  obtain ⟨qi, qh, hq, hoh, _⟩ := firstHitImpl_sound hids hsub fuel t oh h
  rw [hoh]
  exact hnan (qi, qh) hq

theorem firstHitImpl_complete {bvh : BVH} {objects : List Object} {ray : Ray}
    {filter : Object → Bool}
    (hids : ∀ id ∈ bvh.ids, id < objects.length)
    (hnan : ∀ q ∈ scanHits objects ray filter, q.2.t.isNan = false)
    (hboxH : ∀ j nd, bvh.nodes.get? j = some nd →
      ∀ qi qh, (qi, qh) ∈ scanHits objects ray filter →
        qi ∈ subtreeIdsF bvh bvh.nodes.length j →
        ∃ e, AxisBox.intersects nd.bound ray = some e ∧ F.ble e qh.t = true)
    {i : ℕ} {b : AxisBox} {s l : ℕ} {J : List ℕ}
    (hsub : Subtree objects bvh.nodes bvh.ids i b s l J) :
    J.length ≤ bvh.nodes.length →
    ∀ (fuel : ℕ), J.length ≤ fuel →
    ∀ (t_max : F), t_max.isNan = false →
    ∀ qi qh, (qi, qh) ∈ scanHits objects ray filter →
      qi ∈ slice bvh.ids s l →
      F.blt qh.t t_max = true →
      ∃ oh, firstHitImpl bvh objects ray filter fuel i t_max = some oh ∧
        F.ble oh.hit.t qh.t = true := by
  induction hsub with
  | leaf i b s l h1 h2 h3 h4 =>
    intro hJn fuel hfuel t_max htm qi qh hq hqm hblt
    cases fuel with
    | zero => simp at hfuel
    | succ fuel =>
      have hsubL : Subtree objects bvh.nodes bvh.ids i b s l [i] :=
        Subtree.leaf i b s l h1 h2 h3 h4
      have hidsF : subtreeIdsF bvh bvh.nodes.length i = slice bvh.ids s l :=
        subtree_idsF hsubL bvh.global_ids bvh.nodes.length hJn
      obtain ⟨e, he, hle⟩ := hboxH i ⟨b, NodeKind.leaf s l⟩ h1 qi qh hq
        (by rw [hidsF]; exact hqm)
      rw [firstHitImpl_succ_leaf fuel t_max h1 he]
      obtain ⟨k, hk, hkq⟩ := List.getElem_of_mem hqm
      have hidsl : ∀ id ∈ slice bvh.ids s l, id < objects.length :=
        fun id hid => hids id (mem_slice hid)
      have hkmem : (k, qh) ∈ scanHits (leafObjects objects bvh.ids s l) ray filter := by
        rw [leafObjects_eq_map objects h3, scanHits_map hidsl k qh]
        refine ⟨hk, ?_⟩
        have hgd : (slice bvh.ids s l).getD k 0 = qi := by
          rw [List.getD_eq_getElem?_getD, List.getElem?_eq_getElem hk, hkq]
          rfl
        rw [hgd]
        exact hq
      have hlnan : ∀ p ∈ scanHits (leafObjects objects bvh.ids s l) ray filter,
          p.2.t.isNan = false := by
        intro p hp
        obtain ⟨pk, ph⟩ := p
        rw [leafObjects_eq_map objects h3, scanHits_map hidsl pk ph] at hp
        exact hnan ((slice bvh.ids s l).getD pk 0, ph) hp.2
      obtain ⟨y, hy, hyq⟩ := minFold_min hlnan hkmem
      refine ⟨⟨bvh.ids.getD (s + y.1) 0, y.2⟩, ?_, hyq⟩
      simp only [first_hit_scan]
      rw [hy]
      rfl
  | branch i b lft b₁ b₂ s l₁ l₂ J₁ J₂ h1 hlt hs1 hs2 h5 ih₁ ih₂ =>
    intro hJn fuel hfuel t_max htm qi qh hq hqm hblt
    cases fuel with
    | zero =>
      simp at hfuel
    | succ fuel =>
      have hqnan : qh.t.isNan = false := hnan (qi, qh) hq
      have hl1 := subtree_J_len_pos hs1
      have hl2 := subtree_J_len_pos hs2
      simp only [List.length_cons, List.length_append] at hJn hfuel
      have hsubB : Subtree objects bvh.nodes bvh.ids i b s (l₁ + l₂) (i :: (J₁ ++ J₂)) :=
        Subtree.branch i b lft b₁ b₂ s l₁ l₂ J₁ J₂ h1 hlt hs1 hs2 h5
      have hidsF : subtreeIdsF bvh bvh.nodes.length i = slice bvh.ids s (l₁ + l₂) :=
        subtree_idsF hsubB bvh.global_ids bvh.nodes.length
          (by simp only [List.length_cons, List.length_append]; omega)
      obtain ⟨e, he, _⟩ := hboxH i ⟨b, NodeKind.branch lft⟩ h1 qi qh hq
        (by rw [hidsF]; exact hqm)
      obtain ⟨k₁, hg1⟩ := subtree_head hs1
      obtain ⟨k₂, hg2⟩ := subtree_head hs2
      rw [firstHitImpl_succ_branch fuel t_max h1 he hg1 hg2]
      dsimp only
      have hidsF₁ : subtreeIdsF bvh bvh.nodes.length lft = slice bvh.ids s l₁ :=
        subtree_idsF hs1 bvh.global_ids bvh.nodes.length (by omega)
      have hidsF₂ : subtreeIdsF bvh bvh.nodes.length (lft + 1)
          = slice bvh.ids (s + l₁) l₂ :=
        subtree_idsF hs2 bvh.global_ids bvh.nodes.length (by omega)
      have hAnan₁ : ∀ (t : F) (oh : ObjectHit),
          firstHitImpl bvh objects ray filter fuel lft t = some oh →
          oh.hit.t.isNan = false :=
        fun t oh h => firstHitImpl_nonNan hids hnan hs1 fuel t oh h
      have hAnan₂ : ∀ (t : F) (oh : ObjectHit),
          firstHitImpl bvh objects ray filter fuel (lft + 1) t = some oh →
          oh.hit.t.isNan = false :=
        fun t oh h => firstHitImpl_nonNan hids hnan hs2 fuel t oh h
      rw [slice_split_at l₁ (Nat.le_add_right l₁ l₂),
        show l₁ + l₂ - l₁ = l₂ by omega] at hqm
      rcases List.mem_append.mp hqm with hq1 | hq2
      · obtain ⟨e₁, he₁, hle₁⟩ := hboxH lft ⟨b₁, k₁⟩ hg1 qi qh hq
          (by rw [hidsF₁]; exact hq1)
        have hBc : ∀ t, t.isNan = false → F.blt qh.t t = true →
            ∃ oh, firstHitImpl bvh objects ray filter fuel lft t = some oh ∧
              F.ble oh.hit.t qh.t = true :=
          fun t ht hbt => ih₁ (by omega) fuel (by omega) t ht qi qh hq hq1 hbt
        rw [he₁]
        simp only [Option.getD_some]
        by_cases hsw : (!(F.blt e₁ ((AxisBox.intersects b₂ ray).getD F.inf))) = true
        · rw [if_pos hsw, if_pos hsw, if_pos hsw, if_pos hsw]
          exact branch_complete_second ((AxisBox.intersects b₂ ray).getD F.inf) e₁ t_max
            (fun t => firstHitImpl bvh objects ray filter fuel (lft + 1) t)
            (fun t => firstHitImpl bvh objects ray filter fuel lft t)
            qh.t hqnan htm hle₁ hblt hBc hAnan₂ hAnan₁
        · rw [if_neg hsw, if_neg hsw, if_neg hsw, if_neg hsw]
          exact branch_complete_first e₁ ((AxisBox.intersects b₂ ray).getD F.inf) t_max
            (fun t => firstHitImpl bvh objects ray filter fuel lft t)
            (fun t => firstHitImpl bvh objects ray filter fuel (lft + 1) t)
            qh.t htm hle₁ hblt (hBc t_max htm hblt) hAnan₂
      · obtain ⟨e₂, he₂, hle₂⟩ := hboxH (lft + 1) ⟨b₂, k₂⟩ hg2 qi qh hq
          (by rw [hidsF₂]; exact hq2)
        have hBc : ∀ t, t.isNan = false → F.blt qh.t t = true →
            ∃ oh, firstHitImpl bvh objects ray filter fuel (lft + 1) t = some oh ∧
              F.ble oh.hit.t qh.t = true :=
          fun t ht hbt => ih₂ (by omega) fuel (by omega) t ht qi qh hq hq2 hbt
        rw [he₂]
        simp only [Option.getD_some]
        by_cases hsw : (!(F.blt ((AxisBox.intersects b₁ ray).getD F.inf) e₂)) = true
        · rw [if_pos hsw, if_pos hsw, if_pos hsw, if_pos hsw]
          exact branch_complete_first e₂ ((AxisBox.intersects b₁ ray).getD F.inf) t_max
            (fun t => firstHitImpl bvh objects ray filter fuel (lft + 1) t)
            (fun t => firstHitImpl bvh objects ray filter fuel lft t)
            qh.t htm hle₂ hblt (hBc t_max htm hblt) hAnan₁
        · rw [if_neg hsw, if_neg hsw, if_neg hsw, if_neg hsw]
          exact branch_complete_second ((AxisBox.intersects b₁ ray).getD F.inf) e₂ t_max
            (fun t => firstHitImpl bvh objects ray filter fuel lft t)
            (fun t => firstHitImpl bvh objects ray filter fuel (lft + 1) t)
            qh.t hqnan htm hle₂ hblt hBc hAnan₁ hAnan₂

theorem F.blt_inf_of_ne {t : F} (h1 : t.isNan = false) (h2 : t ≠ F.inf) :
    F.blt t F.inf = true := by
  cases t with
  | q a => rfl
  | inf => exact absurd rfl h2
  | ninf => rfl
  | nan => exact Bool.noConfusion h1

theorem closest_option_eq_none {a b : Option ObjectHit}
    (h : ObjectHit.closest_option a b = none) : a = none ∧ b = none := by
  rcases a with _ | x <;> rcases b with _ | y
  · exact ⟨rfl, rfl⟩
  · cases h
  · cases h
  · cases h

/-- The global-list scan over mapped objects only reports genuine scan hits
of the full object list. -/
theorem global_hit_sound {objects : List Object} {ray : Ray}
    {filter : Object → Bool} {gids : List ℕ}
    (hgids : ∀ id ∈ gids, id < objects.length) {oh : ObjectHit}
    (h : ((first_hit_scan (gids.map fun id => objects.getD id defaultObject)
        ray filter).map fun p => (⟨gids.getD p.1 0, p.2⟩ : ObjectHit)) = some oh) :
    ∃ qi qh, (qi, qh) ∈ scanHits objects ray filter ∧ oh = ⟨qi, qh⟩ := by
  rcases Option.map_eq_some'.mp h with ⟨p, hp, hoh⟩
  simp only [first_hit_scan] at hp
  have hmem := minFold_mem hp
  obtain ⟨k, kh⟩ := p
  rw [scanHits_map hgids k kh] at hmem
  exact ⟨gids.getD k 0, kh, hmem.2, hoh.symm⟩

/-- The global-list scan finds a hit at most as far as any scan hit whose
object id is in the global list. -/
theorem global_hit_complete {objects : List Object} {ray : Ray}
    {filter : Object → Bool} {gids : List ℕ}
    (hgids : ∀ id ∈ gids, id < objects.length)
    (hnan : ∀ q ∈ scanHits objects ray filter, q.2.t.isNan = false)
    {qi : ℕ} {qh : Hit} (hq : (qi, qh) ∈ scanHits objects ray filter)
    (hmem : qi ∈ gids) :
    ∃ oh, ((first_hit_scan (gids.map fun id => objects.getD id defaultObject)
        ray filter).map fun p => (⟨gids.getD p.1 0, p.2⟩ : ObjectHit)) = some oh ∧
      F.ble oh.hit.t qh.t = true := by
  obtain ⟨k, hk, hkq⟩ := List.getElem_of_mem hmem
  have hkm : (k, qh) ∈ scanHits (gids.map fun id => objects.getD id defaultObject)
      ray filter := by
    rw [scanHits_map hgids k qh]
    refine ⟨hk, ?_⟩
    have hgd : gids.getD k 0 = qi := by
      rw [List.getD_eq_getElem?_getD, List.getElem?_eq_getElem hk, hkq]
      rfl
    rw [hgd]
    exact hq
  have hlnan : ∀ p ∈ scanHits (gids.map fun id => objects.getD id defaultObject)
      ray filter, p.2.t.isNan = false := by
    intro p hp
    obtain ⟨pk, ph⟩ := p
    rw [scanHits_map hgids pk ph] at hp
    exact hnan (gids.getD pk 0, ph) hp.2
  obtain ⟨y, hy, hyq⟩ := minFold_min hlnan hkm
  refine ⟨⟨gids.getD y.1 0, y.2⟩, ?_, hyq⟩
  simp only [first_hit_scan]
  rw [hy]
  rfl

/-- `<Accel for BVH>::first_hit` with its local lets expanded. -/
theorem BVH_first_hit_eq (bvh : BVH) (objects : List Object) (ray : Ray)
    (filter : Object → Bool) :
    BVH.first_hit bvh objects ray filter =
      if bvh.nodes.isEmpty then
        ((first_hit_scan (bvh.global_ids.map fun id => objects.getD id defaultObject)
          ray filter).map fun p => (⟨bvh.global_ids.getD p.1 0, p.2⟩ : ObjectHit))
      else
        ObjectHit.closest_option
          ((first_hit_scan (bvh.global_ids.map fun id => objects.getD id defaultObject)
            ray filter).map fun p => (⟨bvh.global_ids.getD p.1 0, p.2⟩ : ObjectHit))
          (firstHitImpl bvh objects ray filter bvh.nodes.length 0
            ((((first_hit_scan (bvh.global_ids.map fun id => objects.getD id defaultObject)
                ray filter).map fun p =>
                  (⟨bvh.global_ids.getD p.1 0, p.2⟩ : ObjectHit)).map
              fun oh => oh.hit.t).getD F.inf)) := rfl

/-- C1: the claimed unconditional equivalence of `BVH::first_hit` with the
brute-force linear scan is false (the slab test's `exit > 0` condition
prunes hits at `t = 0` that the brute-force scan reports, and
`ObjectHit::closest` breaks ties towards the RIGHT argument, so ties in `t`
are not broken by scan order).  Amended statement: for every object list,
split strategy, ray and filter such that (a) every scan hit's `t` is neither
NaN nor `+inf` and (b) every node's bound admits the ray at an entry `t` no
later than any scan hit whose object lies in that node's subtree, the BVH
traversal misses exactly when the brute-force scan misses, and any hit it
returns is a genuine filtered scan hit of minimal `t` among all scan hits
(ties possibly resolved differently from scan order). -/
theorem bvh_first_hit_spec (objects : List Object) (strategy : BVHSplitStrategy)
    (ray : Ray) (filter : Object → Bool)
    (H_t : ∀ q ∈ scanHits objects ray filter,
      q.2.t.isNan = false ∧ q.2.t ≠ F.inf)
    (H_box : ∀ j nd, (BVH.new objects strategy).nodes.get? j = some nd →
      ∀ qi qh, (qi, qh) ∈ scanHits objects ray filter →
        qi ∈ subtreeIdsF (BVH.new objects strategy)
          (BVH.new objects strategy).nodes.length j →
        ∃ e, AxisBox.intersects nd.bound ray = some e ∧ F.ble e qh.t = true) :
    (BVH.first_hit (BVH.new objects strategy) objects ray filter = none ↔
      linear_first_hit objects ray filter = none) ∧
    (∀ oh, BVH.first_hit (BVH.new objects strategy) objects ray filter = some oh →
      (∃ qi qh, (qi, qh) ∈ scanHits objects ray filter ∧ oh = ⟨qi, qh⟩) ∧
      (∀ qi qh, (qi, qh) ∈ scanHits objects ray filter →
        F.ble oh.hit.t qh.t = true)) := by
  obtain ⟨hfin, hglob, hperm, htree⟩ := bvh_new_spec objects strategy
  have hids : ∀ id ∈ (BVH.new objects strategy).ids, id < objects.length := by
    intro id hid
    exact List.mem_range.mp (hperm.mem_iff.mp (List.mem_append.mpr (Or.inl hid)))
  have hgids : ∀ id ∈ (BVH.new objects strategy).global_ids, id < objects.length := by
    intro id hid
    exact List.mem_range.mp (hperm.mem_iff.mp (List.mem_append.mpr (Or.inr hid)))
  have hnan : ∀ q ∈ scanHits objects ray filter, q.2.t.isNan = false :=
    fun q hq => (H_t q hq).1
  have hsplitq : ∀ qi qh, (qi, qh) ∈ scanHits objects ray filter →
      qi ∈ (BVH.new objects strategy).ids ∨
      qi ∈ (BVH.new objects strategy).global_ids := by
    intro qi qh hq
    have h1 : qi < objects.length := (scanHits_mem.mp hq).1
    exact List.mem_append.mp (hperm.mem_iff.mpr (List.mem_range.mpr h1))
  have hlin : linear_first_hit objects ray filter = none ↔
      scanHits objects ray filter = [] := by
    unfold linear_first_hit first_hit_scan
    rw [Option.map_eq_none']
    exact minFold_none_iff _
  have hgnil : scanHits objects ray filter = [] →
      scanHits ((BVH.new objects strategy).global_ids.map
        fun id => objects.getD id defaultObject) ray filter = [] := by
    intro hs
    rcases hsg : scanHits ((BVH.new objects strategy).global_ids.map
        fun id => objects.getD id defaultObject) ray filter with _ | ⟨⟨k, kh⟩, rest⟩
    · rfl
    · exfalso
      have hm : (k, kh) ∈ scanHits ((BVH.new objects strategy).global_ids.map
          fun id => objects.getD id defaultObject) ray filter := by
        rw [hsg]
        exact List.mem_cons_self _ _
      rw [scanHits_map hgids k kh, hs] at hm
      exact List.not_mem_nil _ hm.2
  by_cases hemp : (BVH.new objects strategy).nodes.isEmpty = true
  · have hidsnil : (BVH.new objects strategy).ids = [] := by
      rcases htree with ⟨h1, _⟩ | ⟨_, b, J, hsub, hJ⟩
      · exact h1
      · exfalso
        have hpos := subtree_J_len_pos hsub
        have hJl : J.length = (BVH.new objects strategy).nodes.length := by
          simpa using hJ.length_eq
        rcases hn : (BVH.new objects strategy).nodes with _ | ⟨x, xs⟩
        · rw [hn] at hJl
          simp only [List.length_nil] at hJl
          omega
        · rw [hn] at hemp
          exact Bool.noConfusion hemp
    have hfh : BVH.first_hit (BVH.new objects strategy) objects ray filter =
        ((first_hit_scan ((BVH.new objects strategy).global_ids.map
          fun id => objects.getD id defaultObject) ray filter).map
          fun p => (⟨(BVH.new objects strategy).global_ids.getD p.1 0, p.2⟩
            : ObjectHit)) := by
      rw [BVH_first_hit_eq, if_pos hemp]
    constructor
    · rw [hfh, hlin]
      constructor
      · intro hgn
        rcases hse : scanHits objects ray filter with _ | ⟨⟨qi, qh⟩, rest⟩
        · rfl
        · exfalso
          have hqm : (qi, qh) ∈ scanHits objects ray filter := by
            rw [hse]
            exact List.mem_cons_self _ _
          rcases hsplitq qi qh hqm with hin | hin
          · rw [hidsnil] at hin
            exact List.not_mem_nil _ hin
          · obtain ⟨oh, hoh, _⟩ := global_hit_complete hgids hnan hqm hin
            rw [hoh] at hgn
            cases hgn
      · intro hs
        simp only [first_hit_scan, hgnil hs]
        rfl
    · intro oh hoh
      rw [hfh] at hoh
      refine ⟨global_hit_sound hgids hoh, ?_⟩
      intro qj qjh hqj
      rcases hsplitq qj qjh hqj with hin | hin
      · rw [hidsnil] at hin
        exact absurd hin (List.not_mem_nil _)
      · obtain ⟨oh2, hoh2, hle2⟩ := global_hit_complete hgids hnan hqj hin
        rw [hoh] at hoh2
        rw [show oh = oh2 from Option.some.inj hoh2]
        exact hle2
  · rcases htree with ⟨_, hn⟩ | ⟨hne, b, J, hsub, hJ⟩
    · exfalso
      rw [hn] at hemp
      exact hemp rfl
    have hJlen : J.length = (BVH.new objects strategy).nodes.length := by
      simpa using hJ.length_eq
    have hJn : J.length ≤ (BVH.new objects strategy).nodes.length := le_of_eq hJlen
    have hcomp := firstHitImpl_complete hids hnan H_box hsub hJn
      (BVH.new objects strategy).nodes.length hJn
    have hsound := @firstHitImpl_sound (BVH.new objects strategy) objects ray filter
      hids 0 b 0 (BVH.new objects strategy).ids.length J hsub
    have hslice : ∀ qi, qi ∈ (BVH.new objects strategy).ids →
        qi ∈ slice (BVH.new objects strategy).ids 0
          (BVH.new objects strategy).ids.length := by
      intro qi h
      rwa [slice_whole]
    constructor
    · rw [BVH_first_hit_eq, if_neg hemp, hlin]
      constructor
      · intro hcl
        obtain ⟨hg, ht⟩ := closest_option_eq_none hcl
        rcases hse : scanHits objects ray filter with _ | ⟨⟨qi, qh⟩, rest⟩
        · rfl
        · exfalso
          have hqm : (qi, qh) ∈ scanHits objects ray filter := by
            rw [hse]
            exact List.mem_cons_self _ _
          rcases hsplitq qi qh hqm with hin | hin
          · have hblt : F.blt qh.t F.inf = true :=
              F.blt_inf_of_ne (H_t (qi, qh) hqm).1 (H_t (qi, qh) hqm).2
            rw [hg] at ht
            simp only [Option.map_none', Option.getD_none] at ht
            obtain ⟨oh, hoh, _⟩ := hcomp F.inf rfl qi qh hqm (hslice qi hin) hblt
            rw [hoh] at ht
            cases ht
          · obtain ⟨oh, hoh, _⟩ := global_hit_complete hgids hnan hqm hin
            rw [hoh] at hg
            cases hg
      · intro hs
        have hgn : ((first_hit_scan ((BVH.new objects strategy).global_ids.map
            fun id => objects.getD id defaultObject) ray filter).map
            fun p => (⟨(BVH.new objects strategy).global_ids.getD p.1 0, p.2⟩
              : ObjectHit)) = none := by
          simp only [first_hit_scan, hgnil hs]
          rfl
        rw [hgn, closest_option_none_left]
        simp only [Option.map_none', Option.getD_none]
        rcases htr : firstHitImpl (BVH.new objects strategy) objects ray filter
            (BVH.new objects strategy).nodes.length 0 F.inf with _ | oh
        · rfl
        · exfalso
          obtain ⟨qi, qh, hq, _, _⟩ := hsound _ _ _ htr
          rw [hs] at hq
          exact List.not_mem_nil _ hq
    · intro oh hoh
      rw [BVH_first_hit_eq, if_neg hemp] at hoh
      rcases hg : ((first_hit_scan ((BVH.new objects strategy).global_ids.map
          fun id => objects.getD id defaultObject) ray filter).map
          fun p => (⟨(BVH.new objects strategy).global_ids.getD p.1 0, p.2⟩
            : ObjectHit)) with _ | g
      · rw [hg, closest_option_none_left] at hoh
        simp only [Option.map_none', Option.getD_none] at hoh
        obtain ⟨qi, qh, hq, he, _⟩ := hsound _ _ _ hoh
        refine ⟨⟨qi, qh, hq, he⟩, ?_⟩
        intro qj qjh hqj
        rcases hsplitq qj qjh hqj with hin | hin
        · have hblt : F.blt qjh.t F.inf = true :=
            F.blt_inf_of_ne (H_t (qj, qjh) hqj).1 (H_t (qj, qjh) hqj).2
          obtain ⟨oh2, hoh2, hle2⟩ := hcomp F.inf rfl qj qjh hqj (hslice qj hin) hblt
          rw [hoh] at hoh2
          rw [show oh = oh2 from Option.some.inj hoh2]
          exact hle2
        · obtain ⟨oh2, hoh2, _⟩ := global_hit_complete hgids hnan hqj hin
          rw [hg] at hoh2
          cases hoh2
      · rw [hg] at hoh
        simp only [Option.map_some', Option.getD_some] at hoh
        have hgnan : g.hit.t.isNan = false := by
          obtain ⟨qi, qh, hq, he⟩ := global_hit_sound hgids hg
          rw [he]
          exact (H_t (qi, qh) hq).1
        rcases htr : firstHitImpl (BVH.new objects strategy) objects ray filter
            (BVH.new objects strategy).nodes.length 0 g.hit.t with _ | tr
        · rw [htr] at hoh
          have hog : g = oh := Option.some.inj hoh
          refine ⟨?_, ?_⟩
          · obtain ⟨qi, qh, hq, he⟩ := global_hit_sound hgids hg
            exact ⟨qi, qh, hq, by rw [← hog, he]⟩
          · intro qj qjh hqj
            have hqjnan := hnan (qj, qjh) hqj
            rcases hsplitq qj qjh hqj with hin | hin
            · by_cases hbq : F.blt qjh.t g.hit.t = true
              · obtain ⟨oh2, hoh2, _⟩ := hcomp g.hit.t hgnan qj qjh hqj
                  (hslice qj hin) hbq
                rw [htr] at hoh2
                cases hoh2
              · have hbf : F.blt qjh.t g.hit.t = false := by
                  simpa using hbq
                rw [← hog]
                exact F.ble_of_not_blt hqjnan hgnan hbf
            · obtain ⟨oh2, hoh2, hle2⟩ := global_hit_complete hgids hnan hqj hin
              rw [hg] at hoh2
              have hgo : g = oh2 := Option.some.inj hoh2
              rw [← hog, hgo]
              exact hle2
        · rw [htr] at hoh
          have hog : ObjectHit.closest g tr = oh := Option.some.inj hoh
          have htrnan : tr.hit.t.isNan = false := by
            obtain ⟨qi, qh, hq, he, _⟩ := hsound _ _ _ htr
            rw [he]
            exact hnan (qi, qh) hq
          refine ⟨?_, ?_⟩
          · rcases closest_eq_or g tr with hc | hc
            · obtain ⟨qi, qh, hq, he⟩ := global_hit_sound hgids hg
              exact ⟨qi, qh, hq, by rw [← hog, hc, he]⟩
            · obtain ⟨qi, qh, hq, he, _⟩ := hsound _ _ _ htr
              exact ⟨qi, qh, hq, by rw [← hog, hc, he]⟩
          · intro qj qjh hqj
            have hqjnan := hnan (qj, qjh) hqj
            rcases hsplitq qj qjh hqj with hin | hin
            · by_cases hbq : F.blt qjh.t g.hit.t = true
              · obtain ⟨oh2, hoh2, hle2⟩ := hcomp g.hit.t hgnan qj qjh hqj
                  (hslice qj hin) hbq
                rw [htr] at hoh2
                have htro : tr = oh2 := Option.some.inj hoh2
                have h2 : F.ble tr.hit.t qjh.t = true := by
                  rw [htro]
                  exact hle2
                rw [← hog]
                exact F.ble_trans (closest_le_right htrnan) h2
              · have hbf : F.blt qjh.t g.hit.t = false := by
                  simpa using hbq
                have h2 : F.ble g.hit.t qjh.t = true :=
                  F.ble_of_not_blt hqjnan hgnan hbf
                rw [← hog]
                exact F.ble_trans (closest_le_left hgnan htrnan) h2
            · obtain ⟨oh2, hoh2, hle2⟩ := global_hit_complete hgids hnan hqj hin
              rw [hg] at hoh2
              have hgo : g = oh2 := Option.some.inj hoh2
              have h2 : F.ble g.hit.t qjh.t = true := by
                rw [hgo]
                exact hle2
              rw [← hog]
              exact F.ble_trans (closest_le_left hgnan htrnan) h2

/-- The tree built over the single unit sphere at the origin: one leaf node
bounding `[-1,1]^3`. -/
theorem bvh_sphere_new :
    BVH.new [sphereObj] BVHSplitStrategy.SplitLargestAxis
      = ⟨[], [0], [⟨⟨⟨F.q (-1), F.q (-1), F.q (-1)⟩, ⟨F.q 1, F.q 1, F.q 1⟩⟩,
          NodeKind.leaf 0 1⟩]⟩ := by
  have hpr : (([0], 1) : List ℕ × ℕ) = partitionIt (fun id =>
      AxisBox.is_finite (AxisBox.for_shape ([sphereObj].getD id defaultObject).shape))
      (List.range [sphereObj].length) := by
    norm_num [partitionIt, partitionItAux, splitLastP, sphereObj, AxisBox.for_shape,
      AxisBox.is_finite, F.isFinite, defaultObject, List.range_succ]
  have hnew := BVH_new_eq [sphereObj] BVHSplitStrategy.SplitLargestAxis ([0], 1) hpr
  rw [if_neg (by norm_num)] at hnew
  norm_num at hnew
  have h1r : (([build_leaf [sphereObj] [0] 0 1] : List Node)).get? 0
      = some ⟨compute_bound [sphereObj] [0] 0 1, NodeKind.leaf 0 1⟩ := rfl
  have hfb : find_best_split BVHSplitStrategy.SplitLargestAxis [sphereObj] [0] 0 1
      (compute_bound [sphereObj] [0] 0 1) = some (Axis3.Z, F.q 0) := by
    norm_num [find_best_split, find_best_split_largest_axis, compute_bound,
      sliceBoxes, boxesReduce, combineO, getObject, sphereObj, defaultObject,
      AxisBox.for_object, AxisBox.for_shape, AxisBox.transformBox, AxisBox.corners,
      Transform.mulPoint, Transform.idT, Matrix4.identity, Matrix4.dotRow, emptyBox,
      Point3.pmin, Point3.pmax, Point3.subp, Point3.get, Vec3.get, Vec3.sub,
      Vec3.add, Vec3.neg, Vec3.smul, Point3.from_coords, Point3.coords, slice,
      List.range_succ]
  have hpr2 : (([0], 0) : List ℕ × ℕ) = partitionIt (fun id =>
      F.blt ((object_centroid ([sphereObj].getD id defaultObject)).get Axis3.Z)
        (F.q 0)) (slice ([0] : List ℕ) 0 1) := by
    norm_num [partitionIt, partitionItAux, splitLastP, slice, object_centroid,
      Point3.middle, getObject, sphereObj, defaultObject, AxisBox.for_object,
      AxisBox.for_shape, AxisBox.transformBox, AxisBox.corners, Transform.mulPoint,
      Transform.idT, Matrix4.identity, Matrix4.dotRow, Point3.pmin, Point3.pmax,
      Point3.get, Vec3.get, Point3.from_coords, Point3.coords]
  have hstop := @splitGo_succ_stop [sphereObj] BVHSplitStrategy.SplitLargestAxis
    ⟨[0], [build_leaf [sphereObj] [0] 0 1]⟩ 0 0 1 _ _ _ 0 h1r hfb ([0], 0) hpr2
    (Or.inl rfl)
  norm_num [writeSlice, slice] at hstop
  rw [hstop] at hnew
  have hbound : compute_bound [sphereObj] [0] 0 1
      = ⟨⟨F.q (-1), F.q (-1), F.q (-1)⟩, ⟨F.q 1, F.q 1, F.q 1⟩⟩ := by
    norm_num [compute_bound, sliceBoxes, boxesReduce, combineO, getObject,
      sphereObj, defaultObject, AxisBox.for_object, AxisBox.for_shape,
      AxisBox.transformBox, AxisBox.corners, Transform.mulPoint, Transform.idT,
      Matrix4.identity, Matrix4.dotRow, emptyBox, Point3.pmin, Point3.pmax,
      Point3.from_coords, Point3.coords, slice, List.range_succ]
  rw [hnew]
  norm_num [build_leaf, hbound]

/-- The brute-force scan of the sphere scene along `rayZ`: the single hit at
`t = 3`. -/
theorem scanHits_sphere_rayZ :
    scanHits [sphereObj] rayZ (fun _ => true)
      = [(0, ⟨F.q 3, ⟨F.q 0, F.q 0, F.q (-1)⟩, ⟨F.q 0, F.q 0, F.q (-1)⟩⟩)] := by
  have hint : Object.intersect sphereObj rayZ
      = some ⟨F.q 3, ⟨F.q 0, F.q 0, F.q (-1)⟩, ⟨F.q 0, F.q 0, F.q (-1)⟩⟩ := by
    norm_num [Object.intersect, intersect_transformed_shape, sphereObj, rayZ,
      Ray.transformR, Transform.invT, Transform.idT, Transform.mulPoint,
      Transform.mulVec, Transform.inv_transpose_mul, Matrix4.identity,
      Matrix4.transpose, Matrix4.dotRow, Vec3.normalizedD, Vec3.try_normalized,
      Vec3.norm, Vec3.norm_squared, Vec3.dot, Vec3.sdiv, Vec3.add, Vec3.neg,
      Vec3.smul, Point3.coords, Point3.from_coords, Point3.addv,
      sphere_intersect, sqrtQ_one, Ray.atT, Hit.transformH]
  norm_num [scanHits, List.enum, List.enumFrom, List.filterMap_cons,
    List.filterMap_nil, Option.map_some', hint]

/-- C1 counterexample: a unit sphere at the origin, the ray starting on its
surface at `(0,0,1)` pointing away.  The brute-force scan reports the
tangent hit at `t = 0`, but the slab test's `exit > 0` condition rejects the
root node's box (`exit = 0`), so the BVH traversal answers `none`. -/
theorem bvh_first_hit_cex :
    linear_first_hit [sphereObj] rayT0 (fun _ => true)
        = some ⟨0, ⟨F.q 0, ⟨F.q 0, F.q 0, F.q 1⟩, ⟨F.q 0, F.q 0, F.q 1⟩⟩⟩ ∧
    BVH.first_hit (BVH.new [sphereObj] BVHSplitStrategy.SplitLargestAxis)
        [sphereObj] rayT0 (fun _ => true) = none := by
  have hint : Object.intersect sphereObj rayT0
      = some ⟨F.q 0, ⟨F.q 0, F.q 0, F.q 1⟩, ⟨F.q 0, F.q 0, F.q 1⟩⟩ := by
    norm_num [Object.intersect, intersect_transformed_shape, sphereObj, rayT0,
      Ray.transformR, Transform.invT, Transform.idT, Transform.mulPoint,
      Transform.mulVec, Transform.inv_transpose_mul, Matrix4.identity,
      Matrix4.transpose, Matrix4.dotRow, Vec3.normalizedD, Vec3.try_normalized,
      Vec3.norm, Vec3.norm_squared, Vec3.dot, Vec3.sdiv, Vec3.add, Vec3.neg,
      Vec3.smul, Point3.coords, Point3.from_coords, Point3.addv,
      sphere_intersect, sqrtQ_one, Ray.atT, Hit.transformH]
  have hlin : linear_first_hit [sphereObj] rayT0 (fun _ => true)
      = some ⟨0, ⟨F.q 0, ⟨F.q 0, F.q 0, F.q 1⟩, ⟨F.q 0, F.q 0, F.q 1⟩⟩⟩ := by
    norm_num [linear_first_hit, first_hit_scan, scanHits, minFold, List.enum,
      List.enumFrom, List.filterMap_cons, List.filterMap_nil, List.foldl_cons,
      List.foldl_nil, Option.map_some', hint]
  refine ⟨hlin, ?_⟩
  rw [bvh_sphere_new, BVH_first_hit_eq]
  norm_num [firstHitImpl, first_hit_scan, scanHits, minFold, AxisBox.intersects,
    Axis3.ALL, rayT0, Point3.get, Vec3.get, List.enum, List.enumFrom,
    ObjectHit.closest_option]

theorem bvh_first_hit_spec_witness :
    (BVH.first_hit (BVH.new [sphereObj] BVHSplitStrategy.SplitLargestAxis)
        [sphereObj] rayZ (fun _ => true) = none ↔
      linear_first_hit [sphereObj] rayZ (fun _ => true) = none) ∧
    (∀ oh, BVH.first_hit (BVH.new [sphereObj] BVHSplitStrategy.SplitLargestAxis)
        [sphereObj] rayZ (fun _ => true) = some oh →
      (∃ qi qh, (qi, qh) ∈ scanHits [sphereObj] rayZ (fun _ => true) ∧
        oh = ⟨qi, qh⟩) ∧
      (∀ qi qh, (qi, qh) ∈ scanHits [sphereObj] rayZ (fun _ => true) →
        F.ble oh.hit.t qh.t = true)) :=
  bvh_first_hit_spec [sphereObj] BVHSplitStrategy.SplitLargestAxis rayZ
    (fun _ => true)
    (by
      rw [scanHits_sphere_rayZ]
      intro q hq
      rw [List.mem_singleton] at hq
      subst hq
      exact ⟨rfl, fun h => F.noConfusion h⟩)
    (by
      rw [bvh_sphere_new]
      intro j nd hj qi qh hq hmem
      rcases j with _ | j
      · have hnd : (⟨⟨⟨F.q (-1), F.q (-1), F.q (-1)⟩, ⟨F.q 1, F.q 1, F.q 1⟩⟩,
            NodeKind.leaf 0 1⟩ : Node) = nd := Option.some.inj hj
        rw [scanHits_sphere_rayZ, List.mem_singleton, Prod.mk.injEq] at hq
        obtain ⟨h1, h2⟩ := hq
        refine ⟨F.q 3, ?_, ?_⟩
        · rw [← hnd]
          norm_num [AxisBox.intersects, Axis3.ALL, rayZ, Point3.get, Vec3.get]
        · rw [h2]
          norm_num
      · exact Option.noConfusion hj)
